import Mathlib

/-!
Visible text of a DOM element (`get_text_android.js`).

A shallow embedding of the visibility oracle `P` (isShown) and the text
collector `R` / `ra` (visibleText) of the bundle, together with the helpers
they call: `s`, `ga`, `C`, `la`, `D`, `E`, `K`, `L`, `oa`, `M`, `N`, `O`,
`pa`, `sa`, `Q`, and the regular expressions `ta` and `qa`.

Conventions of the embedding.

* JavaScript strings are lists of characters (`Str`).  All characters the
  code inspects (whitespace, the ASCII space) lie in the basic plane, so code
  units and code points agree for every operation modelled here.
* A node reference is a path from the document root, nearest child index
  first: the parent of `i :: p` is `p`.  A path that resolves to no node
  plays the role of `null`.
* The document is the mutable state.  Only `pa` writes to it (the inline
  style of one element); every function that can reach `pa` returns the
  resulting document next to its value.
* The answers of the host engine are data of the tree: the computed style,
  the layout and the rendered text of an element (`Elem`), and for the
  document the window test of the `TITLE` rule and its XPath support (`Host`).
* The self-calls of `P` are not bounded by the code (a `MAP` whose `usemap`
  reference leads back to itself); the engine ends such a run when its call
  stack is used up.  `P` therefore takes the number of nested calls of `P` the
  stack has room for, and a call that needs more has the outcome
  `Res.overflow`, the engine's `RangeError`.  Stack use of the other functions
  is bounded by the depth of the tree and is not counted.
* Numbers are IEEE 754 doubles, with the exact result of every operation
  rounded to nearest, ties to even.
-/

namespace GetText

/-! ## Strings -/

/-- JavaScript string values. -/
abbrev Str := List Char

/-- Source path of a node: child indices, nearest first. -/
abbrev Path := List Nat

/-- The character class `[\s\xa0]` of the regular expressions in `s` and `S`
(ECMAScript 5 `WhiteSpace` and `LineTerminator`; `\xa0` is already in `\s`). -/
def isWs (c : Char) : Bool :=
  c.toNat = 9 || c.toNat = 10 || c.toNat = 11 || c.toNat = 12 || c.toNat = 13 ||
  c.toNat = 32 || c.toNat = 160 || c.toNat = 0x1680 || c.toNat = 0x180e ||
  (0x2000 ≤ c.toNat && c.toNat ≤ 0x200a) || c.toNat = 0x2028 || c.toNat = 0x2029 ||
  c.toNat = 0x202f || c.toNat = 0x205f || c.toNat = 0x3000 || c.toNat = 0xfeff

/-- Trim of the source: `function s(a){return a.replace(/^[\s\xa0]+|[\s\xa0]+$/g,"")}`.
The leading run and the trailing run of whitespace are removed. -/
def s (a : Str) : Str :=
  (a.dropWhile isWs).rdropWhile isWs

/-- Scanner for `replace(ta, " ")` with `ta = RegExp("[\\s\\xa0 ]+", "g")`:
`inRun` tells that the previous character belonged to the match being
replaced, whose single replacement space has already been emitted. -/
def replaceTaGo : Bool → Str → Str
  | _, [] => []
  | inRun, c :: cs =>
    if isWs c then
      if inRun then replaceTaGo true cs else ' ' :: replaceTaGo true cs
    else c :: replaceTaGo false cs

/-- The collapse step `d.nodeValue.replace(ta, " ")` of `R`. -/
def replaceTa (d : Str) : Str :=
  replaceTaGo false d

/-- The test `qa.test(x)` with `qa = RegExp("^[\\s\\xa0 ]+$")`: `x` is non-empty
and consists of whitespace only. -/
def qaTest (x : Str) : Bool :=
  x != [] && x.all isWs

/-- Upper-casing of a letter `a`..`z` (the callback of `ga` sees no other
character). -/
def upperChar (c : Char) : Char :=
  if 97 ≤ c.toNat ∧ c.toNat ≤ 122 then Char.ofNat (c.toNat - 32) else c

/-- Upper-case form of one character under the Unicode case mapping of
`toUpperCase` (`UnicodeData` and `SpecialCasing`), for every character whose
form is made of ASCII characters: the letters `a`..`z`, the dotless i
(U+0131), the long s (U+017F), the sharp s (U+00DF, `SS`) and the ligatures
U+FB00..U+FB06 (`FF`, `FI`, `FL`, `FFI`, `FFL`, `ST`, `ST`).  The form of any
other character outside ASCII contains a character outside ASCII; such a
character is kept as it is, which gives the same answer whenever the result is
compared with an ASCII string, the only use the code makes of it. -/
def upperForm (c : Char) : Str :=
  if 97 ≤ c.toNat ∧ c.toNat ≤ 122 then [Char.ofNat (c.toNat - 32)]
  else if c.toNat = 0x131 then ['I']
  else if c.toNat = 0x17f then ['S']
  else if c.toNat = 0xdf then ['S', 'S']
  else if c.toNat = 0xfb00 then ['F', 'F']
  else if c.toNat = 0xfb01 then ['F', 'I']
  else if c.toNat = 0xfb02 then ['F', 'L']
  else if c.toNat = 0xfb03 then ['F', 'F', 'I']
  else if c.toNat = 0xfb04 then ['F', 'F', 'L']
  else if c.toNat = 0xfb05 ∨ c.toNat = 0xfb06 then ['S', 'T']
  else [c]

/-- Lower-case form of one character under the Unicode case mapping of
`toLowerCase`, for every character whose form is ASCII: the letters `A`..`Z`
and the Kelvin sign (U+212A).  Any other character outside ASCII has a form
outside ASCII and is kept as it is. -/
def lowerChar (c : Char) : Char :=
  if 65 ≤ c.toNat ∧ c.toNat ≤ 90 then Char.ofNat (c.toNat + 32)
  else if c.toNat = 0x212a then 'k'
  else c

/-- The method `toUpperCase`, as `L` applies it to tag names before the
comparison with an ASCII name. -/
def toUpperCase (a : Str) : Str :=
  (a.map upperForm).flatten

/-- The method `toLowerCase` on the `type` of an input and on attribute names. -/
def toLowerCase (a : Str) : Str :=
  a.map lowerChar

/-- Camel-casing of a style property name:
`function ga(a){return ... String(a).replace(/\-([a-z])/g, function(b,c){return c.toUpperCase()})}`. -/
def ga : Str → Str
  | [] => []
  | [c] => [c]
  | c :: d :: rest =>
    if c = '-' ∧ 97 ≤ d.toNat ∧ d.toNat ≤ 122 then upperChar d :: ga rest
    else c :: ga (d :: rest)

/-- The method `join("\n")` of an array of strings. -/
def joinLines : List Str → Str
  | [] => []
  | [l] => l
  | l :: m :: ls => l ++ '\n' :: joinLines (m :: ls)

/-! ## Numbers

The only arithmetic of the bundle that reaches the oracle is `Number(c)`, a
product, and a comparison with zero (in `Q` and `P`).  Numbers are IEEE 754
doubles: the exact value of a literal or of a product is rounded to the
nearest double, ties to even; it becomes an infinity at `2 ^ 1024` and above,
and a denormal or zero below `2 ^ (-1022)`. -/

/-- A double: `NaN`, an infinity, or the finite value `(-1) ^ neg * m * 2 ^ e`. -/
inductive Num where
  | nan
  | inf (neg : Bool)
  | fin (neg : Bool) (m : Nat) (e : Int)
deriving DecidableEq, Repr

/-- The number `1`, the initial value `var b=1` of `Q`. -/
def Num.one : Num :=
  .fin false 1 0

/-- Number of halvings that bring `n` below `2`, at most `f` of them. -/
def log2Go : Nat → Nat → Nat
  | 0, _ => 0
  | f + 1, n => if n < 2 then 0 else log2Go f (n / 2) + 1

/-- Position of the leading binary digit of `n`: the floor of its logarithm
to base `2` (`0` for `n = 0`). -/
def log2 (n : Nat) : Nat :=
  log2Go n n

/-- Floor of the logarithm to base `2` of the fraction `n / d`, for positive
`n` and `d`. -/
def floorLog2 (n d : Nat) : Int :=
  if (if log2 d ≤ log2 n then d <<< (log2 n - log2 d) ≤ n
      else d ≤ n <<< (log2 d - log2 n))
  then (log2 n : Int) - (log2 d : Int)
  else (log2 n : Int) - (log2 d : Int) - 1

/-- Integer nearest to `n / d`, the even one of two that are equally near. -/
def roundHalfEven (n d : Nat) : Nat :=
  if 2 * (n % d) < d then n / d
  else if d < 2 * (n % d) then n / d + 1
  else if (n / d) % 2 = 0 then n / d else n / d + 1

/-- The double nearest to `(-1) ^ neg * n / d` (round to nearest, ties to
even).  The unit of the last place is `2 ^ t` with `t` the exponent of the
value less `52`, and not less than `-1074`; a result of `2 ^ 1024` or more is
an infinity. -/
def Num.round (neg : Bool) (n d : Nat) : Num :=
  if n = 0 then .fin neg 0 0
  else if 0 ≤ max (floorLog2 n d - 52) (-1074) then
    if 1 <<< 1024 ≤ roundHalfEven n (d <<< (max (floorLog2 n d - 52) (-1074)).toNat)
        <<< (max (floorLog2 n d - 52) (-1074)).toNat then .inf neg
    else .fin neg (roundHalfEven n (d <<< (max (floorLog2 n d - 52) (-1074)).toNat))
      (max (floorLog2 n d - 52) (-1074))
  else .fin neg (roundHalfEven (n <<< (-(max (floorLog2 n d - 52) (-1074))).toNat) d)
      (max (floorLog2 n d - 52) (-1074))

/-- Product of two numbers (`b *= Q(a)`): `NaN` when a factor is `NaN` or the
factors are zero and an infinity, an infinity when one factor is, and
otherwise the rounded exact product; the sign is the product of the signs. -/
def Num.mul : Num → Num → Num
  | .nan, _ => .nan
  | _, .nan => .nan
  | .inf a, .inf b => .inf (a != b)
  | .inf a, .fin b m _ => if m = 0 then .nan else .inf (a != b)
  | .fin a m _, .inf b => if m = 0 then .nan else .inf (a != b)
  | .fin a m e, .fin b n f =>
    if 0 ≤ e + f then Num.round (a != b) ((m * n) <<< (e + f).toNat) 1
    else Num.round (a != b) (m * n) (1 <<< (-(e + f)).toNat)

/-- The comparison `x == 0` (true for both zeros). -/
def Num.isZero : Num → Bool
  | .fin _ m _ => m == 0
  | _ => false

/-- The number is finite and lies in the interval from `0` to `1`. -/
def Num.inUnit : Num → Bool
  | .fin neg m e =>
    (!neg || m == 0) && (if 0 ≤ e then m <<< e.toNat ≤ 1 else m ≤ 1 <<< (-e).toNat)
  | _ => false

/-- Product of a list of numbers, associated to the right as the recursion
of `Q` multiplies: `x1 * (x2 * (... * xn))`. -/
def Num.prod : List Num → Num
  | [] => Num.one
  | [x] => x
  | x :: y :: r => x.mul (Num.prod (y :: r))

/-- Power of ten. -/
def pow10 : Nat → Nat
  | 0 => 1
  | k + 1 => 10 * pow10 k

/-- Decimal digit test. -/
def isDigit (c : Char) : Bool :=
  48 ≤ c.toNat && c.toNat ≤ 57

/-- Hexadecimal digit value. -/
def hexDigit (c : Char) : Option Nat :=
  if 48 ≤ c.toNat ∧ c.toNat ≤ 57 then some (c.toNat - 48)
  else if 97 ≤ c.toNat ∧ c.toNat ≤ 102 then some (c.toNat - 87)
  else if 65 ≤ c.toNat ∧ c.toNat ≤ 70 then some (c.toNat - 55)
  else none

/-- Value of a run of decimal digits. -/
def digitsVal (ds : Str) : Nat :=
  ds.foldl (fun acc c => 10 * acc + (c.toNat - 48)) 0

/-- Value of a run of hexadecimal digits, `none` when a character is not one. -/
def hexVal (ds : Str) : Option Nat :=
  ds.foldl (fun acc c => match acc, hexDigit c with
    | some v, some h => some (16 * v + h)
    | _, _ => none) (some 0)

/-- Exponent part of a decimal literal: empty, or `e`/`E`, an optional sign
and at least one digit, up to the end of the string. -/
def parseExp : Str → Option Int
  | [] => some 0
  | c :: r =>
    if c = 'e' ∨ c = 'E' then
      match r with
      | '+' :: ds => if ds ≠ [] ∧ ds.all isDigit then some (digitsVal ds : Int) else none
      | '-' :: ds => if ds ≠ [] ∧ ds.all isDigit then some (-(digitsVal ds : Int)) else none
      | ds => if ds ≠ [] ∧ ds.all isDigit then some (digitsVal ds : Int) else none
    else none

/-- Unsigned `StrDecimalLiteral` with the sign read before it: `Infinity`, or
digits, optional fraction, optional exponent, whose exact decimal value is
rounded to a double (the correctly rounded value, which engines give for
literals of any length).  Anything else is `NaN`. -/
def parseDecimal (neg : Bool) (t : Str) : Num :=
  if t = "Infinity".data then .inf neg
  else
    let ip := t.takeWhile isDigit
    let r1 := t.dropWhile isDigit
    let fp := match r1 with
      | '.' :: r => r.takeWhile isDigit
      | _ => []
    let r2 := match r1 with
      | '.' :: r => r.dropWhile isDigit
      | _ => r1
    if ip = [] ∧ fp = [] then .nan
    else match parseExp r2 with
      | some x =>
        if 0 ≤ x - (fp.length : Int) then
          Num.round neg (digitsVal (ip ++ fp) * pow10 (x - (fp.length : Int)).toNat) 1
        else Num.round neg (digitsVal (ip ++ fp)) (pow10 (-(x - (fp.length : Int))).toNat)
      | none => .nan

/-- The conversion `Number(c)` of a string (ECMAScript 5 `StringNumericLiteral`):
surrounding whitespace is dropped, the empty string is `0`, a hexadecimal
literal has no sign, and a string that is no literal is `NaN`. -/
def Number (c : Str) : Num :=
  match s c with
  | [] => .fin false 0 0
  | '0' :: 'x' :: h =>
    if h = [] then .nan
    else match hexVal h with
      | some v => Num.round false v 1
      | none => .nan
  | '0' :: 'X' :: h =>
    if h = [] then .nan
    else match hexVal h with
      | some v => Num.round false v 1
      | none => .nan
  | '+' :: r => parseDecimal false r
  | '-' :: r => parseDecimal true r
  | r => parseDecimal false r

/-! ## The document tree -/

/-- Size of a box: `function B(a,b){this.width=a;this.height=b}` (pixel sizes
are modelled as integers). -/
structure B where
  width : Int
  height : Int
deriving DecidableEq, Repr

/-- A style object (`a.style`, `a.currentStyle`): the value of each property,
`none` for `undefined`. -/
abbrev StyleObj := Str → Option Str

/-- The data of an element the code reads.  `computed`, `layout`, `getBBox`
and `innerText` are answers of the host engine: the computed style of
`getComputedStyle(a, null)` (`none` when the engine has none), the offset size
as a function of the inline style in force, the native `getBBox()` of the
elements that have one, and the rendered text. -/
structure Elem where
  tagName : Str
  name : Str
  type : Str
  attrs : List (Str × Str)
  computed : Option (Str → Str)
  currentStyle : Option StyleObj
  style : StyleObj
  getBBox : Option B
  layout : StyleObj → B
  innerText : Option Str

/-- The answers of the host engine that belong to the document.
`viewIsWindow`: its window is the one the script runs in
(`(C(a).parentWindow || C(a).defaultView) == ea`).
`evaluate`: the property `C(a).evaluate` is defined, so that the `MAP` rule of
`P` looks its element up with the XPath query of `ma` and not with `la` (in
WebKit, for which the bundle is built, `selectSingleNode` is undefined and
`document.implementation.hasFeature("XPath","3.0")` holds whenever `evaluate`
exists).
`xpathOther`: the node `singleNodeValue` that the try block of `ma` produces
for an expression in which a double quote of the map name cuts the string
literal short: `none` when the engine rejects the rewritten expression (the
exception is caught) or selects nothing, otherwise the first node it selects,
which need not be an element.
`overflowInLookup`: when the stack has no room for a further call of `P`, it
has none for the calls inside the try block of `ma` either, so that the
`RangeError` is raised there and caught; whether this is so depends on the
sizes of the frames of the engine. -/
structure Host where
  viewIsWindow : Bool
  evaluate : Bool
  xpathOther : Str → Option Path
  overflowInLookup : Bool

/-- Nodes of the tree: elements (`nodeType` 1), text (3), comments (8) and the
document (9) with the answers of its host. -/
inductive Node where
  | elem (e : Elem) (kids : List Node)
  | text (nodeValue : Str)
  | comment (nodeValue : Str)
  | document (host : Host) (kids : List Node)

/-- The property `nodeType`. -/
def Node.nodeType : Node → Nat
  | .elem _ _ => 1
  | .text _ => 3
  | .comment _ => 8
  | .document _ _ => 9

/-- The property `childNodes`. -/
def Node.childNodes : Node → List Node
  | .elem _ ks => ks
  | .document _ ks => ks
  | _ => []

/-- Dereference of a node reference in the document `root`. -/
def nodeAt (root : Node) : Path → Option Node
  | [] => some root
  | i :: p =>
    match nodeAt root p with
    | some n => n.childNodes[i]?
    | none => none

/-- The element data behind a reference, when it is an element. -/
def elemAt (root : Node) (p : Path) : Option Elem :=
  match nodeAt root p with
  | some (.elem e _) => some e
  | _ => none

/-- Element test:
`function L(a,b){return!!a&&a.nodeType==1&&(!b||a.tagName.toUpperCase()==b)}`. -/
def L (a : Option Node) (b : Option Str) : Bool :=
  match a with
  | some (.elem e _) =>
    match b with
    | none => true
    | some t => t = [] || toUpperCase e.tagName = t
  | _ => false

/-- Owner document test of the `TITLE` rule,
`(C(a) ? C(a).parentWindow || C(a).defaultView : window) == ea`, where `C(a)` is
the root of the tree when that is a document and is missing otherwise. -/
def viewIsWindow (root : Node) : Bool :=
  match root with
  | .document v _ => v.viewIsWindow
  | _ => true

/-- Parent element:
`function M(a){for(a=a.parentNode;a&&a.nodeType!=1&&a.nodeType!=9&&a.nodeType!=11;)a=a.parentNode;return L(a)?a:null}`.
Only elements and documents have children here, so the loop never advances. -/
def M (root : Node) : Path → Option Path
  | [] => none
  | _ :: p => if L (nodeAt root p) none then some p else none

/-- Ancestor search `E(a, b)` as `P` calls it (two arguments: start at the
parent, no depth limit):
`function E(a,b,c,d){if(!c)a=a.parentNode;c=d==null;for(var e=0;a&&(c||e<=d);){if(b(a))return a;a=a.parentNode;e++}return null}`. -/
def E (root : Node) (b : Option Node → Bool) : Path → Option Path
  | [] => none
  | _ :: p => if b (nodeAt root p) then some p else E root b p

/-- Computed style lookup:
`function K(a,b){var c=C(a);if(c.defaultView&&c.defaultView.getComputedStyle)if(c=c.defaultView.getComputedStyle(a,null))return c[b]||c.getPropertyValue(b);return""}`. -/
def K (a : Elem) (b : Str) : Str :=
  match a.computed with
  | some c => c b
  | none => []

/-- Cascaded style lookup:
`function O(a,b){var c=(a.currentStyle||a.style)[b];if(c!="inherit")return c!==undefined?c:null;return(c=M(a))?O(c,b):null}`. -/
def O (root : Node) (b : Str) : Path → Option Str
  | [] =>
    match elemAt root [] with
    | some a =>
      if (a.currentStyle.getD a.style) b ≠ some "inherit".data then (a.currentStyle.getD a.style) b
      else none
    | none => none
  | i :: p =>
    match elemAt root (i :: p) with
    | some a =>
      if (a.currentStyle.getD a.style) b ≠ some "inherit".data then (a.currentStyle.getD a.style) b
      else if L (nodeAt root p) none then O root b p else none
    | none => none

/-- Resolved style: `function N(a,b){b=ga(String(b));return K(a,b)||O(a,b)}`. -/
def N (root : Node) (p : Path) (b : Str) : Option Str :=
  match elemAt root p with
  | some a => if K a (ga b) ≠ [] then some (K a (ga b)) else O root (ga b) p
  | none => none

/-- Block test: `function sa(a){a=N(a,"display");return a=="block"||a=="inline-block"}`. -/
def sa (root : Node) (p : Path) : Bool :=
  N root p "display".data = some "block".data || N root p "display".data = some "inline-block".data

/-- The first two statements of `Q`: `var b=1,c=N(a,"opacity");if(c)b=Number(c)`. -/
def ownOpacity (root : Node) (p : Path) : Num :=
  match N root p "opacity".data with
  | some c => if c ≠ [] then Number c else Num.one
  | none => Num.one

/-- Effective opacity:
`function Q(a){var b=1,c=N(a,"opacity");if(c)b=Number(c);if(a=M(a))b*=Q(a);return b}`. -/
def Q (root : Node) : Path → Num
  | [] => ownOpacity root []
  | i :: p =>
    if L (nodeAt root p) none then (ownOpacity root (i :: p)).mul (Q root p)
    else ownOpacity root (i :: p)

/-- Attribute lookup `oa(a, b)` for an attribute that is neither `style` nor
one of the boolean attributes of `na`: the value of the attribute, `none` when
it is absent (`c.specified?c.value:null`; a present attribute is specified). -/
def oa (a : Option Node) (b : Str) : Option Str :=
  match a with
  | some (.elem e _) => (e.attrs.find? (fun kv => kv.1 = toLowerCase b)).map Prod.snd
  | _ => none

mutual
/-- Document-order search, stopping at the first hit (`d = true`):
`function D(a,b,c,d){if(a!=null){var e=0;for(var f;f=a.childNodes[e];e++){if(b(f)){c.push(f);if(d)return true}if(D(f,b,c,d))return true}}return false}`.
The result is the reference pushed on `c`, if any. -/
def D (b : Node → Bool) : Node → Path → Option Path
  | .elem _ ks, p => DLoop b ks p 0
  | .document _ ks, p => DLoop b ks p 0
  | .text _, _ => none
  | .comment _, _ => none
/-- The loop of `D` over `a.childNodes` from index `e` on. -/
def DLoop (b : Node → Bool) : List Node → Path → Nat → Option Path
  | [], _, _ => none
  | f :: rest, p, e =>
    if b f then some (e :: p)
    else
      match D b f (e :: p) with
      | some r => some r
      | none => DLoop b rest p (e + 1)
end

/-- First match in document order:
`function la(a,b){var c=[];return D(a,b,c,true)?c[0]:undefined}`. -/
def la (a : Node) (b : Node → Bool) : Option Path :=
  D b a []

/-- The errors the modelled code can raise: the `Error("Argument to isShown
must be of type Element")` of `P`, the engine's `TypeError` for a property
read on a value that has none, and the `Error("Returned node is not an
element: ...")` of `ma`. -/
inductive Err where
  | isShownArgument
  | typeError
  | notAnElement
deriving DecidableEq, Repr

/-- The test `function(f){return L(f)&&oa(f,"usemap")=="#"+a.name}` of the
`MAP` rule: an element whose `usemap` attribute is `"#" + name`. -/
def refersTo (name : Str) (f : Node) : Bool :=
  L (some f) none && oa (some f) "usemap".data = some ('#' :: name)

/-- The double quote character. -/
def dquote : Char :=
  Char.ofNat 34

/-- The expression `'/descendant::*[@usemap = "#' + name + '"]'` of the `MAP`
rule. -/
def usemapQuery (name : Str) : Str :=
  "/descendant::*[@usemap = ".data ++ dquote :: '#' :: name ++ [dquote, ']']

/-- The test `e.evaluate` of the `MAP` rule, on the document `e = C(a)`. -/
def hasEvaluate (root : Node) : Bool :=
  match root with
  | .document h _ => h.evaluate
  | _ => false

/-- The value of `c` after the try block of `ma`, for the expression
`usemapQuery name` and `FIRST_ORDERED_NODE_TYPE`.
`k` is the number of further calls of `P` the stack has room for: an overflow
inside the block is caught and leaves `null`.  A name without a double quote
gives a well-formed query, which by XPath 1.0 selects the first element in
document order whose `usemap` attribute has the string value `"#" + name`;
for any other name the answer is the host's. -/
def xpathNode (k : Nat) (root : Node) (name : Str) : Option Path :=
  match root with
  | .document h _ =>
    if k = 0 ∧ h.overflowInLookup then none
    else if dquote ∈ name then h.xpathOther (usemapQuery name)
    else la root (refersTo name)
  | _ => none

/-- The XPath lookup of the `MAP` rule:
`function ma(a,b){try{...c=d.evaluate(a,b,e,XPathResult.FIRST_ORDERED_NODE_TYPE,null).singleNodeValue...}catch(f){return null}if(!c)return null;if(c.nodeType!=1)throw Error("Returned node is not an element: "+a);return c}`. -/
def ma (k : Nat) (root : Node) (name : Str) : Except Err (Option Path) :=
  match xpathNode k root name with
  | none => .ok none
  | some r =>
    match nodeAt root r with
    | some (.elem _ _) => .ok (some r)
    | _ => .error .notAnElement

/-- The element the `MAP` rule of `P` looks up in the document `e = C(a)`:
`e.evaluate?ma('/descendant::*[@usemap = "#'+a.name+'"]',e):la(e,function(f){return L(f)&&oa(f,"usemap")=="#"+a.name})`. -/
def usemapRef (k : Nat) (root : Node) (name : Str) : Except Err (Option Path) :=
  if hasEvaluate root then ma k root name else .ok (la root (refersTo name))

/-- Display check of `P`:
`function c(f){if(N(f,"display")=="none")return false;f=M(f);return!f||c(f)}`. -/
def c (root : Node) : Path → Bool
  | [] => !(N root [] "display".data = some "none".data)
  | i :: p =>
    if N root (i :: p) "display".data = some "none".data then false
    else if L (nodeAt root p) none then c root p else true

/-! ## Results and state -/

/-- Outcome of a call: a value, a thrown error, or the engine's `RangeError`
for a call stack that is used up by the self-calls of `P`. -/
inductive Res (α : Type) where
  | ok (v : α)
  | error (e : Err)
  | overflow
deriving DecidableEq, Repr

/-- Apply `g` to the `i`-th child of a node. -/
def Node.modifyChild (n : Node) (i : Nat) (g : Node → Node) : Node :=
  match n with
  | .elem e ks => .elem e (ks.modify g i)
  | .document v ks => .document v (ks.modify g i)
  | .text v => .text v
  | .comment v => .comment v

/-- Apply `g` to the node a reference points to. -/
def modifyAt (root : Node) : Path → (Node → Node) → Node
  | [], g => g root
  | i :: p, g => modifyAt root p (fun n => n.modifyChild i g)

/-- The assignment `x[k] = v` on a style object. -/
def StyleObj.set (x : StyleObj) (k : Str) (v : Option Str) : StyleObj :=
  fun j => if j = k then v else x j

/-- The assignment `a.style[k] = v` on an element node. -/
def Node.setStyle (k : Str) (v : Option Str) : Node → Node
  | .elem e ks => .elem { e with style := e.style.set k v } ks
  | n => n

/-- The assignment `a.style[k] = v` for the element behind a reference. -/
def setStyle (root : Node) (p : Path) (k : Str) (v : Option Str) : Node :=
  modifyAt root p (Node.setStyle k v)

/-- The properties `a.offsetWidth`, `a.offsetHeight`, read in the current
state of the document. -/
def offsetSize (root : Node) (p : Path) : B :=
  match elemAt root p with
  | some a => a.layout a.style
  | none => ⟨0, 0⟩

/-- The operator `x || y` on values that are strings, `null` or `undefined`. -/
def jsOr (x y : Option Str) : Option Str :=
  match x with
  | some v => if v ≠ [] then some v else y
  | none => y

/-- Element size:
`function pa(a){if(g(a.getBBox)=="function")return a.getBBox();var b;if((K(a,"display")||(a.currentStyle?a.currentStyle.display:null)||a.style.display)!="none")b=new B(a.offsetWidth,a.offsetHeight);else{b=a.style;var c=b.display,d=b.visibility,e=b.position;b.visibility="hidden";b.position="absolute";b.display="inline";var f;f=a.offsetWidth;a=a.offsetHeight;b.display=c;b.position=e;b.visibility=d;b=new B(f,a)}return b}`.
Returns the box and the document after the call. -/
def pa (root : Node) (p : Path) : B × Node :=
  match elemAt root p with
  | none => (⟨0, 0⟩, root)
  | some a =>
    match a.getBBox with
    | some box => (box, root)
    | none =>
      if jsOr (jsOr (some (K a "display".data))
            (match a.currentStyle with
              | some cs => cs "display".data
              | none => none))
          (a.style "display".data) ≠ some "none".data then
        (offsetSize root p, root)
      else
        let c := a.style "display".data
        let d := a.style "visibility".data
        let e := a.style "position".data
        let r1 := setStyle root p "visibility".data (some "hidden".data)
        let r2 := setStyle r1 p "position".data (some "absolute".data)
        let r3 := setStyle r2 p "display".data (some "inline".data)
        let f := (offsetSize r3 p).width
        let h := (offsetSize r3 p).height
        let r4 := setStyle r3 p "display".data c
        let r5 := setStyle r4 p "position".data e
        let r6 := setStyle r5 p "visibility".data d
        (⟨f, h⟩, r6)

mutual
/-- The property `textContent` of a node: the text of its text descendants. -/
def textContent : Node → Str
  | .elem _ ks => textContentList ks
  | .document _ ks => textContentList ks
  | .text v => v
  | .comment _ => []
/-- Concatenated `textContent` of a list of children. -/
def textContentList : List Node → Str
  | [] => []
  | k :: ks => textContent k ++ textContentList ks
end

/-- The value `f.innerText || f.textContent` of an element node. -/
def innerOrContent (f : Node) : Str :=
  match f with
  | .elem a _ =>
    match a.innerText with
    | some t => if t ≠ [] then t else textContent f
    | none => textContent f
  | _ => textContent f

mutual
/-- Size check of `P`:
`function d(f){var h=pa(f);if(h.height>0&&h.width>0)return true;if(f.innerText||f.textContent)if(qa.test(f.innerText||f.textContent))return true;return y&&ja(f.childNodes,function(X){return L(X)&&d(X)})}`
(`y` is `true` in this bundle).  `f` is the node behind the reference `p`. -/
def d : Node → Path → Node → Bool × Node
  | .elem a ks, p, root =>
    if 0 < (pa root p).1.height ∧ 0 < (pa root p).1.width then (true, (pa root p).2)
    else if innerOrContent (.elem a ks) ≠ [] ∧ qaTest (innerOrContent (.elem a ks)) then
      (true, (pa root p).2)
    else dSome ks p 0 (pa root p).2
  | .document _ _, _, root => (false, root)
  | .text _, _, root => (false, root)
  | .comment _, _, root => (false, root)
/-- The fold `ja(f.childNodes, function(X){return L(X)&&d(X)})` (`Array.some`)
over the children from index `i` on. -/
def dSome : List Node → Path → Nat → Node → Bool × Node
  | [], _, _, root => (false, root)
  | x :: rest, p, i, root =>
    if L (some x) none then
      if (d x (i :: p) root).1 then (true, (d x (i :: p) root).2)
      else dSome rest p (i + 1) (d x (i :: p) root).2
    else dSome rest p (i + 1) root
end

/-- The oracle isShown:
`function P(a,b){...if(!L(a))throw Error("Argument to isShown must be of type Element");if(L(a,"TITLE"))return(C(a)?C(a).parentWindow||C(a).defaultView:window)==ea;if(L(a,"OPTION")||L(a,"OPTGROUP")){var e=E(a,function(f){return L(f,"SELECT")});return!!e&&P(e)}if(L(a,"MAP")){if(!a.name)return false;e=C(a);e=e.evaluate?ma(...):la(...);return!!e&&P(e)}if(L(a,"AREA")){e=E(a,function(f){return L(f,"MAP")});return!!e&&P(e)}if(L(a,"INPUT")&&a.type.toLowerCase()=="hidden")return false;if(N(a,"visibility")=="hidden")return false;if(!c(a))return false;if(!b&&Q(a)==0)return false;if(!d(a))return false;return true}`.
The first argument is the number of nested calls of `P` the stack has room
for.  The calls `P(e)` pass no second argument (`b` is then `undefined`, that
is `false`). -/
def P : Nat → Node → Path → Bool → Res Bool × Node
  | 0, root, _, _ => (.overflow, root)
  | k + 1, root, p, b =>
    match nodeAt root p with
    | some (.elem a ks) =>
      if L (some (.elem a ks)) (some "TITLE".data) then (.ok (viewIsWindow root), root)
      else if L (some (.elem a ks)) (some "OPTION".data)
          ∨ L (some (.elem a ks)) (some "OPTGROUP".data) then
        match E root (fun f => L f (some "SELECT".data)) p with
        | some e => P k root e false
        | none => (.ok false, root)
      else if L (some (.elem a ks)) (some "MAP".data) then
        if a.name = [] then (.ok false, root)
        else
          match usemapRef k root a.name with
          | .ok (some e) => P k root e false
          | .ok none => (.ok false, root)
          | .error err => (.error err, root)
      else if L (some (.elem a ks)) (some "AREA".data) then
        match E root (fun f => L f (some "MAP".data)) p with
        | some e => P k root e false
        | none => (.ok false, root)
      else if L (some (.elem a ks)) (some "INPUT".data)
          ∧ toLowerCase a.type = "hidden".data then (.ok false, root)
      else if N root p "visibility".data = some "hidden".data then (.ok false, root)
      else if ¬ c root p then (.ok false, root)
      else if ¬ b ∧ (Q root p).isZero then (.ok false, root)
      else (.ok (d (.elem a ks) p root).1, (d (.elem a ks) p root).2)
    | _ => (.error .isShownArgument, root)

/-- The text step of `R` on the lines `b` and the value `v` of a text node:
`d=d.nodeValue.replace(ta," ");e=b.pop();var f=e.length-1;if(f>=0&&e.indexOf(" ",f)==f&&d.lastIndexOf(" ",0)==0)d=d.substr(1);b.push(e+d)`.
`none` is the `TypeError` of `e.length` on an empty array. -/
def appendText (b : List Str) (v : Str) : Option (List Str) :=
  match b.getLast? with
  | none => none
  | some e =>
    if e.getLast? = some ' ' ∧ (replaceTa v).head? = some ' ' then
      some (b.dropLast ++ [e ++ (replaceTa v).tail])
    else some (b.dropLast ++ [e ++ replaceTa v])

/-- The guarded push `c&&b[b.length-1]&&b.push("")` of `R`. -/
def pushIfOpen (c : Bool) (b : List Str) : List Str :=
  if c ∧ b.getLast?.getD [] ≠ [] then b ++ [[]] else b

mutual
/-- The collector:
`function R(a,b){if(L(a,"BR"))b.push("");else{var c=sa(a);c&&b[b.length-1]&&b.push("");ia(a.childNodes,function(d){...});c&&b[b.length-1]&&b.push("")}}`.
`a` is the node behind the reference `p`; the result is the array `b` after
the call.  On a node that is not an element the style read of `sa` fails. -/
def R (k : Nat) : Node → Path → List Str → Node → Res (List Str) × Node
  | .elem a ks, p, b, root =>
    if L (some (.elem a ks)) (some "BR".data) then (.ok (b ++ [[]]), root)
    else
      match RLoop k ks p 0 (pushIfOpen (sa root p) b) root with
      | (.ok b2, root2) => (.ok (pushIfOpen (sa root p) b2), root2)
      | r => r
  | .document _ _, _, _, root => (.error .typeError, root)
  | .text _, _, _, root => (.error .typeError, root)
  | .comment _, _, _, root => (.error .typeError, root)
/-- The loop `ia(a.childNodes, function(d){if(d.nodeType==3){var e=M(d);if(e){P(e);if(e&&P(e)){...}}}else L(d)&&R(d,b)})`
of `R` over the children of `p` from index `i` on. -/
def RLoop (k : Nat) : List Node → Path → Nat → List Str → Node → Res (List Str) × Node
  | [], _, _, b, root => (.ok b, root)
  | x :: rest, p, i, b, root =>
    match x with
    | .text v =>
      match M root (i :: p) with
      | none => RLoop k rest p (i + 1) b root
      | some e =>
        match P k root e false with
        | (.ok _, root1) =>
          match P k root1 e false with
          | (.ok true, root2) =>
            match appendText b v with
            | some b2 => RLoop k rest p (i + 1) b2 root2
            | none => (.error .typeError, root2)
          | (.ok false, root2) => RLoop k rest p (i + 1) b root2
          | (.error err, root2) => (.error err, root2)
          | (.overflow, root2) => (.overflow, root2)
        | (.error err, root1) => (.error err, root1)
        | (.overflow, root1) => (.overflow, root1)
    | .elem _ _ =>
      match R k x (i :: p) b root with
      | (.ok b2, root2) => RLoop k rest p (i + 1) b2 root2
      | r => r
    | .comment _ => RLoop k rest p (i + 1) b root
    | .document _ _ => RLoop k rest p (i + 1) b root
end

/-- The entry point visibleText:
`function ra(a){var b=[""];R(a,b);b=x(b,s);return s(b.join("\n"))}`. -/
def ra (k : Nat) (root : Node) (p : Path) : Res Str × Node :=
  match nodeAt root p with
  | some a =>
    match R k a p [[]] root with
    | (.ok b, root2) => (.ok (s (joinLines (b.map s))), root2)
    | (.error err, root2) => (.error err, root2)
    | (.overflow, root2) => (.overflow, root2)
  | none => (.error .typeError, root)

/-! ## Enumeration of text nodes -/

mutual
/-- References of the parents of all text nodes below the node `n` that sits
at `p`, in document order (one entry per text node). -/
def textParents : Node → Path → List Path
  | .elem _ ks, p => textParentsList ks p 0
  | .document _ ks, p => textParentsList ks p 0
  | .text _, _ => []
  | .comment _, _ => []
/-- The same for the children of `p` from index `i` on. -/
def textParentsList : List Node → Path → Nat → List Path
  | [], _, _ => []
  | x :: rest, p, i =>
    (match x with
      | .text _ => [p]
      | _ => []) ++ textParents x (i :: p) ++ textParentsList rest p (i + 1)
end

/-- The elements `es`, each the only child of the one before, around the node
`x`: `nest [e1, e2] x` is `e1` holding `e2` holding `x`. -/
def nest : List Elem → Node → Node
  | [], x => x
  | e :: es, x => .elem e [nest es x]

/-- Two neighbouring characters of a normalised text: they are not two
spaces, and neither is a space next to a newline. -/
def adjacentOk (x y : Char) : Prop :=
  ¬ (x = ' ' ∧ y = ' ') ∧ ¬ (x = ' ' ∧ y = '\n') ∧ ¬ (x = '\n' ∧ y = ' ')

/-! ## The self-calls of `P` -/

/-- The element `e` of the call `P(e)` that `P` makes on the element at `p`,
if it makes one, when the stack has room for it: the nearest `SELECT` above an
`OPTION` or `OPTGROUP`, the element that the lookup of a named `MAP` returns,
the nearest `MAP` above an `AREA`.  `none` when `P` answers without calling
itself; an error when the lookup of `ma` fails. -/
def delegate (root : Node) (p : Path) : Except Err (Option Path) :=
  match nodeAt root p with
  | some (.elem a ks) =>
    if L (some (.elem a ks)) (some "TITLE".data) then .ok none
    else if L (some (.elem a ks)) (some "OPTION".data)
        ∨ L (some (.elem a ks)) (some "OPTGROUP".data) then
      .ok (E root (fun f => L f (some "SELECT".data)) p)
    else if L (some (.elem a ks)) (some "MAP".data) then
      if a.name = [] then .ok none else usemapRef 1 root a.name
    else if L (some (.elem a ks)) (some "AREA".data) then
      .ok (E root (fun f => L f (some "MAP".data)) p)
    else .ok none
  | _ => .ok none

/-- The chain of self-calls of `P` that starts at `p` ends after at most `n`
calls, none of its lookups failing. -/
def chainEnds (root : Node) : Nat → Path → Bool
  | 0, p =>
    match delegate root p with
    | .ok none => true
    | _ => false
  | n + 1, p =>
    match delegate root p with
    | .ok (some e) => chainEnds root n e
    | .ok none => true
    | .error _ => false

/-- The element at `p` and its ancestor elements, nearest first: the chain
that `c`, `O` and `Q` climb with `M`. -/
def elementChain (root : Node) : Path → List Path
  | [] => [[]]
  | i :: p => (i :: p) :: (if L (nodeAt root p) none then elementChain root p else [])

/-! ## Snapshots that differ in opacity only -/

/-- Two style objects that agree on every property other than `opacity`. -/
def StyleObj.sameButOpacity (x y : StyleObj) : Prop :=
  ∀ k, k ≠ "opacity".data → x k = y k

/-- Two snapshots of one element that differ at most in opacity values: the
same tag, name, type, attributes, native box and rendered text; computed,
current and inline style that agree on every property other than `opacity`;
and an offset size that is the same under inline styles that agree on every
property other than `opacity`. -/
def Elem.sameButOpacity (a b : Elem) : Prop :=
  a.tagName = b.tagName ∧ a.name = b.name ∧ a.type = b.type ∧ a.attrs = b.attrs ∧
  (match a.computed, b.computed with
    | some x, some y => ∀ k, k ≠ "opacity".data → x k = y k
    | none, none => True
    | _, _ => False) ∧
  (match a.currentStyle, b.currentStyle with
    | some x, some y => StyleObj.sameButOpacity x y
    | none, none => True
    | _, _ => False) ∧
  StyleObj.sameButOpacity a.style b.style ∧ a.getBBox = b.getBBox ∧
  (∀ x y, StyleObj.sameButOpacity x y → a.layout x = b.layout y) ∧
  a.innerText = b.innerText

mutual
/-- Two snapshots of one tree that differ at most in opacity values: the same
nodes in the same places, the same host, and elements that differ at most in
opacity values. -/
def Node.sameButOpacity : Node → Node → Prop
  | .elem a ks, n =>
    match n with
    | .elem b ls => Elem.sameButOpacity a b ∧ sameButOpacityList ks ls
    | _ => False
  | .text v, n =>
    match n with
    | .text w => v = w
    | _ => False
  | .comment v, n =>
    match n with
    | .comment w => v = w
    | _ => False
  | .document h ks, n =>
    match n with
    | .document g ls => h = g ∧ sameButOpacityList ks ls
    | _ => False
/-- The same for two lists of children. -/
def sameButOpacityList : List Node → List Node → Prop
  | [], ls => ls = []
  | k :: ks, ls =>
    match ls with
    | [] => False
    | l :: ls2 => Node.sameButOpacity k l ∧ sameButOpacityList ks ls2
end

/-- Two node references that are both `null`, or point to two snapshots of
one node that differ at most in opacity values. -/
def optSame : Option Node → Option Node → Prop
  | some x, some y => Node.sameButOpacity x y
  | none, none => True
  | _, _ => False

/-! ## Example documents -/

/-- A host with XPath: the window of the document is the script's,
`document.evaluate` exists, and a stack overflow is not raised inside `ma`. -/
def exHost : Host :=
  { viewIsWindow := true, evaluate := true, xpathOther := fun _ => none,
    overflowInLookup := false }

/-- A host without `document.evaluate`: the `MAP` rule searches with `la`. -/
def exHostLa : Host :=
  { exHost with evaluate := false }

/-- A host with XPath on which a stack overflow is raised inside the try
block of `ma`. -/
def exHostCatch : Host :=
  { exHost with overflowInLookup := true }

/-- Computed style that knows only `display`. -/
def exComputed (display : String) : Str → Str :=
  fun k => if k = "display".data then display.data else []

/-- An element with the given tag, computed `display` and offset size, no
attributes, no inline style and no native box. -/
def exElem (tag display : String) (w h : Int) : Elem :=
  { tagName := tag.data, name := [], type := [], attrs := [],
    computed := some (exComputed display), currentStyle := none,
    style := fun _ => none, getBBox := none, layout := fun _ => ⟨w, h⟩,
    innerText := none }

/-- An element hidden by `display: none` whose offset size is 30 x 12 once its
inline `display` is forced to `inline`, and zero otherwise. -/
def exHiddenElem : Elem :=
  { exElem "div" "none" 0 0 with
    style := fun k => if k = "color".data then some "red".data else none,
    layout := fun st => if st "display".data = some "inline".data then ⟨30, 12⟩ else ⟨0, 0⟩ }

/-- A document whose body holds the hidden element of `exHiddenElem`. -/
def exHiddenDoc : Node :=
  .document exHost [.elem (exElem "body" "block" 100 100) [.elem exHiddenElem []]]

/-- Computed style given by a table of property values. -/
def exStyle (kv : List (String × String)) : Str → Str :=
  fun k => ((kv.find? (fun e => e.1.data = k)).map (fun e => e.2.data)).getD []

/-- A page whose `head` and `title` carry the usual `display: none`, shown in
the window of the script. -/
def exTitleDoc : Node :=
  .document exHost [.elem (exElem "html" "block" 100 100)
    [.elem (exElem "head" "none" 0 0) [.elem (exElem "title" "none" 0 0) [.text "T".data]]]]

/-- A shown `select` with one option that has `display: none`. -/
def exOptionDoc : Node :=
  .document exHost [.elem (exElem "body" "block" 100 100)
    [.elem (exElem "select" "inline-block" 50 20)
      [.elem (exElem "option" "none" 0 0) [.text "one".data]]]]

/-- A `div` with `display: none` around a `span` with text. -/
def exNoneDoc : Node :=
  .document exHost [.elem (exElem "body" "block" 100 100)
    [.elem (exElem "div" "none" 0 0) [.elem (exElem "span" "inline" 0 0) [.text "x".data]]]]

/-- A `span` of size 10 x 10 with `opacity: 0`. -/
def exOpacityElem : Elem :=
  { exElem "span" "inline" 10 10 with
    computed := some (exStyle [("display", "inline"), ("opacity", "0")]) }

/-- A body whose only child is the transparent `span` with the text `x`. -/
def exOpacityDoc : Node :=
  .document exHost [.elem (exElem "body" "block" 100 100)
    [.elem exOpacityElem [.text "x".data]]]

/-- A body holding a `div` of size zero whose only content is one space. -/
def exBlankDoc : Node :=
  .document exHost [.elem (exElem "body" "block" 100 100)
    [.elem (exElem "div" "block" 0 0) [.text " ".data]]]

/-- An image that refers to the map `m`. -/
def exImg (display : String) (w h : Int) : Elem :=
  { exElem "img" display w h with attrs := [("usemap".data, "#m".data)] }

/-- The map named `m`. -/
def exMap : Elem :=
  { exElem "map" "inline" 0 0 with name := "m".data }

/-- Two images refer to the map `m`: the first has `display: none`, the second
is shown.  The map holds one `area`. -/
def exMapDoc : Node :=
  .document exHost [.elem (exElem "body" "block" 100 100)
    [.elem (exImg "none" 0 0) [], .elem (exImg "inline" 40 40) [],
      .elem exMap [.elem (exElem "area" "inline" 0 0) []]]]

/-- One shown image refers to the map `m`, which holds one `area`. -/
def exMapDocOne : Node :=
  .document exHost [.elem (exElem "body" "block" 100 100)
    [.elem (exImg "inline" 40 40) [],
      .elem exMap [.elem (exElem "area" "inline" 0 0) []]]]

/-- A shown `span` holding two text runs with a `br` between them. -/
def exBrDoc : Node :=
  .document exHost [.elem (exElem "body" "block" 100 100)
    [.elem (exElem "span" "inline" 80 30)
      [.text "Hello  world ".data, .elem (exElem "br" "inline" 0 0) [],
        .text "\n second\tline ".data]]]

/-- A shown `span` holding one space, a `br` and the text `b`. -/
def exBrBlankDoc : Node :=
  .document exHost [.elem (exElem "body" "block" 100 100)
    [.elem (exElem "span" "inline" 80 30)
      [.text " ".data, .elem (exElem "br" "inline" 0 0) [], .text "b".data]]]

/-- A shown `span` holding `a`, two nested `div` blocks around `inner`, and `b`. -/
def exBlockDoc : Node :=
  .document exHost [.elem (exElem "body" "block" 100 100)
    [.elem (exElem "span" "inline" 80 30)
      [.text "a".data,
        nest [exElem "div" "block" 80 10, exElem "div" "block" 80 10] (.text "inner".data),
        .text "b".data]]]

/-- A shown `span` holding one space, a `div` block around `inner`, and `b`. -/
def exBlockBlankDoc : Node :=
  .document exHost [.elem (exElem "body" "block" 100 100)
    [.elem (exElem "span" "inline" 80 30)
      [.text " ".data, nest [exElem "div" "block" 80 10] (.text "inner".data),
        .text "b".data]]]

/-- An `input` of size 50 x 20 whose `type` is spelled `HiDDen`. -/
def exHiddenInput : Elem :=
  { exElem "input" "inline-block" 50 20 with type := "HiDDen".data }

/-- A body holding the input of `exHiddenInput`. -/
def exHiddenInputDoc : Node :=
  .document exHost [.elem (exElem "body" "block" 100 100) [.elem exHiddenInput []]]

/-- An `option` directly inside the body, with no `select` above it. -/
def exLoneOptionDoc : Node :=
  .document exHost [.elem (exElem "body" "block" 100 100)
    [.elem (exElem "option" "block" 50 20) [.text "one".data]]]

/-- An `area` that itself carries `usemap="#m"`. -/
def exAreaRef : Elem :=
  { exElem "area" "inline" 0 0 with attrs := [("usemap".data, "#m".data)] }

/-- The map `m` holds an `area` that refers to the map `m`; nothing else
does.  The document is given with its host. -/
def exAreaCycleDoc (h : Host) : Node :=
  .document h [.elem (exElem "body" "block" 100 100) [.elem exMap [.elem exAreaRef []]]]

/-- A map whose name is `a"b`, with a double quote in it. -/
def exQuoteMap : Elem :=
  { exElem "map" "inline" 0 0 with name := ['a', dquote, 'b'] }

/-- A shown image refers to the map `a"b`, which holds one `area`.  The
engine has XPath and rejects the expression that the name is pasted into. -/
def exQuoteMapDoc : Node :=
  .document exHost [.elem (exElem "body" "block" 100 100)
    [.elem { exElem "img" "inline" 40 40 with
        attrs := [("usemap".data, ['#', 'a', dquote, 'b'])] } [],
      .elem exQuoteMap [.elem (exElem "area" "inline" 0 0) []]]]

/-- A `select` of size 50 x 20 with the given computed opacity. -/
def exSelect (opacity : String) : Elem :=
  { exElem "select" "inline-block" 50 20 with
    computed := some (exStyle [("display", "inline-block"), ("opacity", opacity)]) }

/-- A body holding a `select` with the given opacity around one `option`. -/
def exSelectDoc (opacity : String) : Node :=
  .document exHost [.elem (exElem "body" "block" 100 100)
    [.elem (exSelect opacity) [.elem (exElem "option" "block" 50 20) [.text "one".data]]]]

/-- An element for an engine without computed style, whose own style has the
given `display` and nothing else. -/
def exCascadeElem (tag display : String) : Elem :=
  { exElem tag "" 10 10 with
    computed := none,
    style := fun k => if k = "display".data then some display.data else none }

/-- An `html` and a `body`, both with `display: inherit`, around a `p` with
`display: inherit`; no engine support for computed style. -/
def exInheritDoc : Node :=
  .document exHost [.elem (exCascadeElem "html" "inherit")
    [.elem (exCascadeElem "body" "inherit") [.elem (exCascadeElem "p" "inherit") []]]]

/-- A `body` with `display: block` around a `p` with `display: inherit`; no
engine support for computed style. -/
def exInheritBlockDoc : Node :=
  .document exHost [.elem (exCascadeElem "html" "inline")
    [.elem (exCascadeElem "body" "block") [.elem (exCascadeElem "p" "inherit") []]]]

/-- An element for an engine without computed style, whose own style has the
given `opacity` and nothing else. -/
def exOpacityStyleElem (tag opacity : String) : Elem :=
  { exElem tag "" 10 10 with
    computed := none,
    style := fun k => if k = "opacity".data then some opacity.data else none }

/-- A `body` whose opacity is the unparseable `abc`, around a `span` with
opacity `0`. -/
def exNaNDoc : Node :=
  .document exHost [.elem (exOpacityStyleElem "body" "abc")
    [.elem (exOpacityStyleElem "span" "0") [.text "x".data]]]

/-- A `body` with opacity `0.5` around a `span` with opacity `0.5`. -/
def exHalfDoc : Node :=
  .document exHost [.elem (exOpacityStyleElem "body" "0.5")
    [.elem (exOpacityStyleElem "span" "0.5") [.text "x".data]]]


/-- A `body` with opacity `1e-162` around a `span` with opacity `1e-162`. -/
def exTinyDoc : Node :=
  .document exHost [.elem (exOpacityStyleElem "body" "1e-162")
    [.elem (exOpacityStyleElem "span" "1e-162") [.text "x".data]]]

/-! ## The tree under style writes -/

theorem Node.induct {motive : Node → Prop}
    (helem : ∀ e ks, (∀ k ∈ ks, motive k) → motive (.elem e ks))
    (htext : ∀ v, motive (.text v))
    (hcomment : ∀ v, motive (.comment v))
    (hdoc : ∀ v ks, (∀ k ∈ ks, motive k) → motive (.document v ks)) :
    ∀ n, motive n := by
  intro n
  refine Node.rec (motive_1 := motive) (motive_2 := fun ks => ∀ k ∈ ks, motive k)
    helem htext hcomment hdoc ?_ ?_ n
  · intro k hk
    cases hk
  · intro hd tl h1 h2 k hk
    rcases List.mem_cons.mp hk with rfl | hk
    · exact h1
    · exact h2 k hk

theorem childNodes_modifyChild (n : Node) (i : Nat) (g : Node → Node) :
    (n.modifyChild i g).childNodes = n.childNodes.modify g i := by
  cases n <;> simp [Node.modifyChild, Node.childNodes]

theorem nodeAt_modifyAt (root : Node) (p : Path) (g : Node → Node) :
    nodeAt (modifyAt root p g) p = (nodeAt root p).map g := by
  induction p generalizing g with
  | nil => simp [modifyAt, nodeAt]
  | cons i p ih =>
    simp only [modifyAt, nodeAt, ih]
    cases h : nodeAt root p with
    | none => simp
    | some n => simp [childNodes_modifyChild]

theorem modifyChild_comp (i : Nat) (g h : Node → Node) :
    (fun n : Node => (n.modifyChild i g).modifyChild i h) = fun n => n.modifyChild i (h ∘ g) := by
  funext n
  cases n <;> simp [Node.modifyChild, List.modify_modify_eq]

theorem modifyAt_modifyAt (root : Node) (p : Path) (g h : Node → Node) :
    modifyAt (modifyAt root p g) p h = modifyAt root p (h ∘ g) := by
  induction p generalizing g h with
  | nil => simp [modifyAt]
  | cons i p ih =>
    simp only [modifyAt]
    rw [ih]
    congr 1
    exact modifyChild_comp i g h

theorem list_modify_fixed {α : Type} (g : α → α) (l : List α) (i : Nat)
    (h : ∀ x, l[i]? = some x → g x = x) : l.modify g i = l := by
  induction l generalizing i with
  | nil => simp
  | cons a l ih =>
    cases i with
    | zero => simp at h; simp [h]
    | succ i => simp at h; simp [ih i h]

theorem modifyAt_fixed (root : Node) (p : Path) (g : Node → Node)
    (h : ∀ n, nodeAt root p = some n → g n = n) : modifyAt root p g = root := by
  induction p generalizing g with
  | nil => exact h root rfl
  | cons i p ih =>
    simp only [modifyAt]
    apply ih
    intro n hn
    have hk : ∀ x, n.childNodes[i]? = some x → g x = x := by
      intro x hx
      apply h
      simp [nodeAt, hn, hx]
    cases n <;> simp [Node.modifyChild, Node.childNodes] at hk ⊢
    · exact list_modify_fixed g _ i hk
    · exact list_modify_fixed g _ i hk


theorem elemAt_eq_some {root : Node} {p : Path} {a : Elem} (h : elemAt root p = some a) :
    ∃ ks, nodeAt root p = some (.elem a ks) := by
  unfold elemAt at h
  split at h
  · rename_i e ks heq
    simp at h
    subst h
    exact ⟨ks, heq⟩
  · simp at h

theorem styleObj_restore (x : StyleObj) (k1 k2 k3 : Str) (v1 v2 v3 : Option Str) :
    (((((x.set k1 v1).set k2 v2).set k3 v3).set k3 (x k3)).set k2 (x k2)).set k1 (x k1) = x := by
  funext j
  simp only [StyleObj.set]
  split_ifs <;> simp_all

theorem setStyle_restore (root : Node) (p : Path) (a : Elem) (h : elemAt root p = some a)
    (k1 k2 k3 : Str) (v1 v2 v3 : Option Str) :
    setStyle (setStyle (setStyle (setStyle (setStyle (setStyle root p k1 v1) p k2 v2) p k3 v3)
      p k3 (a.style k3)) p k2 (a.style k2)) p k1 (a.style k1) = root := by
  obtain ⟨ks, hn⟩ := elemAt_eq_some h
  simp only [setStyle, modifyAt_modifyAt]
  apply modifyAt_fixed
  intro n hn2
  rw [hn] at hn2
  simp at hn2
  subst hn2
  simp only [Function.comp, Node.setStyle]
  have := styleObj_restore a.style k1 k2 k3 v1 v2 v3
  simp only [this]

theorem pa_snd (root : Node) (p : Path) : (pa root p).2 = root := by
  unfold pa
  split
  · rfl
  · rename_i a ha
    split
    · rfl
    · split_ifs
      · rfl
      · exact setStyle_restore root p a ha _ _ _ _ _ _

theorem elemAt_setStyle (root : Node) (p : Path) (a : Elem) (h : elemAt root p = some a)
    (k : Str) (v : Option Str) :
    elemAt (setStyle root p k v) p = some { a with style := a.style.set k v } := by
  obtain ⟨ks, hn⟩ := elemAt_eq_some h
  simp [elemAt, setStyle, nodeAt_modifyAt, hn, Node.setStyle]


/-! ## No function leaves a trace in the document -/

theorem dSome_snd_of (ks : List Node)
    (ih : ∀ k ∈ ks, ∀ p root, (d k p root).2 = root) :
    ∀ p i root, (dSome ks p i root).2 = root := by
  induction ks with
  | nil => intro p i root; simp [dSome]
  | cons x rest ihr =>
    intro p i root
    have hx := ih x (List.mem_cons_self _ _)
    have hrest := ihr (fun k hk => ih k (List.mem_cons_of_mem _ hk))
    simp only [dSome]
    split_ifs
    · exact hx _ _
    · rw [hrest, hx]
    · exact hrest _ _ _

theorem d_snd (n : Node) : ∀ p root, (d n p root).2 = root := by
  induction n using Node.induct with
  | helem e ks ih =>
    intro p root
    simp only [d]
    split_ifs
    · exact pa_snd _ _
    · exact pa_snd _ _
    · rw [dSome_snd_of ks ih, pa_snd]
  | htext v => intro p root; simp [d]
  | hcomment v => intro p root; simp [d]
  | hdoc v ks _ => intro p root; simp [d]

theorem dSome_snd (ks : List Node) (p : Path) (i : Nat) (root : Node) :
    (dSome ks p i root).2 = root :=
  dSome_snd_of ks (fun k _ => d_snd k) p i root

theorem P_snd (k : Nat) (root : Node) (p : Path) (b : Bool) : (P k root p b).2 = root := by
  induction k generalizing p b with
  | zero => simp [P]
  | succ k ih =>
    simp only [P]
    repeat' split
    all_goals first | rfl | exact ih _ _ | exact d_snd _ _ _

theorem P_eq (k : Nat) (root : Node) (p : Path) (b : Bool) :
    P k root p b = ((P k root p b).1, root) :=
  Prod.ext rfl (P_snd k root p b)

/-- The loop of `R` at a text child, with the two calls of `P` merged (the
first leaves the document as it found it). -/
theorem RLoop_text (k : Nat) (v : Str) (rest : List Node) (p : Path) (i : Nat)
    (b : List Str) (root : Node) :
    RLoop k (.text v :: rest) p i b root =
      match M root (i :: p) with
      | none => RLoop k rest p (i + 1) b root
      | some e =>
        match (P k root e false).1 with
        | .ok true =>
          match appendText b v with
          | some b2 => RLoop k rest p (i + 1) b2 root
          | none => (.error .typeError, root)
        | .ok false => RLoop k rest p (i + 1) b root
        | .error err => (.error err, root)
        | .overflow => (.overflow, root) := by
  simp only [RLoop]
  split
  · rfl
  · rename_i e _
    have h2 := P_snd k root e false
    generalize hP : P k root e false = r at h2 ⊢
    obtain ⟨v1, r2⟩ := r
    simp only at h2
    subst h2
    cases v1 with
    | ok w =>
      simp only [hP]
      cases w <;> rfl
    | error err => rfl
    | overflow => rfl

theorem RLoop_snd_of (k : Nat) (ks : List Node)
    (ih : ∀ x ∈ ks, ∀ p b root, (R k x p b root).2 = root) :
    ∀ p i b root, (RLoop k ks p i b root).2 = root := by
  induction ks with
  | nil => intro p i b root; simp [RLoop]
  | cons x rest ihr =>
    intro p i b root
    have hx := ih x (List.mem_cons_self _ _)
    have hrest := ihr (fun y hy => ih y (List.mem_cons_of_mem _ hy))
    cases x with
    | text v =>
      rw [RLoop_text]
      repeat' split
      all_goals first | rfl | exact hrest _ _ _ _
    | elem e ks2 =>
      simp only [RLoop]
      have h2 := hx (i :: p) b root
      generalize R k (.elem e ks2) (i :: p) b root = r at h2 ⊢
      obtain ⟨v1, r2⟩ := r
      simp only at h2
      subst h2
      cases v1 <;> first | rfl | exact hrest _ _ _ _
    | comment v => simp only [RLoop]; exact hrest _ _ _ _
    | document v ks2 => simp only [RLoop]; exact hrest _ _ _ _

theorem R_snd (k : Nat) (n : Node) : ∀ p b root, (R k n p b root).2 = root := by
  induction n using Node.induct with
  | helem e ks ih =>
    intro p b root
    simp only [R]
    split_ifs
    · rfl
    · have h2 := RLoop_snd_of k ks ih p 0 (pushIfOpen (sa root p) b) root
      generalize RLoop k ks p 0 (pushIfOpen (sa root p) b) root = r at h2 ⊢
      obtain ⟨v1, r2⟩ := r
      simp only at h2
      subst h2
      cases v1 <;> rfl
  | htext v => intro p b root; simp [R]
  | hcomment v => intro p b root; simp [R]
  | hdoc v ks _ => intro p b root; simp [R]

theorem RLoop_snd (k : Nat) (ks : List Node) (p : Path) (i : Nat) (b : List Str) (root : Node) :
    (RLoop k ks p i b root).2 = root :=
  RLoop_snd_of k ks (fun x _ => R_snd k x) p i b root

theorem ra_snd (k : Nat) (root : Node) (p : Path) : (ra k root p).2 = root := by
  unfold ra
  split
  · rename_i a _
    have h2 := R_snd k a p [[]] root
    generalize R k a p [[]] root = r at h2 ⊢
    obtain ⟨v1, r2⟩ := r
    simp only at h2
    subst h2
    cases v1 <;> rfl
  · rfl


/-! ## Whitespace collapsing and trimming -/

theorem isWs_space : isWs ' ' = true := by decide

theorem isWs_newline : isWs '\n' = true := by decide

theorem ne_space_of_not_isWs {ch : Char} (h : isWs ch = false) : ch ≠ ' ' := by
  rintro rfl
  rw [isWs_space] at h
  cases h

theorem replaceTaGo_mem_ws (f : Bool) (x : Str) :
    ∀ ch ∈ replaceTaGo f x, isWs ch = true → ch = ' ' := by
  induction x generalizing f with
  | nil => intro ch h; simp [replaceTaGo] at h
  | cons a x ih =>
    intro ch h hw
    simp only [replaceTaGo] at h
    split_ifs at h with h1 h2
    · exact ih _ ch h hw
    · rcases List.mem_cons.mp h with rfl | h
      · rfl
      · exact ih _ ch h hw
    · rcases List.mem_cons.mp h with rfl | h
      · rw [hw] at h1
        exact absurd rfl h1
      · exact ih _ ch h hw

theorem replaceTaGo_chain (f : Bool) (x : Str) :
    List.Chain' (fun a b => ¬ (a = ' ' ∧ b = ' ')) (replaceTaGo f x) ∧
      (f = true → (replaceTaGo f x).head? ≠ some ' ') := by
  induction x generalizing f with
  | nil => simp [replaceTaGo]
  | cons a x ih =>
    simp only [replaceTaGo]
    split_ifs with h1 h2
    · subst h2
      exact ⟨(ih true).1, fun _ => (ih true).2 rfl⟩
    · refine ⟨?_, fun hf => absurd hf h2⟩
      rw [List.chain'_cons']
      refine ⟨?_, (ih true).1⟩
      intro y hy
      have := (ih true).2 rfl
      rintro ⟨-, rfl⟩
      exact this hy
    · have ha : a ≠ ' ' := ne_space_of_not_isWs (by simpa using h1)
      refine ⟨?_, fun _ => by simpa using ha⟩
      rw [List.chain'_cons']
      refine ⟨?_, (ih false).1⟩
      rintro y - ⟨rfl, -⟩
      exact ha rfl

theorem replaceTaGo_filter (f : Bool) (x : Str) :
    (replaceTaGo f x).filter (fun ch => !isWs ch) = x.filter (fun ch => !isWs ch) := by
  induction x generalizing f with
  | nil => simp [replaceTaGo]
  | cons a x ih =>
    simp only [replaceTaGo]
    split_ifs with h1 h2
    · simp [List.filter_cons, h1, ih]
    · simp [List.filter_cons, h1, ih, isWs_space]
    · simp [List.filter_cons, h1, ih]

theorem replaceTaGo_of_no_ws (f : Bool) (x : Str) (h : ∀ ch ∈ x, isWs ch = false) :
    replaceTaGo f x = x := by
  induction x generalizing f with
  | nil => simp [replaceTaGo]
  | cons a x ih =>
    have ha : isWs a = false := h a (List.mem_cons_self _ _)
    simp [replaceTaGo, ha, ih false (fun ch hc => h ch (List.mem_cons_of_mem _ hc))]

/-- Scanning `u ++ r`: the run flag on entering `r` is the class of the last
character of `u`. -/
theorem replaceTaGo_append (f : Bool) (u r : Str) :
    replaceTaGo f (u ++ r) =
      replaceTaGo f u ++ replaceTaGo ((u.getLast?.map isWs).getD f) r := by
  induction u generalizing f with
  | nil => simp [replaceTaGo]
  | cons a u ih =>
    have hl : ∀ g : Bool, (((a :: u).getLast?.map isWs).getD g) =
        ((u.getLast?.map isWs).getD (isWs a)) := by
      intro g
      cases u with
      | nil => simp
      | cons b u => simp [List.getLast?_cons_cons, List.getLast?_eq_getLast]
    rw [List.cons_append]
    simp only [replaceTaGo, hl]
    split_ifs with h1 h2
    · rw [ih, h1]
    · rw [ih, h1, List.cons_append]
    · rw [ih, List.cons_append]
      simp at h1
      rw [h1]

theorem replaceTaGo_true_ws_run (w v : Str) (hw : ∀ ch ∈ w, isWs ch = true) :
    replaceTaGo true (w ++ v) = replaceTaGo true v := by
  induction w with
  | nil => rfl
  | cons a w ih =>
    have ha : isWs a = true := hw a (List.mem_cons_self _ _)
    simp [replaceTaGo, ha, ih (fun ch hc => hw ch (List.mem_cons_of_mem _ hc))]

theorem replaceTaGo_flag_irrelevant (f : Bool) (v : Str)
    (hv : ∀ ch, v.head? = some ch → isWs ch = false) :
    replaceTaGo f v = replaceTaGo false v := by
  cases v with
  | nil => rfl
  | cons a v =>
    have ha : isWs a = false := hv a rfl
    simp [replaceTaGo, ha]

theorem replaceTa_run (u w v : Str)
    (hu : ∀ ch, u.getLast? = some ch → isWs ch = false) (hne : w ≠ [])
    (hw : ∀ ch ∈ w, isWs ch = true) (hv : ∀ ch, v.head? = some ch → isWs ch = false) :
    replaceTa (u ++ w ++ v) = replaceTa u ++ ' ' :: replaceTa v := by
  unfold replaceTa
  rw [List.append_assoc, replaceTaGo_append]
  have hflag : (u.getLast?.map isWs).getD false = false := by
    cases h : u.getLast? with
    | none => rfl
    | some ch => simpa using hu ch h
  rw [hflag]
  cases w with
  | nil => exact absurd rfl hne
  | cons a w =>
    have ha : isWs a = true := hw a (List.mem_cons_self _ _)
    rw [List.cons_append]
    simp only [replaceTaGo, ha, if_true, Bool.false_eq_true, if_false]
    rw [replaceTaGo_true_ws_run w v (fun ch hc => hw ch (List.mem_cons_of_mem _ hc)),
      replaceTaGo_flag_irrelevant true v hv]


theorem s_nil : s [] = [] := by
  simp [s]

theorem s_of_all_ws (x : Str) (h : ∀ ch ∈ x, isWs ch = true) : s x = [] := by
  unfold s
  rw [List.dropWhile_eq_nil_iff.mpr h]
  simp

theorem mem_of_mem_s {x : Str} {ch : Char} (h : ch ∈ s x) : ch ∈ x :=
  (List.dropWhile_sublist isWs).subset ((List.rdropWhile_prefix isWs _).subset h)

theorem s_getLast_not_ws (x : Str) : ∀ ch, (s x).getLast? = some ch → isWs ch = false := by
  intro ch h
  have hne : s x ≠ [] := by
    intro h0
    rw [h0] at h
    simp at h
  have hl := List.rdropWhile_last_not isWs (x.dropWhile isWs) hne
  rw [List.getLast?_eq_getLast _ hne] at h
  simp only [Option.some.injEq] at h
  unfold s at h
  rw [h] at hl
  simpa using hl

theorem s_head_not_ws (x : Str) : ∀ ch, (s x).head? = some ch → isWs ch = false := by
  intro ch h
  obtain ⟨t, ht⟩ := List.rdropWhile_prefix isWs (x.dropWhile isWs)
  have hne : s x ≠ [] := by
    intro h0
    rw [h0] at h
    simp at h
  have h2 : (x.dropWhile isWs).head? = some ch := by
    rw [← ht]
    change (s x ++ t).head? = some ch
    cases hs : s x with
    | nil => exact absurd hs hne
    | cons a l =>
      rw [hs] at h
      simpa using h
  have h3 := List.head?_dropWhile_not isWs x
  rw [h2] at h3
  simpa using h3

theorem s_ne_nil_of_visible (x : Str) (h : ∃ ch ∈ x, isWs ch = false) : s x ≠ [] := by
  obtain ⟨ch, hc, hw⟩ := h
  intro h0
  unfold s at h0
  rw [List.rdropWhile_eq_nil_iff] at h0
  have h1 : x.dropWhile isWs ≠ [] := by
    intro h2
    rw [List.dropWhile_eq_nil_iff] at h2
    rw [h2 ch hc] at hw
    cases hw
  have h3 := List.head?_dropWhile_not isWs x
  cases hd : x.dropWhile isWs with
  | nil => exact h1 hd
  | cons a l =>
    rw [hd] at h3 h0
    simp only [List.head?_cons] at h3
    rw [h0 a (List.mem_cons_self _ _)] at h3
    cases h3

/-- Trimming a string that is whitespace around a core without outer
whitespace yields the core. -/
theorem s_sandwich (w1 y w2 : Str) (h1 : ∀ ch ∈ w1, isWs ch = true)
    (h2 : ∀ ch ∈ w2, isWs ch = true)
    (hh : ∀ ch, y.head? = some ch → isWs ch = false)
    (hl : ∀ ch, y.getLast? = some ch → isWs ch = false) :
    s (w1 ++ y ++ w2) = y := by
  unfold s
  rw [List.append_assoc, List.dropWhile_append_of_pos h1]
  cases y with
  | nil =>
    rw [List.nil_append, List.dropWhile_eq_nil_iff.mpr h2]
    simp
  | cons a y =>
    have ha : isWs a = false := hh a rfl
    rw [List.cons_append, List.dropWhile_cons_of_neg (by simp [ha]), ← List.cons_append]
    unfold List.rdropWhile
    rw [List.reverse_append,
      List.dropWhile_append_of_pos (fun ch hc => h2 ch (List.mem_reverse.mp hc))]
    have hrev : (a :: y).reverse.dropWhile isWs = (a :: y).reverse := by
      cases hr : (a :: y).reverse with
      | nil => rfl
      | cons r rs =>
        have : (a :: y).getLast? = some r := by
          rw [List.getLast?_eq_head?_reverse, hr]
          rfl
        rw [List.dropWhile_cons_of_neg (by simp [hl r this])]
    rw [hrev, List.reverse_reverse]

theorem s_eq_self (y : Str) (hh : ∀ ch, y.head? = some ch → isWs ch = false)
    (hl : ∀ ch, y.getLast? = some ch → isWs ch = false) : s y = y := by
  have := s_sandwich [] y [] (by simp) (by simp) hh hl
  simpa using this

theorem s_s (x : Str) : s (s x) = s x :=
  s_eq_self (s x) (s_head_not_ws x) (s_getLast_not_ws x)

theorem replaceTa_visible (x : Str) (h : ∃ ch ∈ x, isWs ch = false) :
    ∃ ch ∈ replaceTa x, isWs ch = false := by
  obtain ⟨ch, hc, hw⟩ := h
  have hm : ch ∈ x.filter (fun ch => !isWs ch) := by
    simp [List.mem_filter, hc, hw]
  rw [← replaceTaGo_filter false x] at hm
  exact ⟨ch, (List.mem_filter.mp hm).1, hw⟩

theorem replaceTa_no_newline (x : Str) : '\n' ∉ replaceTa x := by
  intro h
  have := replaceTaGo_mem_ws false x '\n' h isWs_newline
  exact absurd this (by decide)


/-! ## The oracle on one element -/

theorem L_tag (a : Elem) (ks : List Node) (t : Str) (ht : t ≠ []) :
    L (some (.elem a ks)) (some t) = decide (toUpperCase a.tagName = t) := by
  simp [L, ht]

theorem L_elem (a : Elem) (ks : List Node) : L (some (.elem a ks)) none = true := rfl

/-- The oracle on an element that none of the tag rules (`TITLE`, `OPTION`,
`OPTGROUP`, `MAP`, `AREA`) applies to. -/
theorem P_plain (k : Nat) (root : Node) (p : Path) (b : Bool) (a : Elem) (ks : List Node)
    (hp : nodeAt root p = some (.elem a ks))
    (htag : toUpperCase a.tagName ∉
      ["TITLE".data, "OPTION".data, "OPTGROUP".data, "MAP".data, "AREA".data]) :
    P (k + 1) root p b =
      if toUpperCase a.tagName = "INPUT".data ∧ toLowerCase a.type = "hidden".data then
        (.ok false, root)
      else if N root p "visibility".data = some "hidden".data then (.ok false, root)
      else if ¬ c root p then (.ok false, root)
      else if ¬ b ∧ (Q root p).isZero then (.ok false, root)
      else (.ok (d (.elem a ks) p root).1, root) := by
  simp only [List.mem_cons, List.mem_singleton, not_or, List.not_mem_nil, or_false] at htag
  obtain ⟨h1, h2, h3, h4, h5⟩ := htag
  have e1 : L (some (.elem a ks)) (some "TITLE".data) = false := by
    rw [L_tag _ _ _ (by decide)]; exact decide_eq_false h1
  have e2 : L (some (.elem a ks)) (some "OPTION".data) = false := by
    rw [L_tag _ _ _ (by decide)]; exact decide_eq_false h2
  have e3 : L (some (.elem a ks)) (some "OPTGROUP".data) = false := by
    rw [L_tag _ _ _ (by decide)]; exact decide_eq_false h3
  have e4 : L (some (.elem a ks)) (some "MAP".data) = false := by
    rw [L_tag _ _ _ (by decide)]; exact decide_eq_false h4
  have e5 : L (some (.elem a ks)) (some "AREA".data) = false := by
    rw [L_tag _ _ _ (by decide)]; exact decide_eq_false h5
  have e6 : L (some (.elem a ks)) (some "INPUT".data)
      = decide (toUpperCase a.tagName = "INPUT".data) := L_tag _ _ _ (by decide)
  simp only [P, hp, e1, e2, e3, e4, e5, e6, d_snd, Bool.false_eq_true, if_false, or_self,
    decide_eq_true_eq]

/-- The display check fails as soon as the element `j` levels up the chain
of parent elements has resolved display `"none"`. -/
theorem c_false_of_none (root : Node) (j : Nat) :
    ∀ p : Path, (∀ i ≤ j, L (nodeAt root (p.drop i)) none = true) →
      N root (p.drop j) "display".data = some "none".data → c root p = false := by
  induction j with
  | zero =>
    intro p _ hn
    rw [List.drop_zero] at hn
    cases p <;> simp [c, hn]
  | succ j ih =>
    intro p hchain hn
    cases p with
    | nil =>
      rw [List.drop_nil] at hn
      simp [c, hn]
    | cons i p =>
      have hL : L (nodeAt root p) none = true := by
        have := hchain 1 (by omega)
        simpa using this
      have hc : c root p = false := by
        apply ih p
        · intro i2 hi2
          have := hchain (i2 + 1) (by omega)
          simpa using this
        · simpa using hn
      simp only [c, hL, hc, if_true]
      split_ifs <;> rfl

theorem dSome_true_iff (ks : List Node) (p : Path) (i : Nat) (root : Node) :
    (dSome ks p i root).1 = true ↔
      ∃ j x, ks[j]? = some x ∧ L (some x) none = true ∧ (d x ((i + j) :: p) root).1 = true := by
  induction ks generalizing i with
  | nil => simp [dSome]
  | cons y rest ih =>
    simp only [dSome, d_snd]
    constructor
    · intro h
      split_ifs at h with hL hd
      · exact ⟨0, y, by simp, hL, by simpa using hd⟩
      · obtain ⟨j, x, hx, hLx, hdx⟩ := (ih (i + 1)).mp h
        exact ⟨j + 1, x, by simpa using hx, hLx, by
          rw [show i + (j + 1) = i + 1 + j by omega]; exact hdx⟩
      · obtain ⟨j, x, hx, hLx, hdx⟩ := (ih (i + 1)).mp h
        exact ⟨j + 1, x, by simpa using hx, hLx, by
          rw [show i + (j + 1) = i + 1 + j by omega]; exact hdx⟩
    · rintro ⟨j, x, hx, hLx, hdx⟩
      cases j with
      | zero =>
        simp only [List.getElem?_cons_zero, Option.some.injEq] at hx
        subst hx
        simp only [Nat.add_zero] at hdx
        simp [hLx, hdx]
      | succ j =>
        simp only [List.getElem?_cons_succ] at hx
        have hr : (dSome rest p (i + 1) root).1 = true :=
          (ih (i + 1)).mpr ⟨j, x, hx, hLx, by
            rw [show i + 1 + j = i + (j + 1) by omega]; exact hdx⟩
        split_ifs <;> simp [hr]

theorem d_true_iff (a : Elem) (ks : List Node) (p : Path) (root : Node) :
    (d (.elem a ks) p root).1 = true ↔
      (0 < (pa root p).1.height ∧ 0 < (pa root p).1.width) ∨
      qaTest (innerOrContent (.elem a ks)) = true ∨
      ∃ j x, ks[j]? = some x ∧ L (some x) none = true ∧ (d x (j :: p) root).1 = true := by
  have hq : qaTest (innerOrContent (.elem a ks)) = true →
      innerOrContent (.elem a ks) ≠ [] := by
    intro h h0
    rw [h0] at h
    simp [qaTest] at h
  simp only [d, pa_snd]
  constructor
  · intro h
    split_ifs at h with h1 h2
    · exact Or.inl h1
    · exact Or.inr (Or.inl h2.2)
    · obtain ⟨j, x, hx, hLx, hdx⟩ := (dSome_true_iff ks p 0 root).mp h
      exact Or.inr (Or.inr ⟨j, x, hx, hLx, by simpa using hdx⟩)
  · rintro (h | h | ⟨j, x, hx, hLx, hdx⟩)
    · simp [h]
    · split_ifs with h1 h2
      · rfl
      · rfl
      · exact absurd (And.intro (hq h) h) h2
    · have := (dSome_true_iff ks p 0 root).mpr ⟨j, x, hx, hLx, by simpa using hdx⟩
      split_ifs <;> first | rfl | exact this

theorem E_some {root : Node} {b : Option Node → Bool} {p q : Path}
    (h : E root b p = some q) : b (nodeAt root q) = true := by
  induction p with
  | nil => simp [E] at h
  | cons i p ih =>
    simp only [E] at h
    split_ifs at h with hb
    · simp only [Option.some.injEq] at h
      subst h
      exact hb
    · exact ih h


/-! ## The collector -/

theorem nodeAt_child {root : Node} {q : Path} {n : Node} (h : nodeAt root q = some n)
    (j : Nat) : nodeAt root (j :: q) = n.childNodes[j]? := by
  simp [nodeAt, h]

theorem M_child {root : Node} {q : Path} {a : Elem} {ks : List Node}
    (h : nodeAt root q = some (.elem a ks)) (i : Nat) : M root (i :: q) = some q := by
  simp [M, h, L]

theorem RLoop_text_hidden (k : Nat) (v : Str) (rest : List Node) (p : Path) (i : Nat)
    (b : List Str) (root : Node) (a : Elem) (ks : List Node)
    (hp : nodeAt root p = some (.elem a ks)) (h : (P k root p false).1 = .ok false) :
    RLoop k (.text v :: rest) p i b root = RLoop k rest p (i + 1) b root := by
  rw [RLoop_text, M_child hp]
  simp only [h]

theorem RLoop_text_shown (k : Nat) (v : Str) (rest : List Node) (p : Path) (i : Nat)
    (b : List Str) (root : Node) (a : Elem) (ks : List Node)
    (hp : nodeAt root p = some (.elem a ks)) (h : (P k root p false).1 = .ok true) :
    RLoop k (.text v :: rest) p i b root =
      match appendText b v with
      | some b2 => RLoop k rest p (i + 1) b2 root
      | none => (.error .typeError, root) := by
  rw [RLoop_text, M_child hp]
  simp only [h]

theorem RLoop_elem_ok (k : Nat) (e : Elem) (ks2 : List Node) (rest : List Node) (p : Path)
    (i : Nat) (b b2 : List Str) (root : Node)
    (h : R k (.elem e ks2) (i :: p) b root = (.ok b2, root)) :
    RLoop k (.elem e ks2 :: rest) p i b root = RLoop k rest p (i + 1) b2 root := by
  simp only [RLoop, h]

theorem pushIfOpen_of_last_empty (cflag : Bool) (b : List Str)
    (h : b.getLast?.getD [] = []) : pushIfOpen cflag b = b := by
  simp [pushIfOpen, h]

theorem getLast_getD_of_all_empty (b : List Str) (h : ∀ l ∈ b, l = []) :
    b.getLast?.getD [] = [] := by
  cases hb : b.getLast? with
  | none => rfl
  | some l => exact h l (List.mem_of_getLast?_eq_some hb)

theorem joinLines_all_empty (b : List Str) (h : ∀ l ∈ b, l = []) :
    ∀ ch ∈ joinLines b, isWs ch = true := by
  induction b with
  | nil => intro ch hc; simp [joinLines] at hc
  | cons l b ih =>
    have hl : l = [] := h l (List.mem_cons_self _ _)
    subst hl
    cases b with
    | nil => intro ch hc; simp [joinLines] at hc
    | cons m b =>
      intro ch hc
      simp only [joinLines, List.nil_append, List.mem_cons] at hc
      rcases hc with rfl | hc
      · exact isWs_newline
      · exact ih (fun l hl => h l (List.mem_cons_of_mem _ hl)) ch hc

theorem ra_lines_all_empty (b : List Str) (h : ∀ l ∈ b, l = []) :
    s (joinLines (b.map s)) = [] := by
  apply s_of_all_ws
  apply joinLines_all_empty
  intro l hl
  obtain ⟨l0, hl0, rfl⟩ := List.mem_map.mp hl
  rw [h l0 hl0, s_nil]

/-- With every text node's parent reported as not shown, the loop of `R` keeps
a buffer of empty lines a buffer of empty lines. -/
theorem RLoop_hidden_of (k : Nat) (root : Node) (p : Path)
    (hidden : ∀ q i v, p <:+ q → nodeAt root (i :: q) = some (.text v) →
      (P k root q false).1 = .ok false)
    (ks : List Node)
    (ih : ∀ x ∈ ks, ∀ q b, L (some x) none = true → nodeAt root q = some x → p <:+ q →
      (∀ l ∈ b, l = []) → ∃ b2, R k x q b root = (.ok b2, root) ∧ ∀ l ∈ b2, l = []) :
    ∀ (q : Path) (a : Elem) (aks : List Node) (i : Nat) (b : List Str),
      nodeAt root q = some (.elem a aks) → p <:+ q →
      (∀ j x, ks[j]? = some x → nodeAt root ((i + j) :: q) = some x) →
      (∀ l ∈ b, l = []) →
      ∃ b2, RLoop k ks q i b root = (.ok b2, root) ∧ ∀ l ∈ b2, l = [] := by
  induction ks with
  | nil =>
    intro q a aks i b _ _ _ hb
    exact ⟨b, by simp [RLoop], hb⟩
  | cons x rest ihr =>
    intro q a aks i b hq hpq hloc hb
    have hx : nodeAt root (i :: q) = some x := by
      have := hloc 0 x (by simp)
      simpa using this
    have hrest := ihr (fun y hy => ih y (List.mem_cons_of_mem _ hy)) q a aks (i + 1)
    have hloc2 : ∀ j y, rest[j]? = some y → nodeAt root ((i + 1 + j) :: q) = some y := by
      intro j y hy
      have := hloc (j + 1) y (by simpa using hy)
      rw [show i + 1 + j = i + (j + 1) by omega]
      exact this
    cases x with
    | text v =>
      rw [RLoop_text_hidden k v rest q i b root a aks hq (hidden q i v hpq hx)]
      exact hrest b hq hpq hloc2 hb
    | elem e ks2 =>
      obtain ⟨b2, hR, hb2⟩ := ih (.elem e ks2) (List.mem_cons_self _ _) (i :: q) b rfl hx
        (hpq.trans (List.suffix_cons i q)) hb
      rw [RLoop_elem_ok k e ks2 rest q i b b2 root hR]
      exact hrest b2 hq hpq hloc2 hb2
    | comment v =>
      simp only [RLoop]
      exact hrest b hq hpq hloc2 hb
    | document v ks2 =>
      simp only [RLoop]
      exact hrest b hq hpq hloc2 hb

theorem R_hidden (k : Nat) (root : Node) (p : Path)
    (hidden : ∀ q i v, p <:+ q → nodeAt root (i :: q) = some (.text v) →
      (P k root q false).1 = .ok false) (n : Node) :
    ∀ q b, L (some n) none = true → nodeAt root q = some n → p <:+ q →
      (∀ l ∈ b, l = []) → ∃ b2, R k n q b root = (.ok b2, root) ∧ ∀ l ∈ b2, l = [] := by
  induction n using Node.induct with
  | helem e ks ih =>
    intro q b _ hq hpq hb
    simp only [R]
    split_ifs with hbr
    · refine ⟨b ++ [[]], rfl, ?_⟩
      intro l hl
      rcases List.mem_append.mp hl with h | h
      · exact hb l h
      · simpa using h
    · rw [pushIfOpen_of_last_empty _ b (getLast_getD_of_all_empty b hb)]
      obtain ⟨b2, hL, hb2⟩ := RLoop_hidden_of k root p hidden ks ih q e ks 0 b hq hpq
        (by
          intro j x hx
          rw [Nat.zero_add, nodeAt_child hq j]
          exact hx) hb
      rw [hL]
      exact ⟨b2, by
        simp only [pushIfOpen_of_last_empty _ b2 (getLast_getD_of_all_empty b2 hb2)], hb2⟩
  | htext v => intro q b h; simp [L] at h
  | hcomment v => intro q b h; simp [L] at h
  | hdoc v ks _ => intro q b h; simp [L] at h


/-! ## Every text node is enumerated -/

theorem nodeAt_append_none (root : Node) (q : Path) (h : nodeAt root q = none) :
    ∀ l : Path, nodeAt root (l ++ q) = none := by
  intro l
  induction l with
  | nil => exact h
  | cons i l ih => simp [nodeAt, ih]

theorem textParents_eq_list (n : Node) (p : Path) :
    textParents n p = textParentsList n.childNodes p 0 := by
  cases n <;> simp [textParents, textParentsList, Node.childNodes]

theorem mem_textParentsList_of_text (ks : List Node) (p : Path) (i j : Nat) (v : Str)
    (h : ks[j]? = some (.text v)) : p ∈ textParentsList ks p i := by
  induction ks generalizing i j with
  | nil => simp at h
  | cons x rest ih =>
    cases j with
    | zero =>
      simp only [List.getElem?_cons_zero, Option.some.injEq] at h
      subst h
      simp [textParentsList]
    | succ j =>
      simp only [List.getElem?_cons_succ] at h
      simp only [textParentsList, List.mem_append]
      exact Or.inr (ih (i + 1) j h)

theorem mem_textParentsList_of_child (ks : List Node) (p : Path) (i j : Nat) (x : Node)
    (r : Path) (h : ks[j]? = some x) (hr : r ∈ textParents x ((i + j) :: p)) :
    r ∈ textParentsList ks p i := by
  induction ks generalizing i j with
  | nil => simp at h
  | cons y rest ih =>
    cases j with
    | zero =>
      simp only [List.getElem?_cons_zero, Option.some.injEq] at h
      subst h
      simp only [textParentsList, List.mem_append]
      exact Or.inl (Or.inr (by simpa using hr))
    | succ j =>
      simp only [List.getElem?_cons_succ] at h
      simp only [textParentsList, List.mem_append]
      refine Or.inr (ih (i + 1) j h ?_)
      rw [show i + 1 + j = i + (j + 1) by omega]
      exact hr

/-- The parent of every text node below the node at `p` is listed by
`textParents`. -/
theorem mem_textParents (root : Node) (i : Nat) (v : Str) (l : Path) :
    ∀ (n : Node) (p : Path), nodeAt root p = some n →
      nodeAt root (i :: (l ++ p)) = some (.text v) → l ++ p ∈ textParents n p := by
  induction l using List.reverseRecOn with
  | nil =>
    intro n p hn ht
    rw [List.nil_append] at ht ⊢
    rw [nodeAt_child hn i] at ht
    rw [textParents_eq_list]
    exact mem_textParentsList_of_text _ p 0 i v ht
  | append_singleton l j ih =>
    intro n p hn ht
    rw [List.append_assoc, List.singleton_append] at ht ⊢
    cases hx : nodeAt root (j :: p) with
    | none =>
      have := nodeAt_append_none root (j :: p) hx (i :: l)
      rw [List.cons_append, ht] at this
      cases this
    | some x =>
      have hmem := ih x (j :: p) hx ht
      rw [textParents_eq_list n p]
      rw [nodeAt_child hn j] at hx
      exact mem_textParentsList_of_child _ p 0 j x _ hx (by simpa using hmem)


/-! ## Steps of the collector on the line buffer -/

theorem appendText_empty_last (l : List Str) (v : Str) :
    appendText (l ++ [[]]) v = some (l ++ [replaceTa v]) := by
  simp [appendText]

theorem pushIfOpen_concat_empty (cflag : Bool) (l : List Str) :
    pushIfOpen cflag (l ++ [[]]) = l ++ [[]] := by
  simp [pushIfOpen]

theorem pushIfOpen_true_concat (l : List Str) (e : Str) (he : e ≠ []) :
    pushIfOpen true (l ++ [e]) = l ++ [e] ++ [[]] := by
  simp [pushIfOpen, he]

theorem R_br (k : Nat) (e : Elem) (ks : List Node) (q : Path) (b : List Str) (root : Node)
    (h : toUpperCase e.tagName = "BR".data) :
    R k (.elem e ks) q b root = (.ok (b ++ [[]]), root) := by
  simp only [R, L_tag _ _ _ (show "BR".data ≠ [] by decide), h, decide_True, if_true]

theorem R_not_br (k : Nat) (e : Elem) (ks : List Node) (q : Path) (b : List Str) (root : Node)
    (h : toUpperCase e.tagName ≠ "BR".data) :
    R k (.elem e ks) q b root =
      match RLoop k ks q 0 (pushIfOpen (sa root q) b) root with
      | (.ok b2, root2) => (.ok (pushIfOpen (sa root q) b2), root2)
      | r => r := by
  simp only [R, L_tag _ _ _ (show "BR".data ≠ [] by decide), h, decide_False,
    Bool.false_eq_true, if_false]

theorem replaceTa_ne_nil (x : Str) (h : ∃ ch ∈ x, isWs ch = false) : replaceTa x ≠ [] := by
  obtain ⟨ch, hc, -⟩ := replaceTa_visible x h
  intro h0
  rw [h0] at hc
  cases hc

theorem s_replaceTa_ne_nil (x : Str) (h : ∃ ch ∈ x, isWs ch = false) :
    s (replaceTa x) ≠ [] :=
  s_ne_nil_of_visible _ (replaceTa_visible x h)

theorem s_replaceTa_no_newline (x : Str) : '\n' ∉ s (replaceTa x) :=
  fun h => replaceTa_no_newline x (mem_of_mem_s h)

/-- Trimming a string that starts with the trimmed `x`, ends with the trimmed
`y` followed by whitespace `w`: only `w` goes. -/
theorem s_between (x mid y w : Str) (hx : s x ≠ []) (hy : s y ≠ [])
    (hw : ∀ ch ∈ w, isWs ch = true) :
    s (s x ++ mid ++ s y ++ w) = s x ++ mid ++ s y := by
  have := s_sandwich [] (s x ++ mid ++ s y) w (by simp) hw
    (by
      intro ch h
      rw [List.append_assoc, List.head?_append_of_ne_nil _ hx] at h
      exact s_head_not_ws x ch h)
    (by
      intro ch h
      rw [List.getLast?_append_of_ne_nil _ hy] at h
      exact s_getLast_not_ws y ch h)
  simpa using this

/-- The collector on a chain of nested blocks around one shown text node:
the text gets a line of its own and the buffer ends with an open empty line. -/
theorem R_nest (k : Nat) (root : Node) (inner : Str) (hin : ∃ ch ∈ inner, isWs ch = false)
    (e : Elem) (es : List Elem) :
    ∀ (q : Path) (b l : List Str),
      nodeAt root q = some (nest (e :: es) (.text inner)) →
      (∀ j ≤ es.length, sa root (List.replicate j 0 ++ q) = true) →
      (∀ x ∈ e :: es, toUpperCase x.tagName ≠ "BR".data) →
      (P k root (List.replicate es.length 0 ++ q) false).1 = .ok true →
      pushIfOpen true b = l ++ [[]] →
      R k (nest (e :: es) (.text inner)) q b root = (.ok (l ++ [replaceTa inner] ++ [[]]), root) := by
  induction es generalizing e with
  | nil =>
    intro q b l hq hsa hbr hP hb
    have hsa0 : sa root q = true := by simpa using hsa 0 (Nat.le_refl _)
    have hP0 : (P k root q false).1 = .ok true := by simpa using hP
    simp only [nest] at hq ⊢
    rw [R_not_br _ _ _ _ _ _ (hbr e (List.mem_cons_self _ _)), hsa0, hb,
      RLoop_text_shown k inner [] q 0 _ root e _ hq hP0, appendText_empty_last]
    simp only [RLoop]
    rw [pushIfOpen_true_concat l _ (replaceTa_ne_nil inner hin)]
  | cons e2 es ih =>
    intro q b l hq hsa hbr hP hb
    have hsa0 : sa root q = true := by simpa using hsa 0 (Nat.zero_le _)
    have hq2 : nodeAt root (0 :: q) = some (nest (e2 :: es) (.text inner)) := by
      rw [nodeAt_child hq 0]
      simp [nest, Node.childNodes]
    have hrep : ∀ j, List.replicate j 0 ++ 0 :: q = List.replicate (j + 1) 0 ++ q := by
      intro j
      rw [List.replicate_succ', List.append_assoc]
      rfl
    have hinner := ih e2 (0 :: q) (l ++ [[]]) l hq2
      (by
        intro j hj
        rw [hrep]
        exact hsa (j + 1) (by simp only [List.length_cons]; omega))
      (fun x hx => hbr x (List.mem_cons_of_mem _ hx))
      (by
        rw [hrep]
        simpa using hP)
      (pushIfOpen_concat_empty true l)
    have hnest : nest (e :: e2 :: es) (.text inner)
        = .elem e [nest (e2 :: es) (.text inner)] := rfl
    have hchild : nest (e2 :: es) (.text inner)
        = .elem e2 [nest es (.text inner)] := rfl
    rw [hnest, R_not_br _ _ _ _ _ _ (hbr e (List.mem_cons_self _ _)), hsa0, hb]
    rw [hchild] at hinner ⊢
    rw [RLoop_elem_ok k e2 _ [] q 0 _ _ root hinner]
    simp only [RLoop]
    rw [show l ++ [replaceTa inner] ++ [[]] = (l ++ [replaceTa inner]) ++ [[]] from rfl,
      pushIfOpen_concat_empty]

/-! ## The tag rules of the oracle -/

theorem P_special_or (k : Nat) (root : Node) (p : Path) (b : Bool) (a : Elem)
    (ks : List Node) (hp : nodeAt root p = some (.elem a ks))
    (htag : toUpperCase a.tagName = "OPTION".data ∨ toUpperCase a.tagName = "OPTGROUP".data) :
    P (k + 1) root p b =
      match E root (fun f => L f (some "SELECT".data)) p with
      | some e => P k root e false
      | none => (.ok false, root) := by
  rcases htag with h | h
  · simp only [P, hp, L_tag _ _ _ (show "TITLE".data ≠ [] by decide),
      L_tag _ _ _ (show "OPTION".data ≠ [] by decide), h]
    simp only [show ("OPTION".data = "TITLE".data) = False by decide, decide_False,
      decide_True, Bool.false_eq_true, if_false, true_or, if_true]
  · simp only [P, hp, L_tag _ _ _ (show "TITLE".data ≠ [] by decide),
      L_tag _ _ _ (show "OPTION".data ≠ [] by decide),
      L_tag _ _ _ (show "OPTGROUP".data ≠ [] by decide), h]
    simp only [show ("OPTGROUP".data = "TITLE".data) = False by decide, decide_False,
      decide_True, Bool.false_eq_true, if_false, or_true, if_true]

theorem P_title (k : Nat) (root : Node) (p : Path) (b : Bool) (a : Elem) (ks : List Node)
    (hp : nodeAt root p = some (.elem a ks)) (h : toUpperCase a.tagName = "TITLE".data) :
    P (k + 1) root p b = (.ok (viewIsWindow root), root) := by
  simp only [P, hp, L_tag _ _ _ (show "TITLE".data ≠ [] by decide), h, decide_True, if_true]

theorem P_map (k : Nat) (root : Node) (p : Path) (b : Bool) (a : Elem) (ks : List Node)
    (hp : nodeAt root p = some (.elem a ks)) (h : toUpperCase a.tagName = "MAP".data) :
    P (k + 1) root p b =
      if a.name = [] then (.ok false, root)
      else
        match usemapRef k root a.name with
        | .ok (some e) => P k root e false
        | .ok none => (.ok false, root)
        | .error err => (.error err, root) := by
  simp only [P, hp, L_tag _ _ _ (show "TITLE".data ≠ [] by decide),
    L_tag _ _ _ (show "OPTION".data ≠ [] by decide),
    L_tag _ _ _ (show "OPTGROUP".data ≠ [] by decide),
    L_tag _ _ _ (show "MAP".data ≠ [] by decide), h]
  simp only [show ("MAP".data = "TITLE".data) = False by decide,
    show ("MAP".data = "OPTION".data) = False by decide,
    show ("MAP".data = "OPTGROUP".data) = False by decide,
    decide_False, decide_True, Bool.false_eq_true, if_false, or_self, if_true]

theorem P_area (k : Nat) (root : Node) (p : Path) (b : Bool) (a : Elem) (ks : List Node)
    (hp : nodeAt root p = some (.elem a ks)) (h : toUpperCase a.tagName = "AREA".data) :
    P (k + 1) root p b =
      match E root (fun f => L f (some "MAP".data)) p with
      | some e => P k root e false
      | none => (.ok false, root) := by
  simp only [P, hp, L_tag _ _ _ (show "TITLE".data ≠ [] by decide),
    L_tag _ _ _ (show "OPTION".data ≠ [] by decide),
    L_tag _ _ _ (show "OPTGROUP".data ≠ [] by decide),
    L_tag _ _ _ (show "MAP".data ≠ [] by decide),
    L_tag _ _ _ (show "AREA".data ≠ [] by decide), h]
  simp only [show ("AREA".data = "TITLE".data) = False by decide,
    show ("AREA".data = "OPTION".data) = False by decide,
    show ("AREA".data = "OPTGROUP".data) = False by decide,
    show ("AREA".data = "MAP".data) = False by decide,
    decide_False, decide_True, Bool.false_eq_true, if_false, or_self, if_true]

/-- On the five tags with a rule of their own the second argument of `P` is
never read. -/
theorem P_special_indep (k : Nat) (root : Node) (p : Path) (a : Elem) (ks : List Node)
    (hp : nodeAt root p = some (.elem a ks))
    (htag : toUpperCase a.tagName ∈
      ["TITLE".data, "OPTION".data, "OPTGROUP".data, "MAP".data, "AREA".data]) :
    P k root p false = P k root p true := by
  cases k with
  | zero => rfl
  | succ k =>
    simp only [List.mem_cons, List.mem_singleton, List.not_mem_nil, or_false] at htag
    rcases htag with h | h | h | h | h
    · rw [P_title k root p false a ks hp h, P_title k root p true a ks hp h]
    · rw [P_special_or k root p false a ks hp (Or.inl h),
        P_special_or k root p true a ks hp (Or.inl h)]
    · rw [P_special_or k root p false a ks hp (Or.inr h),
        P_special_or k root p true a ks hp (Or.inr h)]
    · rw [P_map k root p false a ks hp h, P_map k root p true a ks hp h]
    · rw [P_area k root p false a ks hp h, P_area k root p true a ks hp h]


theorem tag_cases (a : Elem) :
    toUpperCase a.tagName = "TITLE".data ∨
    (toUpperCase a.tagName = "OPTION".data ∨ toUpperCase a.tagName = "OPTGROUP".data) ∨
    toUpperCase a.tagName = "MAP".data ∨ toUpperCase a.tagName = "AREA".data ∨
    toUpperCase a.tagName ∉
      ["TITLE".data, "OPTION".data, "OPTGROUP".data, "MAP".data, "AREA".data] := by
  by_cases h1 : toUpperCase a.tagName = "TITLE".data
  · exact Or.inl h1
  by_cases h2 : toUpperCase a.tagName = "OPTION".data
  · exact Or.inr (Or.inl (Or.inl h2))
  by_cases h3 : toUpperCase a.tagName = "OPTGROUP".data
  · exact Or.inr (Or.inl (Or.inr h3))
  by_cases h4 : toUpperCase a.tagName = "MAP".data
  · exact Or.inr (Or.inr (Or.inl h4))
  by_cases h5 : toUpperCase a.tagName = "AREA".data
  · exact Or.inr (Or.inr (Or.inr (Or.inl h5)))
  · refine Or.inr (Or.inr (Or.inr (Or.inr ?_)))
    simp only [List.mem_cons, List.mem_singleton, List.not_mem_nil, or_false, not_or]
    exact ⟨h1, h2, h3, h4, h5⟩

theorem delegate_title (root : Node) (p : Path) (a : Elem) (ks : List Node)
    (hp : nodeAt root p = some (.elem a ks)) (h : toUpperCase a.tagName = "TITLE".data) :
    delegate root p = .ok none := by
  simp only [delegate, hp, L_tag _ _ _ (show "TITLE".data ≠ [] by decide), h, decide_True,
    if_true]

theorem delegate_option (root : Node) (p : Path) (a : Elem) (ks : List Node)
    (hp : nodeAt root p = some (.elem a ks))
    (htag : toUpperCase a.tagName = "OPTION".data ∨ toUpperCase a.tagName = "OPTGROUP".data) :
    delegate root p = .ok (E root (fun f => L f (some "SELECT".data)) p) := by
  rcases htag with h | h
  · simp only [delegate, hp, L_tag _ _ _ (show "TITLE".data ≠ [] by decide),
      L_tag _ _ _ (show "OPTION".data ≠ [] by decide), h]
    simp only [show ("OPTION".data = "TITLE".data) = False by decide, decide_False,
      decide_True, Bool.false_eq_true, if_false, true_or, if_true]
  · simp only [delegate, hp, L_tag _ _ _ (show "TITLE".data ≠ [] by decide),
      L_tag _ _ _ (show "OPTION".data ≠ [] by decide),
      L_tag _ _ _ (show "OPTGROUP".data ≠ [] by decide), h]
    simp only [show ("OPTGROUP".data = "TITLE".data) = False by decide, decide_False,
      decide_True, Bool.false_eq_true, if_false, or_true, if_true]

theorem delegate_map (root : Node) (p : Path) (a : Elem) (ks : List Node)
    (hp : nodeAt root p = some (.elem a ks)) (h : toUpperCase a.tagName = "MAP".data) :
    delegate root p = if a.name = [] then .ok none else usemapRef 1 root a.name := by
  simp only [delegate, hp, L_tag _ _ _ (show "TITLE".data ≠ [] by decide),
    L_tag _ _ _ (show "OPTION".data ≠ [] by decide),
    L_tag _ _ _ (show "OPTGROUP".data ≠ [] by decide),
    L_tag _ _ _ (show "MAP".data ≠ [] by decide), h]
  simp only [show ("MAP".data = "TITLE".data) = False by decide,
    show ("MAP".data = "OPTION".data) = False by decide,
    show ("MAP".data = "OPTGROUP".data) = False by decide,
    decide_False, decide_True, Bool.false_eq_true, if_false, or_self, if_true]

theorem delegate_area (root : Node) (p : Path) (a : Elem) (ks : List Node)
    (hp : nodeAt root p = some (.elem a ks)) (h : toUpperCase a.tagName = "AREA".data) :
    delegate root p = .ok (E root (fun f => L f (some "MAP".data)) p) := by
  simp only [delegate, hp, L_tag _ _ _ (show "TITLE".data ≠ [] by decide),
    L_tag _ _ _ (show "OPTION".data ≠ [] by decide),
    L_tag _ _ _ (show "OPTGROUP".data ≠ [] by decide),
    L_tag _ _ _ (show "MAP".data ≠ [] by decide),
    L_tag _ _ _ (show "AREA".data ≠ [] by decide), h]
  simp only [show ("AREA".data = "TITLE".data) = False by decide,
    show ("AREA".data = "OPTION".data) = False by decide,
    show ("AREA".data = "OPTGROUP".data) = False by decide,
    show ("AREA".data = "MAP".data) = False by decide,
    decide_False, decide_True, Bool.false_eq_true, if_false, or_self, if_true]

theorem delegate_none_of_plain (root : Node) (p : Path) (a : Elem) (ks : List Node)
    (hp : nodeAt root p = some (.elem a ks))
    (htag : toUpperCase a.tagName ∉
      ["TITLE".data, "OPTION".data, "OPTGROUP".data, "MAP".data, "AREA".data]) :
    delegate root p = .ok none := by
  simp only [List.mem_cons, List.mem_singleton, not_or, List.not_mem_nil, or_false] at htag
  obtain ⟨h1, h2, h3, h4, h5⟩ := htag
  simp only [delegate, hp, L_tag _ _ _ (show "TITLE".data ≠ [] by decide),
    L_tag _ _ _ (show "OPTION".data ≠ [] by decide),
    L_tag _ _ _ (show "OPTGROUP".data ≠ [] by decide),
    L_tag _ _ _ (show "MAP".data ≠ [] by decide),
    L_tag _ _ _ (show "AREA".data ≠ [] by decide), h1, h2, h3, h4, h5, decide_False,
    Bool.false_eq_true, if_false, or_self]

theorem elem_of_L {root : Node} {p : Path} (h : L (nodeAt root p) none = true) :
    ∃ a ks, nodeAt root p = some (.elem a ks) := by
  unfold L at h
  split at h
  · rename_i a ks hp
    exact ⟨a, ks, hp⟩
  · cases h


/-! ## The chain of self-calls of `P` -/

theorem DLoop_located_of (root : Node) (b : Node → Bool) (ks : List Node)
    (ih : ∀ x ∈ ks, ∀ p r, nodeAt root p = some x → D b x p = some r →
      ∃ y, nodeAt root r = some y ∧ b y = true) :
    ∀ (p : Path) (e : Nat) (r : Path),
      (∀ j x, ks[j]? = some x → nodeAt root ((e + j) :: p) = some x) →
      DLoop b ks p e = some r → ∃ y, nodeAt root r = some y ∧ b y = true := by
  induction ks with
  | nil => intro p e r _ h; simp [DLoop] at h
  | cons f rest ihr =>
    intro p e r hloc h
    have hf : nodeAt root (e :: p) = some f := by
      have := hloc 0 f (by simp)
      simpa using this
    simp only [DLoop] at h
    split_ifs at h with hb
    · simp only [Option.some.injEq] at h
      subst h
      exact ⟨f, hf, hb⟩
    · split at h
      · rename_i r2 hr2
        simp only [Option.some.injEq] at h
        subst h
        exact ih f (List.mem_cons_self _ _) (e :: p) r2 hf hr2
      · refine ihr (fun x hx => ih x (List.mem_cons_of_mem _ hx)) p (e + 1) r ?_ h
        intro j x hx
        have := hloc (j + 1) x (by simpa using hx)
        rw [show e + 1 + j = e + (j + 1) by omega]
        exact this

/-- The reference `D` returns points, in the document the search started
from, to a node that satisfies the predicate. -/
theorem D_located (root : Node) (b : Node → Bool) (n : Node) :
    ∀ p r, nodeAt root p = some n → D b n p = some r →
      ∃ y, nodeAt root r = some y ∧ b y = true := by
  induction n using Node.induct with
  | helem a ks ih =>
    intro p r hp h
    simp only [D] at h
    refine DLoop_located_of root b ks ih p 0 r ?_ h
    intro j x hx
    rw [Nat.zero_add, nodeAt_child hp j]
    exact hx
  | htext v => intro p r _ h; simp [D] at h
  | hcomment v => intro p r _ h; simp [D] at h
  | hdoc v ks ih =>
    intro p r hp h
    simp only [D] at h
    refine DLoop_located_of root b ks ih p 0 r ?_ h
    intro j x hx
    rw [Nat.zero_add, nodeAt_child hp j]
    exact hx

theorem L_none_of_tag {n : Option Node} {t : Str} (h : L n (some t) = true) :
    L n none = true := by
  unfold L at h ⊢
  split at h
  · rfl
  · cases h

theorem la_refersTo_elem {root : Node} {name : Str} {r : Path}
    (h : la root (refersTo name) = some r) : L (nodeAt root r) none = true := by
  obtain ⟨y, hy, hb⟩ := D_located root _ root [] r rfl h
  rw [hy]
  simp only [refersTo, Bool.and_eq_true] at hb
  exact hb.1

theorem ma_elem {k : Nat} {root : Node} {name : Str} {r : Path}
    (h : ma k root name = .ok (some r)) : L (nodeAt root r) none = true := by
  unfold ma at h
  split at h
  · cases h
  · rename_i r2 _
    split at h
    · rename_i a ks hr
      cases h
      rw [hr]
      rfl
    · cases h

theorem ma_error {k : Nat} {root : Node} {name : Str} {err : Err}
    (h : ma k root name = .error err) : err = .notAnElement := by
  unfold ma at h
  split at h
  · cases h
  · split at h
    · cases h
    · cases h
      rfl

/-- The element the lookup of the `MAP` rule returns is an element. -/
theorem usemapRef_elem {k : Nat} {root : Node} {name : Str} {r : Path}
    (h : usemapRef k root name = .ok (some r)) : L (nodeAt root r) none = true := by
  unfold usemapRef at h
  split_ifs at h
  · exact ma_elem h
  · simp only [Except.ok.injEq] at h
    exact la_refersTo_elem h

/-- The only error of the lookup of the `MAP` rule is the one of `ma`. -/
theorem usemapRef_error {k : Nat} {root : Node} {name : Str} {err : Err}
    (h : usemapRef k root name = .error err) : err = .notAnElement := by
  unfold usemapRef at h
  split_ifs at h
  exact ma_error h

/-- With room on the stack the lookup does not depend on how much there is. -/
theorem usemapRef_succ (k : Nat) (root : Node) (name : Str) :
    usemapRef (k + 1) root name = usemapRef 1 root name := by
  unfold usemapRef ma xpathNode
  cases root <;> simp

/-- Without `document.evaluate`, and with it for a name without a double
quote when there is room on the stack, the lookup of the `MAP` rule is the
first element in document order that refers to the map. -/
theorem usemapRef_first (k : Nat) (root : Node) (name : Str)
    (h : hasEvaluate root = false ∨ dquote ∉ name) :
    usemapRef (k + 1) root name = .ok (la root (refersTo name)) := by
  unfold usemapRef
  split_ifs with he
  · have hq : dquote ∉ name := by
      rcases h with h | h
      · rw [h] at he
        cases he
      · exact h
    unfold ma xpathNode
    cases root with
    | document hst ks =>
      simp only [Nat.add_one_ne_zero, false_and, if_false, hq]
      cases hl : la (Node.document hst ks) (refersTo name) with
      | none => rfl
      | some r =>
        have hr := la_refersTo_elem hl
        simp only []
        unfold L at hr
        split at hr
        · rename_i a aks hn
          simp only [hn]
        · cases hr
    | elem a ks => simp [hasEvaluate] at he
    | text v => simp [hasEvaluate] at he
    | comment v => simp [hasEvaluate] at he
  · rfl

theorem tag_of_L {root : Node} {q : Path} {t : Str} (ht : t ≠ [])
    (h : L (nodeAt root q) (some t) = true) :
    ∃ a ks, nodeAt root q = some (.elem a ks) ∧ toUpperCase a.tagName = t := by
  unfold L at h
  split at h
  · rename_i a ks hq
    refine ⟨a, ks, hq, ?_⟩
    simpa [ht] using h
  · cases h

/-- The outcome of `P` on an element is never the error for an argument that
is not an element. -/
theorem P_no_argument_error (root : Node) (k : Nat) :
    ∀ (p : Path) (b : Bool), L (nodeAt root p) none = true →
      (P k root p b).1 ≠ .error .isShownArgument := by
  induction k with
  | zero => intro p b _; simp [P]
  | succ k ih =>
    intro p b hL
    unfold L at hL
    split at hL
    · rename_i a ks hp
      simp only [P, hp]
      split_ifs with h1 h2 h3 h4 h5 h6 h7 h8 h9
      · simp
      · split
        · rename_i e he
          exact ih e false (L_none_of_tag (E_some he))
        · simp
      · simp
      · split
        · rename_i e he
          exact ih e false (usemapRef_elem he)
        · simp
        · rename_i err he
          rw [usemapRef_error he]
          simp
      · split
        · rename_i e he
          exact ih e false (L_none_of_tag (E_some he))
        · simp
      · simp
      · simp
      · simp
      · simp
      · simp
    · cases hL

theorem P_delegate_some (k : Nat) (root : Node) (p e : Path) (b : Bool)
    (hL : L (nodeAt root p) none = true)
    (h : delegate root p = .ok (some e)) : P (k + 2) root p b = P (k + 1) root e false := by
  obtain ⟨a, ks, hp⟩ := elem_of_L hL
  rcases tag_cases a with h1 | h2 | h3 | h4 | h5
  · rw [delegate_title root p a ks hp h1] at h
    cases h
  · rw [delegate_option root p a ks hp h2] at h
    rw [P_special_or (k + 1) root p b a ks hp h2, Except.ok.inj h]
  · rw [delegate_map root p a ks hp h3] at h
    rw [P_map (k + 1) root p b a ks hp h3, usemapRef_succ k]
    split_ifs at h ⊢ with hn
    · cases h
    · rw [h]
  · rw [delegate_area root p a ks hp h4] at h
    rw [P_area (k + 1) root p b a ks hp h4, Except.ok.inj h]
  · rw [delegate_none_of_plain root p a ks hp h5] at h
    cases h

theorem P_delegate_none (k : Nat) (root : Node) (p : Path) (b : Bool)
    (hL : L (nodeAt root p) none = true) (h : delegate root p = .ok none) :
    P (k + 2) root p b = P 2 root p b ∧ ∃ v, (P 2 root p b).1 = .ok v := by
  obtain ⟨a, ks, hp⟩ := elem_of_L hL
  rcases tag_cases a with h1 | h2 | h3 | h4 | h5
  · rw [P_title (k + 1) root p b a ks hp h1, P_title 1 root p b a ks hp h1]
    exact ⟨rfl, _, rfl⟩
  · rw [delegate_option root p a ks hp h2] at h
    rw [P_special_or (k + 1) root p b a ks hp h2, P_special_or 1 root p b a ks hp h2,
      Except.ok.inj h]
    exact ⟨rfl, _, rfl⟩
  · rw [delegate_map root p a ks hp h3] at h
    rw [P_map (k + 1) root p b a ks hp h3, P_map 1 root p b a ks hp h3, usemapRef_succ k]
    split_ifs at h ⊢ with hn
    · exact ⟨rfl, _, rfl⟩
    · rw [h]
      exact ⟨rfl, _, rfl⟩
  · rw [delegate_area root p a ks hp h4] at h
    rw [P_area (k + 1) root p b a ks hp h4, P_area 1 root p b a ks hp h4, Except.ok.inj h]
    exact ⟨rfl, _, rfl⟩
  · rw [P_plain (k + 1) root p b a ks hp h5, P_plain 1 root p b a ks hp h5]
    refine ⟨rfl, ?_⟩
    split_ifs <;> exact ⟨_, rfl⟩

/-- The element `P` hands its decision to is an element. -/
theorem delegate_elem {root : Node} {p e : Path} (h : delegate root p = .ok (some e)) :
    L (nodeAt root e) none = true := by
  unfold delegate at h
  split at h
  · split_ifs at h
    all_goals first
      | exact usemapRef_elem h
      | (simp only [Except.ok.injEq] at h; exact L_none_of_tag (E_some h))
      | (simp only [Except.ok.injEq] at h; cases h)
  · cases h

/-- When the chain of self-calls that starts at the element `p` ends after
`n` calls, `P` yields a boolean as soon as the stack has room for `n + 2`
nested calls, the same one for any larger stack. -/
theorem P_of_chainEnds (root : Node) (n : Nat) :
    ∀ (p : Path) (b : Bool), L (nodeAt root p) none = true → chainEnds root n p = true →
      ∀ k, n + 2 ≤ k →
        P k root p b = P (n + 2) root p b ∧ ∃ v, (P k root p b).1 = .ok v := by
  induction n with
  | zero =>
    intro p b hL h k hk
    obtain ⟨k2, rfl⟩ : ∃ k2, k = k2 + 2 := ⟨k - 2, by omega⟩
    have hd : delegate root p = .ok none := by
      unfold chainEnds at h
      split at h
      · assumption
      · cases h
    have := P_delegate_none k2 root p b hL hd
    exact ⟨this.1, by rw [this.1]; exact this.2⟩
  | succ n ih =>
    intro p b hL h k hk
    obtain ⟨k2, rfl⟩ : ∃ k2, k = k2 + 2 := ⟨k - 2, by omega⟩
    unfold chainEnds at h
    split at h
    · rename_i e hd
      have := ih e false (delegate_elem hd) h (k2 + 1) (by omega)
      rw [P_delegate_some k2 root p e b hL hd, P_delegate_some (n + 1) root p e b hL hd]
      exact this
    · rename_i hd
      have h1 := P_delegate_none k2 root p b hL hd
      have h2 := P_delegate_none (n + 1) root p b hL hd
      exact ⟨by rw [h1.1, h2.1], by rw [h1.1]; exact h1.2⟩
    · cases h

/-- Every element other than a `MAP` or an `AREA` has a chain of at most one
self-call. -/
theorem chainEnds_one (root : Node) (p : Path) (a : Elem) (ks : List Node)
    (hp : nodeAt root p = some (.elem a ks))
    (hmap : toUpperCase a.tagName ≠ "MAP".data)
    (harea : toUpperCase a.tagName ≠ "AREA".data) : chainEnds root 1 p = true := by
  unfold chainEnds
  have hd : ∃ r, delegate root p = .ok r := by
    simp only [delegate, hp, L_tag _ _ _ (show "MAP".data ≠ [] by decide),
      L_tag _ _ _ (show "AREA".data ≠ [] by decide), hmap, harea, decide_False,
      Bool.false_eq_true, if_false]
    split_ifs <;> exact ⟨_, rfl⟩
  obtain ⟨r, hr⟩ := hd
  rw [hr]
  cases r with
  | none => rfl
  | some e =>
    simp only []
    have hsel : L (nodeAt root e) (some "SELECT".data) = true := by
      unfold delegate at hr
      simp only [hp, L_tag _ _ _ (show "TITLE".data ≠ [] by decide),
        L_tag _ _ _ (show "OPTION".data ≠ [] by decide),
        L_tag _ _ _ (show "OPTGROUP".data ≠ [] by decide),
        L_tag _ _ _ (show "MAP".data ≠ [] by decide),
        L_tag _ _ _ (show "AREA".data ≠ [] by decide), hmap, harea, decide_False,
        Bool.false_eq_true, if_false] at hr
      split_ifs at hr
      all_goals first
        | exact E_some (Except.ok.inj hr)
        | cases hr
    obtain ⟨s2, sks, hs, hstag⟩ := tag_of_L (by decide) hsel
    have := delegate_none_of_plain root e s2 sks hs (by rw [hstag]; decide)
    simp [chainEnds, this]


/-! ## The collector returns when the oracle does -/

theorem appendText_some (b : List Str) (v : Str) (hb : b ≠ []) :
    ∃ b2, appendText b v = some b2 ∧ b2 ≠ [] := by
  unfold appendText
  cases h : b.getLast? with
  | none =>
    rw [List.getLast?_eq_none_iff] at h
    exact absurd h hb
  | some e =>
    simp only []
    split_ifs
    · exact ⟨_, rfl, by simp⟩
    · exact ⟨_, rfl, by simp⟩

theorem pushIfOpen_ne_nil (cflag : Bool) (b : List Str) (hb : b ≠ []) :
    pushIfOpen cflag b ≠ [] := by
  unfold pushIfOpen
  split_ifs
  · simp
  · exact hb

theorem P_ok_of_elem (k : Nat) (root : Node) (q : Path)
    (h : ∃ v, (P k root q false).1 = .ok v) :
    (P k root q false).1 = .ok true ∨ (P k root q false).1 = .ok false := by
  obtain ⟨v, hv⟩ := h
  rw [hv]
  cases v <;> simp

theorem RLoop_returns_of (k : Nat) (root : Node) (p : Path)
    (hP : ∀ q i v, p <:+ q → nodeAt root (i :: q) = some (.text v) →
      ∃ r, (P k root q false).1 = .ok r)
    (ks : List Node)
    (ih : ∀ x ∈ ks, ∀ q b, L (some x) none = true → nodeAt root q = some x → p <:+ q →
      b ≠ [] → ∃ b2, R k x q b root = (.ok b2, root) ∧ b2 ≠ []) :
    ∀ (q : Path) (a : Elem) (aks : List Node) (i : Nat) (b : List Str),
      nodeAt root q = some (.elem a aks) → p <:+ q →
      (∀ j x, ks[j]? = some x → nodeAt root ((i + j) :: q) = some x) →
      b ≠ [] → ∃ b2, RLoop k ks q i b root = (.ok b2, root) ∧ b2 ≠ [] := by
  induction ks with
  | nil =>
    intro q a aks i b _ _ _ hb
    exact ⟨b, by simp [RLoop], hb⟩
  | cons x rest ihr =>
    intro q a aks i b hq hpq hloc hb
    have hx : nodeAt root (i :: q) = some x := by
      have := hloc 0 x (by simp)
      simpa using this
    have hrest := ihr (fun y hy => ih y (List.mem_cons_of_mem _ hy)) q a aks (i + 1)
    have hloc2 : ∀ j y, rest[j]? = some y → nodeAt root ((i + 1 + j) :: q) = some y := by
      intro j y hy
      have := hloc (j + 1) y (by simpa using hy)
      rw [show i + 1 + j = i + (j + 1) by omega]
      exact this
    cases x with
    | text v =>
      rcases P_ok_of_elem k root q (hP q i v hpq hx) with h | h
      · rw [RLoop_text_shown k v rest q i b root a aks hq h]
        obtain ⟨b2, hb2, hne⟩ := appendText_some b v hb
        rw [hb2]
        exact hrest b2 hq hpq hloc2 hne
      · rw [RLoop_text_hidden k v rest q i b root a aks hq h]
        exact hrest b hq hpq hloc2 hb
    | elem e ks2 =>
      obtain ⟨b2, hR, hb2⟩ := ih (.elem e ks2) (List.mem_cons_self _ _) (i :: q) b rfl hx
        (hpq.trans (List.suffix_cons i q)) hb
      rw [RLoop_elem_ok k e ks2 rest q i b b2 root hR]
      exact hrest b2 hq hpq hloc2 hb2
    | comment v =>
      simp only [RLoop]
      exact hrest b hq hpq hloc2 hb
    | document v ks2 =>
      simp only [RLoop]
      exact hrest b hq hpq hloc2 hb

theorem R_returns (k : Nat) (root : Node) (p : Path)
    (hP : ∀ q i v, p <:+ q → nodeAt root (i :: q) = some (.text v) →
      ∃ r, (P k root q false).1 = .ok r) (n : Node) :
    ∀ q b, L (some n) none = true → nodeAt root q = some n → p <:+ q →
      b ≠ [] → ∃ b2, R k n q b root = (.ok b2, root) ∧ b2 ≠ [] := by
  induction n using Node.induct with
  | helem e ks ih =>
    intro q b _ hq hpq hb
    simp only [R]
    split_ifs with hbr
    · exact ⟨b ++ [[]], rfl, by simp⟩
    · obtain ⟨b2, hL, hb2⟩ := RLoop_returns_of k root p hP ks ih q e ks 0
        (pushIfOpen (sa root q) b) hq hpq
        (by
          intro j x hx
          rw [Nat.zero_add, nodeAt_child hq j]
          exact hx) (pushIfOpen_ne_nil _ b hb)
      rw [hL]
      exact ⟨_, rfl, pushIfOpen_ne_nil _ b2 hb2⟩
  | htext v => intro q b h; simp [L] at h
  | hcomment v => intro q b h; simp [L] at h
  | hdoc v ks _ => intro q b h; simp [L] at h

theorem ra_returns (k : Nat) (root : Node) (p : Path) (a : Elem) (ks : List Node)
    (hp : nodeAt root p = some (.elem a ks))
    (hP : ∀ q i v, p <:+ q → nodeAt root (i :: q) = some (.text v) →
      ∃ r, (P k root q false).1 = .ok r) :
    ∃ r, ra k root p = (.ok r, root) := by
  obtain ⟨b2, hR, -⟩ := R_returns k root p hP (.elem a ks) p [[]] rfl hp
    (List.suffix_refl p) (by simp)
  exact ⟨s (joinLines (b2.map s)), by simp only [ra, hp, hR]⟩


/-! ## The ancestor search -/

theorem E_eq_none (root : Node) (b : Option Node → Bool) :
    ∀ p : Path, (∀ i, 1 ≤ i → i ≤ p.length → b (nodeAt root (p.drop i)) = false) →
      E root b p = none := by
  intro p
  induction p with
  | nil => intro _; rfl
  | cons x p ih =>
    intro h
    have h1 : b (nodeAt root p) = false := by
      have := h 1 (Nat.le_refl _) (by simp)
      simpa using this
    simp only [E, h1, Bool.false_eq_true, if_false]
    apply ih
    intro i hi hlen
    have := h (i + 1) (by omega) (by simp only [List.length_cons]; omega)
    simpa using this

theorem E_eq_some (root : Node) (b : Option Node → Bool) :
    ∀ (p : Path) (j : Nat), 1 ≤ j → j ≤ p.length → b (nodeAt root (p.drop j)) = true →
      (∀ i, 1 ≤ i → i < j → b (nodeAt root (p.drop i)) = false) →
      E root b p = some (p.drop j) := by
  intro p
  induction p with
  | nil => intro j h1 h2; simp at h2; omega
  | cons x p ih =>
    intro j h1 h2 hb hbelow
    by_cases hj : j = 1
    · subst hj
      have : b (nodeAt root p) = true := by simpa using hb
      simp [E, this]
    · have hp1 : b (nodeAt root p) = false := by
        have := hbelow 1 (Nat.le_refl _) (by omega)
        simpa using this
      obtain ⟨j2, rfl⟩ : ∃ j2, j = j2 + 1 := ⟨j - 1, by omega⟩
      simp only [E, hp1, Bool.false_eq_true, if_false, List.drop_succ_cons]
      apply ih j2 (by omega) (by simp only [List.length_cons] at h2; omega)
      · simpa using hb
      · intro i hi1 hi2
        have := hbelow (i + 1) (by omega) (by omega)
        simpa using this

/-- The two values of the second argument of `P` give different outcomes
only on an element without a tag rule that passes the hidden-input,
visibility and display checks and has effective opacity zero. -/
theorem P_differs_only_plain (k : Nat) (root : Node) (p : Path)
    (h : P k root p false ≠ P k root p true) :
    ∃ a ks, nodeAt root p = some (.elem a ks) ∧
      toUpperCase a.tagName ∉
        ["TITLE".data, "OPTION".data, "OPTGROUP".data, "MAP".data, "AREA".data] ∧
      ¬ (toUpperCase a.tagName = "INPUT".data ∧ toLowerCase a.type = "hidden".data) ∧
      N root p "visibility".data ≠ some "hidden".data ∧
      c root p = true ∧ (Q root p).isZero = true ∧
      P k root p false = (.ok false, root) ∧
      P k root p true = (.ok (d (.elem a ks) p root).1, root) := by
  cases k with
  | zero => exact absurd rfl h
  | succ k =>
    cases hn : nodeAt root p with
    | none =>
      simp only [P, hn] at h
      exact absurd rfl h
    | some n =>
      cases n with
      | elem a ks =>
        by_cases htag : toUpperCase a.tagName ∈
            ["TITLE".data, "OPTION".data, "OPTGROUP".data, "MAP".data, "AREA".data]
        · exact absurd (P_special_indep (k + 1) root p a ks hn htag) h
        · refine ⟨a, ks, rfl, htag, ?_⟩
          rw [P_plain k root p false a ks hn htag, P_plain k root p true a ks hn htag] at h ⊢
          split_ifs at h ⊢ <;> simp_all
      | text v => simp only [P, hn] at h; exact absurd rfl h
      | comment v => simp only [P, hn] at h; exact absurd rfl h
      | document v ks => simp only [P, hn] at h; exact absurd rfl h


/-! ## Errors of the collector -/

theorem M_some {root : Node} {q e : Path} (h : M root q = some e) :
    L (nodeAt root e) none = true := by
  cases q with
  | nil => simp [M] at h
  | cons i p =>
    simp only [M] at h
    split_ifs at h with hL
    simp only [Option.some.injEq] at h
    subst h
    exact hL

theorem RLoop_no_argument_error_of (k : Nat) (ks : List Node)
    (ih : ∀ x ∈ ks, ∀ q b root, (R k x q b root).1 ≠ .error .isShownArgument) :
    ∀ (q : Path) (i : Nat) (b : List Str) (root : Node),
      (RLoop k ks q i b root).1 ≠ .error .isShownArgument := by
  induction ks with
  | nil => intro q i b root; simp [RLoop]
  | cons x rest ihr =>
    intro q i b root
    have hrest := ihr (fun y hy => ih y (List.mem_cons_of_mem _ hy))
    cases x with
    | text v =>
      rw [RLoop_text]
      split
      · exact hrest _ _ _ _
      · rename_i e he
        have hne := P_no_argument_error root k e false (M_some he)
        split
        · split
          · exact hrest _ _ _ _
          · simp
        · exact hrest _ _ _ _
        · rename_i err herr
          intro hc
          simp only [Res.error.injEq] at hc
          rw [hc] at herr
          exact hne herr
        · simp
    | elem e ks2 =>
      have hx := ih (.elem e ks2) (List.mem_cons_self _ _) (i :: q) b root
      have h2 := R_snd k (.elem e ks2) (i :: q) b root
      simp only [RLoop]
      generalize R k (.elem e ks2) (i :: q) b root = r at hx h2 ⊢
      obtain ⟨v1, r2⟩ := r
      cases v1 with
      | ok b2 => exact hrest _ _ _ _
      | error err => exact hx
      | overflow => simp
    | comment v => simp only [RLoop]; exact hrest _ _ _ _
    | document v ks2 => simp only [RLoop]; exact hrest _ _ _ _

theorem R_no_argument_error (k : Nat) (n : Node) :
    ∀ q b root, (R k n q b root).1 ≠ .error .isShownArgument := by
  induction n using Node.induct with
  | helem e ks ih =>
    intro q b root
    simp only [R]
    split_ifs
    · simp
    · have h := RLoop_no_argument_error_of k ks ih q 0 (pushIfOpen (sa root q) b) root
      generalize RLoop k ks q 0 (pushIfOpen (sa root q) b) root = r at h ⊢
      obtain ⟨v1, r2⟩ := r
      cases v1 with
      | ok b2 => simp
      | error err => exact h
      | overflow => simp
  | htext v => intro q b root; simp [R]
  | hcomment v => intro q b root; simp [R]
  | hdoc v ks _ => intro q b root; simp [R]

theorem ra_no_argument_error (k : Nat) (root : Node) (p : Path) :
    (ra k root p).1 ≠ .error .isShownArgument := by
  unfold ra
  split
  · rename_i a _
    have h := R_no_argument_error k a p [[]] root
    generalize R k a p [[]] root = r at h ⊢
    obtain ⟨v1, r2⟩ := r
    cases v1 with
    | ok b2 => simp
    | error err => simpa using h
    | overflow => simp
  · simp


/-! ## Style resolution -/

theorem O_ne_inherit (root : Node) (b : Str) : ∀ p, O root b p ≠ some "inherit".data := by
  intro p
  induction p with
  | nil =>
    simp only [O]
    split
    · split_ifs with h
      · exact h
      · simp
    · simp
  | cons i p ih =>
    simp only [O]
    split
    · split_ifs with h
      · exact h
      · exact ih
      · simp
    · simp

theorem O_eq_of_not_inherit (root : Node) (b : Str) (p : Path) (a : Elem)
    (ha : elemAt root p = some a)
    (h : (a.currentStyle.getD a.style) b ≠ some "inherit".data) :
    O root b p = (a.currentStyle.getD a.style) b := by
  cases p <;> simp only [O, ha, h, ne_eq, not_false_eq_true, if_true]

theorem O_inherit_parent (root : Node) (b : Str) (i : Nat) (q : Path) (a : Elem)
    (ha : elemAt root (i :: q) = some a)
    (h : (a.currentStyle.getD a.style) b = some "inherit".data)
    (hq : L (nodeAt root q) none = true) :
    O root b (i :: q) = O root b q := by
  simp only [O, ha, h, ne_eq, not_true_eq_false, if_false, hq, if_true]

theorem O_inherit_top (root : Node) (b : Str) (p : Path) (a : Elem)
    (ha : elemAt root p = some a)
    (h : (a.currentStyle.getD a.style) b = some "inherit".data)
    (hM : M root p = none) : O root b p = none := by
  cases p with
  | nil => simp only [O, ha, h, ne_eq, not_true_eq_false, if_false]
  | cons i q =>
    have hq : ¬ L (nodeAt root q) none = true := by
      intro hq
      simp [M, hq] at hM
    simp only [O, ha, h, ne_eq, not_true_eq_false, if_false, hq, Bool.false_eq_true]

/-! ## Effective opacity -/

theorem elementChain_ne_nil (root : Node) (p : Path) : elementChain root p ≠ [] := by
  cases p <;> simp [elementChain]

theorem Num_prod_cons (x : Num) (l : List Num) (h : l ≠ []) :
    Num.prod (x :: l) = x.mul (Num.prod l) := by
  cases l with
  | nil => exact absurd rfl h
  | cons y r => rfl

/-- The effective opacity is the product of the own values along the chain of
parent elements. -/
theorem Q_eq_prod (root : Node) (p : Path) :
    Q root p = Num.prod ((elementChain root p).map (ownOpacity root)) := by
  induction p with
  | nil => simp [Q, elementChain, Num.prod]
  | cons i p ih =>
    simp only [Q, elementChain]
    split_ifs with h
    · rw [ih, List.map_cons, Num_prod_cons]
      simpa using elementChain_ne_nil root p
    · simp [Num.prod]

theorem Num_nan_mul (x : Num) : Num.nan.mul x = .nan := by
  cases x <;> rfl

theorem Num_mul_nan (x : Num) : x.mul .nan = .nan := by
  cases x <;> rfl

theorem Num_prod_nan (l : List Num) (h : Num.nan ∈ l) : Num.prod l = .nan := by
  induction l with
  | nil => cases h
  | cons x l ih =>
    cases l with
    | nil =>
      simp only [List.mem_singleton] at h
      subst h
      rfl
    | cons y r =>
      rw [Num_prod_cons x (y :: r) (by simp)]
      rcases List.mem_cons.mp h with hx | hx
      · subst hx
        exact Num_nan_mul _
      · rw [ih hx]
        exact Num_mul_nan _

theorem log2Go_eq (f : Nat) : ∀ n, n ≤ f → log2Go f n = Nat.log 2 n := by
  induction f with
  | zero =>
    intro n hn
    have : n = 0 := by omega
    subst this
    simp [log2Go]
  | succ f ih =>
    intro n hn
    simp only [log2Go]
    split_ifs with h2
    · exact (Nat.log_of_lt h2).symm
    · rw [ih (n / 2) (by omega)]
      exact (Nat.log_of_one_lt_of_le (by omega) (by omega)).symm

theorem log2_mono {n d : Nat} (h : n ≤ d) : log2 n ≤ log2 d := by
  unfold log2
  rw [log2Go_eq n n (Nat.le_refl _), log2Go_eq d d (Nat.le_refl _)]
  exact Nat.log_mono_right h

theorem floorLog2_nonpos {n d : Nat} (h : n ≤ d) : floorLog2 n d ≤ 0 := by
  have := log2_mono h
  unfold floorLog2
  split_ifs <;> omega

theorem roundHalfEven_le (n d K : Nat) (h : n ≤ d * K) : roundHalfEven n d ≤ K := by
  have hq : n / d ≤ K := Nat.div_le_of_le_mul h
  have hm : d * (n / d) + n % d = n := Nat.div_add_mod n d
  have hlt : d < 2 * (n % d) ∨ (2 * (n % d) = d ∧ 0 < d) → n / d + 1 ≤ K := by
    intro hc
    by_contra hK
    have hqK : n / d = K := by omega
    rw [hqK] at hm
    omega
  unfold roundHalfEven
  split_ifs with h1 h2 h3
  · exact hq
  · exact hlt (Or.inl h2)
  · exact hq
  · by_cases hd : d = 0
    · subst hd
      simp only [Nat.div_zero, Nat.zero_mod] at h3
      exact absurd trivial h3
    · exact hlt (Or.inr ⟨by omega, by omega⟩)

/-- Rounding keeps a positive fraction that is at most `1` in the unit
interval. -/
theorem round_inUnit (n d : Nat) (hn : 0 < n) (h : n ≤ d) :
    (Num.round false n d).inUnit = true := by
  have hfl := floorLog2_nonpos h
  have ht : ¬ 0 ≤ max (floorLog2 n d - 52) (-1074) := by
    rw [not_le, max_lt_iff]
    constructor <;> omega
  unfold Num.round
  rw [if_neg (by omega), if_neg ht]
  simp only [Num.inUnit, Bool.not_false, Bool.true_or, Bool.true_and, if_neg ht,
    decide_eq_true_eq, Nat.shiftLeft_eq, Nat.one_mul]
  apply roundHalfEven_le
  exact Nat.mul_le_mul_right _ h

theorem inUnit_bound {a : Bool} {m : Nat} {e : Int} (h : (Num.fin a m e).inUnit = true)
    (hm : 0 < m) : a = false ∧ e ≤ 0 ∧ m ≤ 2 ^ (-e).toNat := by
  simp only [Num.inUnit, Bool.and_eq_true, Bool.or_eq_true, Bool.not_eq_true',
    beq_iff_eq, decide_eq_true_eq, Nat.shiftLeft_eq, Nat.one_mul] at h
  obtain ⟨h1, h2⟩ := h
  have ha : a = false := by
    rcases h1 with h1 | h1
    · exact h1
    · omega
  refine ⟨ha, ?_⟩
  split_ifs at h2 with he
  · have hp : 1 ≤ 2 ^ e.toNat := Nat.one_le_two_pow
    have hm1 : m * 2 ^ e.toNat ≤ 1 := of_decide_eq_true h2
    have h3 : m * 1 ≤ m * 2 ^ e.toNat := Nat.mul_le_mul_left _ hp
    have hm2 : m = 1 := by omega
    subst hm2
    have h4 : 2 ^ e.toNat ≤ 1 := by omega
    have h5 : e.toNat = 0 := by
      by_contra hne
      have : 2 ^ 1 ≤ 2 ^ e.toNat := Nat.pow_le_pow_right (by omega) (by omega)
      omega
    have h6 : e ≤ 0 := by omega
    refine ⟨h6, ?_⟩
    exact Nat.one_le_two_pow
  · exact ⟨by omega, of_decide_eq_true h2⟩

theorem zero_inUnit (a : Bool) (e : Int) :
    (Num.fin a 0 e).inUnit = true := by
  simp only [Num.inUnit, beq_self_eq_true, Bool.or_true, Bool.true_and, Nat.zero_shiftLeft,
    Nat.zero_le, decide_True, ite_self]

/-- The product of two numbers of the unit interval lies in the unit
interval. -/
theorem mul_inUnit (x y : Num) (hx : x.inUnit = true) (hy : y.inUnit = true) :
    (x.mul y).inUnit = true := by
  cases x with
  | nan => cases hx
  | inf a => cases hx
  | fin a m e =>
    cases y with
    | nan => cases hy
    | inf b => cases hy
    | fin b n f =>
      by_cases hz : m * n = 0
      · simp only [Num.mul, hz, Nat.zero_shiftLeft, Num.round, if_true]
        split_ifs <;> exact zero_inUnit _ _
      · have hm : 0 < m := Nat.pos_of_ne_zero (fun h => hz (by rw [h, Nat.zero_mul]))
        have hn : 0 < n := Nat.pos_of_ne_zero (fun h => hz (by rw [h, Nat.mul_zero]))
        obtain ⟨ha, he, hme⟩ := inUnit_bound hx hm
        obtain ⟨hb, hf, hnf⟩ := inUnit_bound hy hn
        subst ha hb
        have hprod : m * n ≤ 2 ^ ((-e).toNat + (-f).toNat) := by
          rw [Nat.pow_add]
          exact Nat.mul_le_mul hme hnf
        simp only [Num.mul, bne_self_eq_false]
        split_ifs with hs
        · have he0 : e = 0 := by omega
          have hf0 : f = 0 := by omega
          subst he0 hf0
          simp only [neg_zero, Int.toNat_zero, Nat.add_zero, Nat.pow_zero] at hprod
          apply round_inUnit
          · simp only [add_zero, Int.toNat_zero, Nat.shiftLeft_zero]
            exact Nat.pos_of_ne_zero hz
          · simpa using hprod
        · apply round_inUnit _ _ (Nat.pos_of_ne_zero hz)
          rw [Nat.shiftLeft_eq, Nat.one_mul]
          have : (-(e + f)).toNat = (-e).toNat + (-f).toNat := by omega
          rw [this]
          exact hprod

theorem isZero_mul_left (x y : Num) (hx : x.isZero = true) (hy : y.inUnit = true) :
    (x.mul y).isZero = true := by
  cases x with
  | nan => cases hx
  | inf a => cases hx
  | fin a m e =>
    cases y with
    | nan => cases hy
    | inf b => cases hy
    | fin b n f =>
      simp only [Num.isZero, beq_iff_eq] at hx
      subst hx
      simp only [Num.mul, Nat.zero_mul, Nat.zero_shiftLeft, Num.round, if_true]
      split_ifs <;> rfl

theorem isZero_mul_right (x y : Num) (hx : x.inUnit = true) (hy : y.isZero = true) :
    (x.mul y).isZero = true := by
  cases x with
  | nan => cases hx
  | inf a => cases hx
  | fin a m e =>
    cases y with
    | nan => cases hy
    | inf b => cases hy
    | fin b n f =>
      simp only [Num.isZero, beq_iff_eq] at hy
      subst hy
      simp only [Num.mul, Nat.mul_zero, Nat.zero_shiftLeft, Num.round, if_true]
      split_ifs <;> rfl

/-- A product of numbers of the unit interval lies in the unit interval, and
is zero when a factor is. -/
theorem Num_prod_inUnit (l : List Num) (h : ∀ x ∈ l, x.inUnit = true) :
    (Num.prod l).inUnit = true ∧
      ((∃ x ∈ l, x.isZero = true) → (Num.prod l).isZero = true) := by
  induction l with
  | nil => exact ⟨by decide, by simp⟩
  | cons x l ih =>
    cases l with
    | nil =>
      refine ⟨h x (List.mem_cons_self _ _), ?_⟩
      rintro ⟨y, hy, hz⟩
      simp only [List.mem_singleton] at hy
      subst hy
      exact hz
    | cons y r =>
      have hx := h x (List.mem_cons_self _ _)
      obtain ⟨h1, h2⟩ := ih (fun z hz => h z (List.mem_cons_of_mem _ hz))
      rw [Num_prod_cons x (y :: r) (by simp)]
      refine ⟨mul_inUnit _ _ hx h1, ?_⟩
      rintro ⟨z, hz, hzz⟩
      rcases List.mem_cons.mp hz with hzx | hzl
      · subst hzx
        exact isZero_mul_left _ _ hzz h1
      · exact isZero_mul_right _ _ hx (h2 ⟨z, hzl, hzz⟩)

/-! ## Normal form of the lines -/

theorem s_contiguous (x : Str) : s x <:+: x :=
  List.IsInfix.trans (List.IsPrefix.isInfix (List.rdropWhile_prefix isWs (x.dropWhile isWs)))
    (List.IsSuffix.isInfix (List.dropWhile_suffix isWs))

theorem replaceTa_tail_head (v : Str) (h : (replaceTa v).head? = some ' ') :
    (replaceTa v).tail.head? ≠ some ' ' := by
  have hc := (replaceTaGo_chain false v).1
  change List.Chain' _ (replaceTa v) at hc
  cases hd : replaceTa v with
  | nil => simp
  | cons a t =>
    rw [hd] at h hc
    simp only [List.head?_cons, Option.some.injEq] at h
    subst h
    intro ht
    have := List.Chain'.rel_head? hc (by simpa using ht)
    exact this ⟨rfl, rfl⟩

/-- The text step keeps the invariant of the line buffer: no line holds two
adjacent spaces. -/
theorem appendText_chain (b b2 : List Str) (v : Str)
    (hb : ∀ l ∈ b, List.Chain' (fun x y => ¬ (x = ' ' ∧ y = ' ')) l)
    (h : appendText b v = some b2) :
    ∀ l ∈ b2, List.Chain' (fun x y => ¬ (x = ' ' ∧ y = ' ')) l := by
  unfold appendText at h
  cases hl : b.getLast? with
  | none => rw [hl] at h; cases h
  | some e =>
    rw [hl] at h
    have he : List.Chain' (fun x y => ¬ (x = ' ' ∧ y = ' ')) e :=
      hb e (List.mem_of_getLast?_eq_some hl)
    have hd : List.Chain' (fun x y => ¬ (x = ' ' ∧ y = ' ')) (replaceTa v) :=
      (replaceTaGo_chain false v).1
    simp only [] at h
    split_ifs at h with hc
    · simp only [Option.some.injEq] at h
      subst h
      intro l hmem
      rcases List.mem_append.mp hmem with hm | hm
      · exact hb l (List.dropLast_subset b hm)
      · simp only [List.mem_singleton] at hm
        subst hm
        refine List.Chain'.append he hd.tail ?_
        intro x _ y hy
        rintro ⟨-, rfl⟩
        exact replaceTa_tail_head v hc.2 (by simpa using hy)
    · simp only [Option.some.injEq] at h
      subst h
      intro l hmem
      rcases List.mem_append.mp hmem with hm | hm
      · exact hb l (List.dropLast_subset b hm)
      · simp only [List.mem_singleton] at hm
        subst hm
        refine List.Chain'.append he hd ?_
        intro x hx y hy
        rintro ⟨rfl, rfl⟩
        exact hc ⟨by simpa using hx, by simpa using hy⟩

theorem appendText_ws (b b2 : List Str) (v : Str)
    (hb : ∀ l ∈ b, ∀ ch ∈ l, isWs ch = true → ch = ' ')
    (h : appendText b v = some b2) :
    ∀ l ∈ b2, ∀ ch ∈ l, isWs ch = true → ch = ' ' := by
  unfold appendText at h
  cases hl : b.getLast? with
  | none => rw [hl] at h; cases h
  | some e =>
    rw [hl] at h
    have he := hb e (List.mem_of_getLast?_eq_some hl)
    have hd := replaceTaGo_mem_ws false v
    change ∀ ch ∈ replaceTa v, isWs ch = true → ch = ' ' at hd
    simp only [] at h
    split_ifs at h with hc
    · simp only [Option.some.injEq] at h
      subst h
      intro l hmem ch hch hw
      rcases List.mem_append.mp hmem with hm | hm
      · exact hb l (List.dropLast_subset b hm) ch hch hw
      · simp only [List.mem_singleton] at hm
        subst hm
        rcases List.mem_append.mp hch with h1 | h1
        · exact he ch h1 hw
        · exact hd ch (List.mem_of_mem_tail h1) hw
    · simp only [Option.some.injEq] at h
      subst h
      intro l hmem ch hch hw
      rcases List.mem_append.mp hmem with hm | hm
      · exact hb l (List.dropLast_subset b hm) ch hch hw
      · simp only [List.mem_singleton] at hm
        subst hm
        rcases List.mem_append.mp hch with h1 | h1
        · exact he ch h1 hw
        · exact hd ch h1 hw

theorem pushIfOpen_inv (I : Str → Prop) (hnil : I []) (cflag : Bool) (b : List Str)
    (hb : ∀ l ∈ b, I l) : ∀ l ∈ pushIfOpen cflag b, I l := by
  unfold pushIfOpen
  split_ifs
  · intro l hl
    rcases List.mem_append.mp hl with h | h
    · exact hb l h
    · simp only [List.mem_singleton] at h
      subst h
      exact hnil
  · exact hb

theorem RLoop_inv_of (I : Str → Prop)
    (happ : ∀ b b2 v, (∀ l ∈ b, I l) → appendText b v = some b2 → ∀ l ∈ b2, I l)
    (k : Nat) (ks : List Node)
    (ih : ∀ x ∈ ks, ∀ q b root b2, (∀ l ∈ b, I l) → (R k x q b root).1 = .ok b2 →
      ∀ l ∈ b2, I l) :
    ∀ (q : Path) (i : Nat) (b : List Str) (root : Node) (b2 : List Str),
      (∀ l ∈ b, I l) → (RLoop k ks q i b root).1 = .ok b2 → ∀ l ∈ b2, I l := by
  induction ks with
  | nil =>
    intro q i b root b2 hb h
    simp only [RLoop, Res.ok.injEq] at h
    subst h
    exact hb
  | cons x rest ihr =>
    intro q i b root b2 hb h
    have hrest := ihr (fun y hy => ih y (List.mem_cons_of_mem _ hy))
    cases x with
    | text v =>
      rw [RLoop_text] at h
      split at h
      · exact hrest _ _ _ _ _ hb h
      · split at h
        · split at h
          · rename_i b3 hb3
            exact hrest _ _ _ _ _ (happ b b3 v hb hb3) h
          · cases h
        · exact hrest _ _ _ _ _ hb h
        · cases h
        · cases h
    | elem e ks2 =>
      have hx := ih (.elem e ks2) (List.mem_cons_self _ _) (i :: q) b root
      simp only [RLoop] at h
      generalize R k (.elem e ks2) (i :: q) b root = r at hx h
      obtain ⟨v1, r2⟩ := r
      cases v1 with
      | ok b3 => exact hrest _ _ _ _ _ (hx b3 hb rfl) h
      | error err => cases h
      | overflow => cases h
    | comment v =>
      simp only [RLoop] at h
      exact hrest _ _ _ _ _ hb h
    | document v ks2 =>
      simp only [RLoop] at h
      exact hrest _ _ _ _ _ hb h

/-- Every property of lines that holds of the empty line and is kept by the
text step holds of all lines the collector returns. -/
theorem R_inv (I : Str → Prop) (hnil : I [])
    (happ : ∀ b b2 v, (∀ l ∈ b, I l) → appendText b v = some b2 → ∀ l ∈ b2, I l)
    (k : Nat) (n : Node) :
    ∀ q b root b2, (∀ l ∈ b, I l) → (R k n q b root).1 = .ok b2 → ∀ l ∈ b2, I l := by
  induction n using Node.induct with
  | helem e ks ih =>
    intro q b root b2 hb h
    simp only [R] at h
    split_ifs at h
    · simp only [Res.ok.injEq] at h
      subst h
      intro l hl
      rcases List.mem_append.mp hl with h1 | h1
      · exact hb l h1
      · simp only [List.mem_singleton] at h1
        subst h1
        exact hnil
    · have hL := RLoop_inv_of I happ k ks ih q 0 (pushIfOpen (sa root q) b) root
      generalize RLoop k ks q 0 (pushIfOpen (sa root q) b) root = r at hL h
      obtain ⟨v1, r2⟩ := r
      cases v1 with
      | ok b3 =>
        simp only [Res.ok.injEq] at h
        subst h
        exact pushIfOpen_inv I hnil _ b3 (hL b3 (pushIfOpen_inv I hnil _ b hb) rfl)
      | error err => cases h
      | overflow => cases h
  | htext v => intro q b root b2 _ h; simp [R] at h
  | hcomment v => intro q b root b2 _ h; simp [R] at h
  | hdoc v ks _ => intro q b root b2 _ h; simp [R] at h

theorem line_adjacentOk (t : Str)
    (hc : List.Chain' (fun x y => ¬ (x = ' ' ∧ y = ' ')) t)
    (hw : ∀ ch ∈ t, isWs ch = true → ch = ' ') : List.Chain' adjacentOk t := by
  rw [List.Chain'.iff_mem] at hc
  refine hc.imp ?_
  rintro x y ⟨hx, hy, hxy⟩
  refine ⟨hxy, ?_, ?_⟩
  · rintro ⟨-, rfl⟩
    exact absurd (hw _ hy isWs_newline) (by decide)
  · rintro ⟨rfl, -⟩
    exact absurd (hw _ hx isWs_newline) (by decide)

theorem joinLines_adjacentOk (ts : List Str)
    (h : ∀ t ∈ ts, List.Chain' adjacentOk t ∧ (∀ ch, t.head? = some ch → isWs ch = false) ∧
      (∀ ch, t.getLast? = some ch → isWs ch = false)) :
    List.Chain' adjacentOk (joinLines ts) ∧ (joinLines ts).head? ≠ some ' ' := by
  induction ts with
  | nil => simp [joinLines]
  | cons t ts ih =>
    obtain ⟨hc, hh, hl⟩ := h t (List.mem_cons_self _ _)
    have hhead : t.head? ≠ some ' ' := by
      intro h0
      have := hh ' ' h0
      rw [isWs_space] at this
      cases this
    cases ts with
    | nil => exact ⟨hc, hhead⟩
    | cons m rest =>
      obtain ⟨ihc, ihh⟩ := ih (fun u hu => h u (List.mem_cons_of_mem _ hu))
      simp only [joinLines]
      constructor
      · refine List.Chain'.append hc (List.Chain'.cons' ihc ?_) ?_
        · intro y hy
          refine ⟨by rintro ⟨h1, -⟩; exact absurd h1 (by decide),
            by rintro ⟨h1, -⟩; exact absurd h1 (by decide), ?_⟩
          rintro ⟨-, rfl⟩
          exact ihh (by simpa using hy)
        · intro x hx y hy
          have hxw : isWs x = false := hl x (by simpa using hx)
          have hxs : x ≠ ' ' := ne_space_of_not_isWs hxw
          have hxn : x ≠ '\n' := by
            rintro rfl
            rw [isWs_newline] at hxw
            cases hxw
          exact ⟨fun h1 => hxs h1.1, fun h1 => hxs h1.1, fun h1 => hxn h1.1⟩
      · cases t with
        | nil => simp
        | cons a t => simpa using hhead

theorem mem_joinLines (ts : List Str) (ch : Char) (h : ch ∈ joinLines ts) :
    ch = '\n' ∨ ∃ t ∈ ts, ch ∈ t := by
  induction ts with
  | nil => simp [joinLines] at h
  | cons t ts ih =>
    cases ts with
    | nil =>
      simp only [joinLines] at h
      exact Or.inr ⟨t, List.mem_cons_self _ _, h⟩
    | cons m rest =>
      simp only [joinLines, List.mem_append, List.mem_cons] at h
      rcases h with h | h | h
      · exact Or.inr ⟨t, List.mem_cons_self _ _, h⟩
      · exact Or.inl h
      · rcases ih h with h2 | ⟨u, hu, hcu⟩
        · exact Or.inl h2
        · exact Or.inr ⟨u, List.mem_cons_of_mem _ hu, hcu⟩

/-- The last step of `ra` on a buffer whose lines hold no two adjacent spaces
and no whitespace other than the space. -/
theorem ra_finish_normal (b : List Str)
    (hc : ∀ l ∈ b, List.Chain' (fun x y => ¬ (x = ' ' ∧ y = ' ')) l)
    (hw : ∀ l ∈ b, ∀ ch ∈ l, isWs ch = true → ch = ' ') :
    List.Chain' adjacentOk (s (joinLines (b.map s))) ∧
    (∀ ch ∈ s (joinLines (b.map s)), isWs ch = true → ch = ' ' ∨ ch = '\n') ∧
    (∀ ch, (s (joinLines (b.map s))).head? = some ch → isWs ch = false) ∧
    (∀ ch, (s (joinLines (b.map s))).getLast? = some ch → isWs ch = false) := by
  have hlines : ∀ t ∈ b.map s, List.Chain' adjacentOk t ∧
      (∀ ch, t.head? = some ch → isWs ch = false) ∧
      (∀ ch, t.getLast? = some ch → isWs ch = false) := by
    intro t ht
    obtain ⟨l, hl, rfl⟩ := List.mem_map.mp ht
    refine ⟨line_adjacentOk _ ( List.Chain'.infix (hc l hl) (s_contiguous l)) ?_, s_head_not_ws l,
      s_getLast_not_ws l⟩
    intro ch hch
    exact hw l hl ch (mem_of_mem_s hch)
  refine ⟨ List.Chain'.infix (joinLines_adjacentOk _ hlines).1 (s_contiguous _), ?_, s_head_not_ws _,
    s_getLast_not_ws _⟩
  intro ch hch hws
  rcases mem_joinLines _ ch (mem_of_mem_s hch) with h | ⟨t, ht, hct⟩
  · exact Or.inr h
  · obtain ⟨l, hl, rfl⟩ := List.mem_map.mp ht
    exact Or.inl (hw l hl ch (mem_of_mem_s hct) hws)

/-! ## The oracle on snapshots that differ in opacity only -/

theorem sameList_get :
    ∀ (ks ls : List Node), sameButOpacityList ks ls →
      ∀ j : Nat, optSame (ks[j]?) (ls[j]?) := by
  intro ks
  induction ks with
  | nil =>
    intro ls h j
    simp only [sameButOpacityList] at h
    subst h
    simp [optSame]
  | cons k ks ih =>
    intro ls h j
    cases ls with
    | nil => simp [sameButOpacityList] at h
    | cons l ls2 =>
      simp only [sameButOpacityList] at h
      cases j with
      | zero => simpa [optSame] using h.1
      | succ j => simpa using ih ls2 h.2 j

theorem childNodes_same {n1 n2 : Node} (h : Node.sameButOpacity n1 n2) :
    sameButOpacityList n1.childNodes n2.childNodes := by
  cases n1 <;> cases n2 <;> simp only [Node.sameButOpacity] at h <;>
    first
      | exact h.2
      | simp [Node.childNodes, sameButOpacityList]

theorem nodeAt_same {root1 root2 : Node} (h : Node.sameButOpacity root1 root2) :
    ∀ p, optSame (nodeAt root1 p) (nodeAt root2 p) := by
  intro p
  induction p with
  | nil => exact h
  | cons i p ih =>
    simp only [nodeAt]
    cases h1 : nodeAt root1 p with
    | none =>
      cases h2 : nodeAt root2 p with
      | none => trivial
      | some n2 => simp [h1, h2, optSame] at ih
    | some n1 =>
      cases h2 : nodeAt root2 p with
      | none => simp [h1, h2, optSame] at ih
      | some n2 =>
        rw [h1, h2] at ih
        exact sameList_get _ _ (childNodes_same ih) i

theorem elem_same {root1 root2 : Node} (h : Node.sameButOpacity root1 root2) {p : Path}
    {a : Elem} {ks : List Node} (hp : nodeAt root1 p = some (.elem a ks)) :
    ∃ b ls, nodeAt root2 p = some (.elem b ls) ∧ Elem.sameButOpacity a b ∧
      sameButOpacityList ks ls := by
  have := nodeAt_same h p
  rw [hp] at this
  cases h2 : nodeAt root2 p with
  | none => simp [h2, optSame] at this
  | some n2 =>
    rw [h2] at this
    cases n2 with
    | elem b ls =>
      simp only [optSame, Node.sameButOpacity] at this
      exact ⟨b, ls, rfl, this.1, this.2⟩
    | text v => simp [optSame, Node.sameButOpacity] at this
    | comment v => simp [optSame, Node.sameButOpacity] at this
    | document g ls => simp [optSame, Node.sameButOpacity] at this

theorem L_same {n1 n2 : Option Node} (h : optSame n1 n2) (t : Option Str) :
    L n1 t = L n2 t := by
  cases n1 with
  | none =>
    cases n2 with
    | none => rfl
    | some y => simp [optSame] at h
  | some x =>
    cases n2 with
    | none => simp [optSame] at h
    | some y =>
      cases x <;> cases y <;> simp only [optSame, Node.sameButOpacity] at h <;>
        first
          | (simp only [L, h.1.1])
          | rfl

theorem Node.sameButOpacity_symm_elem {root1 root2 : Node}
    (h : Node.sameButOpacity root1 root2) {p : Path}
    (hp : ∀ a ks, nodeAt root1 p ≠ some (.elem a ks)) :
    ∀ b ls, nodeAt root2 p ≠ some (.elem b ls) := by
  intro b ls h2
  have := nodeAt_same h p
  rw [h2] at this
  cases h1 : nodeAt root1 p with
  | none => simp [h1, optSame] at this
  | some n1 =>
    rw [h1] at this
    cases n1 with
    | elem a ks => exact hp a ks h1
    | text v => simp [optSame, Node.sameButOpacity] at this
    | comment v => simp [optSame, Node.sameButOpacity] at this
    | document g ks => simp [optSame, Node.sameButOpacity] at this

theorem elemAt_same {root1 root2 : Node} (h : Node.sameButOpacity root1 root2) (p : Path) :
    (elemAt root1 p = none ∧ elemAt root2 p = none) ∨
    ∃ a b, elemAt root1 p = some a ∧ elemAt root2 p = some b ∧ Elem.sameButOpacity a b := by
  have hs := nodeAt_same h p
  unfold elemAt
  cases h1 : nodeAt root1 p with
  | none =>
    cases h2 : nodeAt root2 p with
    | none => exact Or.inl ⟨rfl, rfl⟩
    | some n2 => simp [h1, h2, optSame] at hs
  | some n1 =>
    cases h2 : nodeAt root2 p with
    | none => simp [h1, h2, optSame] at hs
    | some n2 =>
      rw [h1, h2] at hs
      cases n1 <;> cases n2 <;> simp only [optSame, Node.sameButOpacity] at hs <;>
        first
          | exact Or.inr ⟨_, _, rfl, rfl, hs.1⟩
          | exact Or.inl ⟨rfl, rfl⟩

theorem K_same {a b : Elem} (h : Elem.sameButOpacity a b) (k : Str)
    (hk : k ≠ "opacity".data) : K a k = K b k := by
  obtain ⟨-, -, -, -, hc, -⟩ := h
  unfold K
  cases ha : a.computed <;> cases hb : b.computed <;> simp only [ha, hb] at hc ⊢
  exact hc k hk

theorem cascaded_same {a b : Elem} (h : Elem.sameButOpacity a b) (k : Str)
    (hk : k ≠ "opacity".data) :
    (a.currentStyle.getD a.style) k = (b.currentStyle.getD b.style) k := by
  obtain ⟨-, -, -, -, -, hc, hs, -⟩ := h
  cases ha : a.currentStyle <;> cases hb : b.currentStyle <;> simp only [ha, hb] at hc ⊢
  · exact hs k hk
  · exact hc k hk

theorem O_same {root1 root2 : Node} (h : Node.sameButOpacity root1 root2) (k : Str)
    (hk : k ≠ "opacity".data) : ∀ p, O root1 k p = O root2 k p := by
  intro p
  induction p with
  | nil =>
    simp only [O]
    rcases elemAt_same h [] with ⟨h1, h2⟩ | ⟨a, b, h1, h2, hab⟩
    · rw [h1, h2]
    · rw [h1, h2]
      simp only [cascaded_same hab k hk]
  | cons i p ih =>
    simp only [O]
    rcases elemAt_same h (i :: p) with ⟨h1, h2⟩ | ⟨a, b, h1, h2, hab⟩
    · rw [h1, h2]
    · rw [h1, h2]
      simp only [cascaded_same hab k hk, L_same (nodeAt_same h p) none, ih]

theorem N_same {root1 root2 : Node} (h : Node.sameButOpacity root1 root2) (p : Path)
    (k : Str) (hk : ga k ≠ "opacity".data) : N root1 p k = N root2 p k := by
  unfold N
  rcases elemAt_same h p with ⟨h1, h2⟩ | ⟨a, b, h1, h2, hab⟩
  · rw [h1, h2]
  · rw [h1, h2]
    simp only [K_same hab (ga k) hk, O_same h (ga k) hk p]

theorem c_same {root1 root2 : Node} (h : Node.sameButOpacity root1 root2) :
    ∀ p, c root1 p = c root2 p := by
  intro p
  induction p with
  | nil => simp only [c, N_same h [] "display".data (by decide)]
  | cons i p ih =>
    simp only [c, N_same h (i :: p) "display".data (by decide),
      L_same (nodeAt_same h p) none, ih]

theorem textContentList_same_of (ks : List Node)
    (ih : ∀ k ∈ ks, ∀ n2, Node.sameButOpacity k n2 → textContent k = textContent n2) :
    ∀ ls, sameButOpacityList ks ls → textContentList ks = textContentList ls := by
  induction ks with
  | nil =>
    intro ls h
    simp only [sameButOpacityList] at h
    subst h
    rfl
  | cons k ks ihk =>
    intro ls h
    cases ls with
    | nil => simp [sameButOpacityList] at h
    | cons l ls2 =>
      simp only [sameButOpacityList] at h
      simp only [textContentList]
      rw [ih k (List.mem_cons_self _ _) l h.1,
        ihk (fun x hx => ih x (List.mem_cons_of_mem _ hx)) ls2 h.2]

theorem textContent_same (n1 : Node) :
    ∀ n2, Node.sameButOpacity n1 n2 → textContent n1 = textContent n2 := by
  induction n1 using Node.induct with
  | helem a ks ih =>
    intro n2 h
    cases n2 <;> simp only [Node.sameButOpacity] at h
    simp only [textContent]
    exact textContentList_same_of ks ih _ h.2
  | htext v =>
    intro n2 h
    cases n2 <;> simp only [Node.sameButOpacity] at h
    simp only [textContent, h]
  | hcomment v =>
    intro n2 h
    cases n2 <;> simp only [Node.sameButOpacity] at h
    rfl
  | hdoc g ks ih =>
    intro n2 h
    cases n2 <;> simp only [Node.sameButOpacity] at h
    simp only [textContent]
    exact textContentList_same_of ks ih _ h.2

theorem innerOrContent_same {a b : Elem} {ks ls : List Node}
    (hab : Elem.sameButOpacity a b) (hl : sameButOpacityList ks ls) :
    innerOrContent (.elem a ks) = innerOrContent (.elem b ls) := by
  have ht : textContent (.elem a ks) = textContent (.elem b ls) :=
    textContent_same _ _ (by simp only [Node.sameButOpacity]; exact ⟨hab, hl⟩)
  simp only [innerOrContent, hab.2.2.2.2.2.2.2.2.2, ht]

theorem set_same {x y : StyleObj} (h : StyleObj.sameButOpacity x y) (k : Str)
    (v : Option Str) : StyleObj.sameButOpacity (x.set k v) (y.set k v) := by
  intro j hj
  simp only [StyleObj.set]
  split_ifs
  · rfl
  · exact h j hj

/-- The box `pa` returns, without the state. -/
theorem pa_fst (root : Node) (p : Path) :
    (pa root p).1 =
      match elemAt root p with
      | none => ⟨0, 0⟩
      | some a =>
        match a.getBBox with
        | some box => box
        | none =>
          if jsOr (jsOr (some (K a "display".data))
                (match a.currentStyle with
                  | some cs => cs "display".data
                  | none => none))
              (a.style "display".data) ≠ some "none".data then
            a.layout a.style
          else
            a.layout (((a.style.set "visibility".data (some "hidden".data)).set
              "position".data (some "absolute".data)).set "display".data
              (some "inline".data)) := by
  unfold pa
  cases ha : elemAt root p with
  | none => rfl
  | some a =>
    simp only []
    cases hb : a.getBBox with
    | some box => rfl
    | none =>
      simp only []
      split_ifs with hc
      · simp only [offsetSize, ha]
      · have e1 := elemAt_setStyle root p a ha "visibility".data (some "hidden".data)
        have e2 := elemAt_setStyle _ p _ e1 "position".data (some "absolute".data)
        have e3 := elemAt_setStyle _ p _ e2 "display".data (some "inline".data)
        simp only [offsetSize, e3]

theorem pa_same {root1 root2 : Node} (h : Node.sameButOpacity root1 root2) (p : Path) :
    (pa root1 p).1 = (pa root2 p).1 := by
  rw [pa_fst, pa_fst]
  rcases elemAt_same h p with ⟨h1, h2⟩ | ⟨a, b, h1, h2, hab⟩
  · rw [h1, h2]
  · rw [h1, h2]
    have hK := K_same hab "display".data (by decide)
    obtain ⟨-, -, -, -, -, hc, hs, hbox, hlay, -⟩ := hab
    have hcs : (match a.currentStyle with
          | some cs => cs "display".data
          | none => none) =
        (match b.currentStyle with
          | some cs => cs "display".data
          | none => none) := by
      cases ha : a.currentStyle <;> cases hb : b.currentStyle <;>
        simp only [ha, hb] at hc ⊢
      exact hc _ (by decide)
    simp only [hbox, hK, hcs, hs "display".data (by decide)]
    cases b.getBBox with
    | some box => rfl
    | none =>
      simp only []
      rw [hlay a.style b.style hs,
        hlay _ _ (set_same (set_same (set_same hs _ _) _ _) _ _)]

theorem d_same {root1 root2 : Node} (h : Node.sameButOpacity root1 root2) (n1 : Node) :
    ∀ n2 p, Node.sameButOpacity n1 n2 → (d n1 p root1).1 = (d n2 p root2).1 := by
  induction n1 using Node.induct with
  | helem a ks ih =>
    intro n2 p hn
    cases n2 <;> simp only [Node.sameButOpacity] at hn
    rename_i b ls
    obtain ⟨hab, hl⟩ := hn
    rw [Bool.eq_iff_iff, d_true_iff, d_true_iff, pa_same h p, innerOrContent_same hab hl]
    refine or_congr Iff.rfl (or_congr Iff.rfl ?_)
    constructor
    · rintro ⟨j, x, hx, hLx, hdx⟩
      have hs := sameList_get ks ls hl j
      rw [hx] at hs
      cases hy : ls[j]? with
      | none => simp [hy, optSame] at hs
      | some y =>
        rw [hy] at hs
        refine ⟨j, y, hy, ?_, ?_⟩
        · rw [← @L_same (some x) (some y) hs none]
          exact hLx
        · rw [← ih x (List.getElem?_mem hx) y (j :: p) hs]
          exact hdx
    · rintro ⟨j, y, hy, hLy, hdy⟩
      have hs := sameList_get ks ls hl j
      rw [hy] at hs
      cases hx : ks[j]? with
      | none => simp [hx, optSame] at hs
      | some x =>
        rw [hx] at hs
        refine ⟨j, x, hx, ?_, ?_⟩
        · rw [@L_same (some x) (some y) hs none]
          exact hLy
        · rw [ih x (List.getElem?_mem hx) y (j :: p) hs]
          exact hdy
  | htext v =>
    intro n2 p hn
    cases n2 <;> simp only [Node.sameButOpacity] at hn
    simp only [d]
  | hcomment v =>
    intro n2 p hn
    cases n2 <;> simp only [Node.sameButOpacity] at hn
    simp only [d]
  | hdoc g ks _ =>
    intro n2 p hn
    cases n2 <;> simp only [Node.sameButOpacity] at hn
    simp only [d]

theorem viewIsWindow_same {root1 root2 : Node} (h : Node.sameButOpacity root1 root2) :
    viewIsWindow root1 = viewIsWindow root2 := by
  cases root1 <;> cases root2 <;> simp only [Node.sameButOpacity] at h <;>
    first
      | rfl
      | (simp only [viewIsWindow, h.1])

/-- With `ignoreOpacity`, `P` gives the same answer on two snapshots that
differ in opacity only, for an element that hands its decision to no other
element. -/
theorem P_same {root1 root2 : Node} (h : Node.sameButOpacity root1 root2) (k : Nat)
    (p : Path) (a : Elem) (ks : List Node) (hp : nodeAt root1 p = some (.elem a ks))
    (htag : toUpperCase a.tagName ∉
      ["OPTION".data, "OPTGROUP".data, "MAP".data, "AREA".data]) :
    (P (k + 1) root1 p true).1 = (P (k + 1) root2 p true).1 := by
  obtain ⟨b, ls, hp2, hab, hl⟩ := elem_same h hp
  have htn : a.tagName = b.tagName := hab.1
  have hty : a.type = b.type := hab.2.2.1
  simp only [List.mem_cons, List.mem_singleton, not_or, List.not_mem_nil, or_false] at htag
  by_cases ht : toUpperCase a.tagName = "TITLE".data
  · rw [P_title k root1 p true a ks hp ht, P_title k root2 p true b ls hp2 (htn ▸ ht),
      viewIsWindow_same h]
  · have hplain : toUpperCase a.tagName ∉
        ["TITLE".data, "OPTION".data, "OPTGROUP".data, "MAP".data, "AREA".data] := by
      simp only [List.mem_cons, List.mem_singleton, not_or, List.not_mem_nil, or_false]
      exact ⟨ht, htag⟩
    rw [P_plain k root1 p true a ks hp hplain,
      P_plain k root2 p true b ls hp2 (htn ▸ hplain),
      N_same h p "visibility".data (by decide), c_same h p,
      d_same h (.elem a ks) (.elem b ls) p
        (by simp only [Node.sameButOpacity]; exact ⟨hab, hl⟩), htn, hty]
    simp only [not_true_eq_false, false_and, if_false]
    split_ifs <;> rfl

/-! Two snapshots of the example with a `select`. -/

theorem exElem_same (tag display : String) (w h : Int) :
    Elem.sameButOpacity (exElem tag display w h) (exElem tag display w h) := by
  refine ⟨rfl, rfl, rfl, rfl, ?_, ?_, ?_, rfl, ?_, rfl⟩
  · intro k _; rfl
  · trivial
  · intro k _; rfl
  · intro x y _; rfl

theorem exSelect_same (o1 o2 : String) :
    Elem.sameButOpacity (exSelect o1) (exSelect o2) := by
  refine ⟨rfl, rfl, rfl, rfl, ?_, ?_, ?_, rfl, ?_, rfl⟩
  · intro k hk
    have hk2 : ¬ "opacity".data = k := fun h => hk h.symm
    simp [exSelect, exStyle, List.find?, hk2]
  · trivial
  · intro k _; rfl
  · intro x y _; rfl

theorem exSelectDoc_same (o1 o2 : String) :
    Node.sameButOpacity (exSelectDoc o1) (exSelectDoc o2) := by
  simp only [exSelectDoc, Node.sameButOpacity, sameButOpacityList, and_true, true_and]
  exact ⟨exElem_same _ _ _ _, exSelect_same o1 o2, exElem_same _ _ _ _⟩

/-! ## Properties of the specification -/

/-- C1. Hidden content is excluded by `ra` (visibleText).  If `P` (as the
collector calls it) answers `false` for the parent element of every text node
below the element at `p`, then `ra` returns the empty string, whatever `BR`
and block elements the subtree holds.  More generally the step of the
collector on a text node whose parent element is reported as not shown leaves
the line buffer as it is. -/
theorem ra_hidden_text_empty (k : Nat) (root : Node) (p : Path) (a : Elem) (ks : List Node)
    (hp : nodeAt root p = some (.elem a ks))
    (hidden : ∀ q i v, p <:+ q → nodeAt root (i :: q) = some (.text v) →
      (P k root q false).1 = .ok false) :
    ra k root p = (.ok [], root) ∧
    (∀ (q : Path) (e : Elem) (eks rest : List Node) (i : Nat) (v : Str) (b : List Str),
      nodeAt root q = some (.elem e eks) → (P k root q false).1 = .ok false →
      RLoop k (.text v :: rest) q i b root = RLoop k rest q (i + 1) b root) := by
  constructor
  · obtain ⟨b2, hR, hb2⟩ := R_hidden k root p hidden (.elem a ks) p [[]] rfl hp
      (List.suffix_refl p) (by simp)
    simp only [ra, hp, hR, ra_lines_all_empty b2 hb2]
  · intro q e eks rest i v b hq hP
    exact RLoop_text_hidden k v rest q i b root e eks hq hP

/-- Witness for C1: the text inside a `div` with `display: none`. -/
theorem ra_hidden_text_empty_witness : ra 1 exNoneDoc [0] = (.ok [], exNoneDoc) :=
  (ra_hidden_text_empty 1 exNoneDoc [0] (exElem "body" "block" 100 100)
    [.elem (exElem "div" "none" 0 0) [.elem (exElem "span" "inline" 0 0) [.text "x".data]]]
    rfl (by
      rintro q i v ⟨l, rfl⟩ ht
      have hm := mem_textParents exNoneDoc i v l (.elem (exElem "body" "block" 100 100)
          [.elem (exElem "div" "none" 0 0)
            [.elem (exElem "span" "inline" 0 0) [.text "x".data]]]) [0] rfl ht
      have he : textParents (.elem (exElem "body" "block" 100 100)
          [.elem (exElem "div" "none" 0 0)
            [.elem (exElem "span" "inline" 0 0) [.text "x".data]]]) [0] = [[0, 0, 0]] := by
        decide
      rw [he, List.mem_singleton] at hm
      rw [hm]
      decide)).1

/-- C2 (counterexample). A `TITLE` whose resolved display is `"none"`, in a
document shown in the script's window, is reported as shown; so is an `OPTION`
with display `"none"` inside a shown `SELECT`. -/
theorem P_display_none_counterexample :
    (N exTitleDoc [0, 0, 0] "display".data = some "none".data ∧
      (P 1 exTitleDoc [0, 0, 0] false).1 = .ok true) ∧
    (N exOptionDoc [0, 0, 0] "display".data = some "none".data ∧
      (P 2 exOptionDoc [0, 0, 0] false).1 = .ok true) := by
  decide

/-- C2 (amended). For an element whose tag is none of `TITLE`, `OPTION`,
`OPTGROUP`, `MAP`, `AREA`: if the element `j` levels up its chain of parent
elements (`j = 0` is the element itself) has resolved display `"none"`, then
`P` answers `false`, for either value of `ignoreOpacity`.  For the five tags
the tag rule decides, whatever the display: a `TITLE` is shown exactly when
the window of its document is the script's; an `OPTION` or `OPTGROUP` has the
answer of `P` for the nearest `SELECT` above it, an `AREA` the one for the
nearest `MAP` above it, a `MAP` with a name the one for the element its lookup
returns, and each of them `false` when there is no such element. -/
theorem P_display_none (k : Nat) (root : Node) (p : Path) (b : Bool) (a : Elem)
    (ks : List Node) (hp : nodeAt root p = some (.elem a ks)) :
    (toUpperCase a.tagName ∉
        ["TITLE".data, "OPTION".data, "OPTGROUP".data, "MAP".data, "AREA".data] →
      ∀ j, (∀ i ≤ j, L (nodeAt root (p.drop i)) none = true) →
        N root (p.drop j) "display".data = some "none".data →
        P (k + 1) root p b = (.ok false, root)) ∧
    (toUpperCase a.tagName = "TITLE".data →
      P (k + 1) root p b = (.ok (viewIsWindow root), root)) ∧
    (toUpperCase a.tagName = "OPTION".data ∨ toUpperCase a.tagName = "OPTGROUP".data →
      P (k + 1) root p b =
        match E root (fun f => L f (some "SELECT".data)) p with
        | some e => P k root e false
        | none => (.ok false, root)) ∧
    (toUpperCase a.tagName = "MAP".data →
      P (k + 1) root p b =
        if a.name = [] then (.ok false, root)
        else
          match usemapRef k root a.name with
          | .ok (some e) => P k root e false
          | .ok none => (.ok false, root)
          | .error err => (.error err, root)) ∧
    (toUpperCase a.tagName = "AREA".data →
      P (k + 1) root p b =
        match E root (fun f => L f (some "MAP".data)) p with
        | some e => P k root e false
        | none => (.ok false, root)) := by
  refine ⟨?_, P_title k root p b a ks hp, P_special_or k root p b a ks hp,
    P_map k root p b a ks hp, P_area k root p b a ks hp⟩
  intro htag j hchain hnone
  rw [P_plain k root p b a ks hp htag, c_false_of_none root j p hchain hnone]
  split_ifs <;> first | rfl | simp_all

/-- Witness for C2: a `span` inside a `div` with `display: none`. -/
theorem P_display_none_witness :
    P 1 exNoneDoc [0, 0, 0] true = (.ok false, exNoneDoc) :=
  (P_display_none 0 exNoneDoc [0, 0, 0] true (exElem "span" "inline" 0 0) [.text "x".data]
    rfl).1 (by decide) 1 (by decide) (by decide)

/-- C3 (counterexample). A `span` of size 10 x 10, not hidden, without
`display: none`, with computed opacity `0`: every other check passes and `P`
with `ignoreOpacity` answers `true`, but the call the collector makes (no
`ignoreOpacity`) answers `false`, and the text of the element is left out. -/
theorem P_opacity_counterexample :
    (P 1 exOpacityDoc [0, 0] true).1 = .ok true ∧
    (Q exOpacityDoc [0, 0]).isZero = true ∧
    (P 1 exOpacityDoc [0, 0] false).1 = .ok false ∧
    (ra 1 exOpacityDoc [0, 0]).1 = .ok [] := by
  decide

/-- C3 (amended). For an element that no tag rule applies to, whose resolved
visibility is not `"hidden"`, that passes the display check and has a box with
both sides positive: `P` with `ignoreOpacity` answers `true` whatever the
opacity, and `P` without it (the call the collector makes) answers `true`
exactly when the effective opacity is not zero. -/
theorem P_opacity_gate (k : Nat) (root : Node) (p : Path) (a : Elem) (ks : List Node)
    (hp : nodeAt root p = some (.elem a ks))
    (htag : toUpperCase a.tagName ∉
      ["TITLE".data, "OPTION".data, "OPTGROUP".data, "MAP".data, "AREA".data])
    (hinput : ¬ (toUpperCase a.tagName = "INPUT".data ∧ toLowerCase a.type = "hidden".data))
    (hvis : N root p "visibility".data ≠ some "hidden".data)
    (hc : c root p = true)
    (hbox : 0 < (pa root p).1.height ∧ 0 < (pa root p).1.width) :
    P (k + 1) root p true = (.ok true, root) ∧
    P (k + 1) root p false = (.ok (!(Q root p).isZero), root) := by
  have hd : (d (.elem a ks) p root).1 = true := (d_true_iff a ks p root).mpr (Or.inl hbox)
  rw [P_plain k root p true a ks hp htag, P_plain k root p false a ks hp htag]
  simp only [if_neg hinput, if_neg hvis, hc, hd, not_true_eq_false, if_false, false_and]
  refine ⟨trivial, ?_⟩
  cases (Q root p).isZero <;> simp

/-- Witness for C3 on the transparent `span`. -/
theorem P_opacity_gate_witness :
    P 1 exOpacityDoc [0, 0] true = (.ok true, exOpacityDoc) ∧
    P 1 exOpacityDoc [0, 0] false = (.ok (!(Q exOpacityDoc [0, 0]).isZero), exOpacityDoc) :=
  P_opacity_gate 0 exOpacityDoc [0, 0] exOpacityElem [.text "x".data]
    rfl (by decide) (by decide) (by decide) (by decide) (by decide)

/-- C4 (counterexample). A `div` with a box of size zero whose text content is
one space, and that has no element child, is reported as shown. -/
theorem P_blank_text_counterexample :
    (pa exBlankDoc [0, 0]).1 = ⟨0, 0⟩ ∧
    nodeAt exBlankDoc [0, 0] = some (.elem (exElem "div" "block" 0 0) [.text " ".data]) ∧
    (P 1 exBlankDoc [0, 0] false).1 = .ok true := by
  refine ⟨by decide, rfl, by decide⟩

/-- C4 (amended). For an element that reaches the size check of `P`, the
answer is `true` exactly when its box has both sides positive, or its text
(`innerText || textContent`) is non-empty and consists of whitespace only, or
one of its element children satisfies the same rule in turn. -/
theorem P_size_rule (k : Nat) (root : Node) (p : Path) (b : Bool) (a : Elem) (ks : List Node)
    (hp : nodeAt root p = some (.elem a ks))
    (htag : toUpperCase a.tagName ∉
      ["TITLE".data, "OPTION".data, "OPTGROUP".data, "MAP".data, "AREA".data])
    (hinput : ¬ (toUpperCase a.tagName = "INPUT".data ∧ toLowerCase a.type = "hidden".data))
    (hvis : N root p "visibility".data ≠ some "hidden".data)
    (hc : c root p = true)
    (hop : ¬ (¬ b ∧ (Q root p).isZero)) :
    P (k + 1) root p b = (.ok (d (.elem a ks) p root).1, root) ∧
    ((d (.elem a ks) p root).1 = true ↔
      (0 < (pa root p).1.height ∧ 0 < (pa root p).1.width) ∨
      qaTest (innerOrContent (.elem a ks)) = true ∨
      ∃ j x, ks[j]? = some x ∧ L (some x) none = true ∧ (d x (j :: p) root).1 = true) := by
  refine ⟨?_, d_true_iff a ks p root⟩
  rw [P_plain k root p b a ks hp htag]
  simp only [if_neg hinput, if_neg hvis, hc, not_true_eq_false, if_false, if_neg hop]

/-- Witness for C4 on the `div` of size zero that holds one space. -/
theorem P_size_rule_witness :
    P 1 exBlankDoc [0, 0] false
        = (.ok (d (.elem (exElem "div" "block" 0 0) [.text " ".data]) [0, 0] exBlankDoc).1,
          exBlankDoc) ∧
    ((d (.elem (exElem "div" "block" 0 0) [.text " ".data]) [0, 0] exBlankDoc).1 = true ↔
      (0 < (pa exBlankDoc [0, 0]).1.height ∧ 0 < (pa exBlankDoc [0, 0]).1.width) ∨
      qaTest (innerOrContent (.elem (exElem "div" "block" 0 0) [.text " ".data])) = true ∨
      ∃ j x, [Node.text " ".data][j]? = some x ∧ L (some x) none = true ∧
        (d x (j :: [0, 0]) exBlankDoc).1 = true) :=
  P_size_rule 0 exBlankDoc [0, 0] false (exElem "div" "block" 0 0) [.text " ".data]
    rfl (by decide) (by decide) (by decide) (by decide) (by decide)

/-- C5 (counterexample). A shown `span` whose children are the text `" "`, a
`BR` and the text `"b"`: both runs are non-empty, yet the result is `"b"`, with
no newline in it. -/
theorem ra_br_blank_counterexample :
    nodeAt exBrBlankDoc [0, 0] = some (.elem (exElem "span" "inline" 80 30)
      [.text " ".data, .elem (exElem "br" "inline" 0 0) [], .text "b".data]) ∧
    (P 1 exBrBlankDoc [0, 0] false).1 = .ok true ∧
    (ra 1 exBrBlankDoc [0, 0]).1 = .ok "b".data ∧
    (ra 1 exBrBlankDoc [0, 0]).1
      ≠ .ok (s (replaceTa " ".data) ++ '\n' :: s (replaceTa "b".data)) := by
  refine ⟨rfl, by decide, by decide, by decide⟩

/-- C5 (amended). For a shown element, not itself a `BR`, whose children are
exactly a text node `t1`, a `BR` element and a text node `t2`, where `t1` and
`t2` each hold a character that is not whitespace: `ra` returns the collapsed
and trimmed `t1`, one newline, and the collapsed and trimmed `t2`; neither
part holds a newline, and the result neither starts nor ends with whitespace. -/
theorem ra_br_between_text (k : Nat) (root : Node) (p : Path) (a br : Elem)
    (brks : List Node) (t1 t2 : Str)
    (hp : nodeAt root p = some (.elem a [.text t1, .elem br brks, .text t2]))
    (hroot : toUpperCase a.tagName ≠ "BR".data)
    (hbr : toUpperCase br.tagName = "BR".data)
    (hshown : (P k root p false).1 = .ok true)
    (h1 : ∃ ch ∈ t1, isWs ch = false) (h2 : ∃ ch ∈ t2, isWs ch = false) :
    ra k root p = (.ok (s (replaceTa t1) ++ '\n' :: s (replaceTa t2)), root) ∧
    '\n' ∉ s (replaceTa t1) ∧ '\n' ∉ s (replaceTa t2) ∧
    (∀ ch, (s (replaceTa t1) ++ '\n' :: s (replaceTa t2)).head? = some ch → isWs ch = false) ∧
    (∀ ch, (s (replaceTa t1) ++ '\n' :: s (replaceTa t2)).getLast? = some ch →
      isWs ch = false) := by
  have hA := s_replaceTa_ne_nil t1 h1
  have hB := s_replaceTa_ne_nil t2 h2
  have hBraw := replaceTa_ne_nil t2 h2
  have hloop : RLoop k [.text t1, .elem br brks, .text t2] p 0 [[]] root
      = (.ok [replaceTa t1, replaceTa t2], root) := by
    rw [RLoop_text_shown k t1 _ p 0 _ root a _ hp hshown,
      show ([[]] : List Str) = [] ++ [[]] from rfl, appendText_empty_last]
    simp only [List.nil_append]
    rw [RLoop_elem_ok k br brks _ p 1 _ _ root (R_br k br brks (1 :: p) _ root hbr),
      RLoop_text_shown k t2 _ p 2 _ root a _ hp hshown, appendText_empty_last]
    simp [RLoop]
  have hfin : ∀ w : Str, (∀ ch ∈ w, isWs ch = true) →
      s (s (replaceTa t1) ++ '\n' :: s (replaceTa t2) ++ w)
        = s (replaceTa t1) ++ '\n' :: s (replaceTa t2) := by
    intro w hw
    have := s_between (replaceTa t1) ['\n'] (replaceTa t2) w hA hB hw
    simpa using this
  refine ⟨?_, s_replaceTa_no_newline t1, s_replaceTa_no_newline t2, ?_, ?_⟩
  · simp only [ra, hp, R_not_br k a _ p _ root hroot,
      pushIfOpen_of_last_empty _ [[]] rfl, hloop]
    by_cases hsa : sa root p = true
    · rw [hsa, show [replaceTa t1, replaceTa t2] = [replaceTa t1] ++ [replaceTa t2] from rfl,
        pushIfOpen_true_concat _ _ hBraw]
      have := hfin ['\n'] (by simp [isWs_newline])
      simpa [joinLines, s_nil] using this
    · have hsa2 : sa root p = false := by simpa using hsa
      have := hfin [] (by simp)
      simpa [hsa2, pushIfOpen, joinLines] using this
  · intro ch h
    rw [List.head?_append_of_ne_nil _ hA] at h
    exact s_head_not_ws _ ch h
  · intro ch h
    rw [show s (replaceTa t1) ++ '\n' :: s (replaceTa t2)
        = (s (replaceTa t1) ++ ['\n']) ++ s (replaceTa t2) by simp,
      List.getLast?_append_of_ne_nil _ hB] at h
    exact s_getLast_not_ws _ ch h

/-- Witness for C5: `"Hello  world "`, a `br`, and a second run with a line
feed and a tab in it. -/
theorem ra_br_between_text_witness :
    ra 1 exBrDoc [0, 0] = (.ok "Hello world\nsecond line".data, exBrDoc) := by
  have h := (ra_br_between_text 1 exBrDoc [0, 0] (exElem "span" "inline" 80 30)
    (exElem "br" "inline" 0 0) [] "Hello  world ".data "\n second\tline ".data
    rfl (by decide) (by decide) (by decide) ⟨'H', by decide, by decide⟩
    ⟨'s', by decide, by decide⟩).1
  rw [h]
  exact Prod.ext (by decide) rfl

/-- C6 (counterexample). A shown inline `span` holding the text run `" "`, a
`div` with display `block` around the text `inner`, and the text run `b`: the
result is `"inner\nb"`, with no newline before `inner`. -/
theorem ra_block_blank_counterexample :
    nodeAt exBlockBlankDoc [0, 0] = some (.elem (exElem "span" "inline" 80 30)
      [.text " ".data, .elem (exElem "div" "block" 80 10) [.text "inner".data],
        .text "b".data]) ∧
    (P 1 exBlockBlankDoc [0, 0] false).1 = .ok true ∧
    sa exBlockBlankDoc [0, 0] = false ∧
    sa exBlockBlankDoc [1, 0, 0] = true ∧
    (P 1 exBlockBlankDoc [1, 0, 0] false).1 = .ok true ∧
    (ra 1 exBlockBlankDoc [0, 0]).1 = .ok "inner\nb".data := by
  refine ⟨rfl, by decide, by decide, by decide, by decide, by decide⟩

/-- C6 (amended). Block-element padding.  For a shown element, not a `BR`,
whose children are a text run `ta`, an element `D` and a text run `tb`, where
`D` is a chain of `1 + n` nested elements (none a `BR`), each with resolved
display `block` or `inline-block`, around one text node `inner`, the innermost
of them shown, and where `ta`, `inner` and `tb` each hold a character that is
not whitespace: `ra` returns the collapsed and trimmed `ta`, one newline, the
collapsed and trimmed `inner`, one newline, and the collapsed and trimmed
`tb`, for every depth `n`; none of the three parts is empty or holds a
newline, so there is no blank line. -/
theorem ra_block_padding (k : Nat) (root : Node) (p : Path) (a e : Elem) (es : List Elem)
    (ta inner tb : Str)
    (hp : nodeAt root p
      = some (.elem a [.text ta, nest (e :: es) (.text inner), .text tb]))
    (hroot : toUpperCase a.tagName ≠ "BR".data)
    (hshown : (P k root p false).1 = .ok true)
    (hblock : ∀ j ≤ es.length, sa root (List.replicate j 0 ++ 1 :: p) = true)
    (hnobr : ∀ x ∈ e :: es, toUpperCase x.tagName ≠ "BR".data)
    (hin : (P k root (List.replicate es.length 0 ++ 1 :: p) false).1 = .ok true)
    (hta : ∃ ch ∈ ta, isWs ch = false) (hinner : ∃ ch ∈ inner, isWs ch = false)
    (htb : ∃ ch ∈ tb, isWs ch = false) :
    ra k root p = (.ok (s (replaceTa ta) ++ '\n' :: s (replaceTa inner)
      ++ '\n' :: s (replaceTa tb)), root) ∧
    (∀ part ∈ [s (replaceTa ta), s (replaceTa inner), s (replaceTa tb)],
      part ≠ [] ∧ '\n' ∉ part) := by
  have hA := s_replaceTa_ne_nil ta hta
  have hB := s_replaceTa_ne_nil tb htb
  have hAraw := replaceTa_ne_nil ta hta
  have hBraw := replaceTa_ne_nil tb htb
  have hD : nodeAt root (1 :: p) = some (nest (e :: es) (.text inner)) := by
    rw [nodeAt_child hp 1]
    rfl
  have hRD := R_nest k root inner hinner e es (1 :: p) [replaceTa ta] [replaceTa ta] hD
    hblock hnobr hin (by
      rw [show [replaceTa ta] = [] ++ [replaceTa ta] from rfl,
        pushIfOpen_true_concat _ _ hAraw])
  have hloop : RLoop k [.text ta, nest (e :: es) (.text inner), .text tb] p 0 [[]] root
      = (.ok [replaceTa ta, replaceTa inner, replaceTa tb], root) := by
    rw [RLoop_text_shown k ta _ p 0 _ root a _ hp hshown,
      show ([[]] : List Str) = [] ++ [[]] from rfl, appendText_empty_last]
    simp only [List.nil_append]
    rw [show nest (e :: es) (.text inner) = .elem e [nest es (.text inner)] from rfl] at hRD ⊢
    rw [RLoop_elem_ok k e _ _ p 1 _ _ root hRD,
      RLoop_text_shown k tb _ p 2 _ root a _ hp hshown, appendText_empty_last]
    simp [RLoop]
  have hfin : ∀ w : Str, (∀ ch ∈ w, isWs ch = true) →
      s (s (replaceTa ta) ++ '\n' :: s (replaceTa inner) ++ '\n' :: s (replaceTa tb) ++ w)
        = s (replaceTa ta) ++ '\n' :: s (replaceTa inner) ++ '\n' :: s (replaceTa tb) := by
    intro w hw
    have := s_between (replaceTa ta) ('\n' :: s (replaceTa inner) ++ ['\n']) (replaceTa tb) w
      hA hB hw
    simpa using this
  constructor
  · simp only [ra, hp, R_not_br k a _ p _ root hroot,
      pushIfOpen_of_last_empty _ [[]] rfl, hloop]
    by_cases hsa : sa root p = true
    · rw [hsa, show [replaceTa ta, replaceTa inner, replaceTa tb]
          = [replaceTa ta, replaceTa inner] ++ [replaceTa tb] from rfl,
        pushIfOpen_true_concat _ _ hBraw]
      have := hfin ['\n'] (by simp [isWs_newline])
      simpa [joinLines, s_nil] using this
    · have hsa2 : sa root p = false := by simpa using hsa
      have := hfin [] (by simp)
      simpa [hsa2, pushIfOpen, joinLines] using this
  · intro part hpart
    simp only [List.mem_cons, List.mem_singleton, List.not_mem_nil, or_false] at hpart
    rcases hpart with rfl | rfl | rfl
    · exact ⟨hA, s_replaceTa_no_newline ta⟩
    · exact ⟨s_replaceTa_ne_nil inner hinner, s_replaceTa_no_newline inner⟩
    · exact ⟨hB, s_replaceTa_no_newline tb⟩

/-- Witness for C6: `a`, two nested `div` blocks around `inner`, and `b`. -/
theorem ra_block_padding_witness :
    ra 1 exBlockDoc [0, 0] = (.ok "a\ninner\nb".data, exBlockDoc) := by
  have h := (ra_block_padding 1 exBlockDoc [0, 0] (exElem "span" "inline" 80 30)
    (exElem "div" "block" 80 10) [exElem "div" "block" 80 10] "a".data "inner".data "b".data
    rfl (by decide) (by decide) (by decide) (by decide) (by decide)
    ⟨'a', by decide, by decide⟩ ⟨'i', by decide, by decide⟩ ⟨'b', by decide, by decide⟩).1
  rw [h]
  exact Prod.ext (by decide) rfl

/-- C7. Whitespace collapsing of `replace(ta, " ")`: every whitespace
character of the result is an ASCII space, no two spaces are adjacent, the
other characters are kept in order, a maximal run of whitespace (bounded on
both sides by the ends of the string or by other characters) becomes exactly
one space, a string without whitespace is unchanged, and
`"a \xa0\xa0 b"` becomes `"a b"`. -/
theorem replaceTa_collapses (x : Str) :
    (∀ ch ∈ replaceTa x, isWs ch = true → ch = ' ') ∧
    List.Chain' (fun a b => ¬ (a = ' ' ∧ b = ' ')) (replaceTa x) ∧
    (replaceTa x).filter (fun ch => !isWs ch) = x.filter (fun ch => !isWs ch) ∧
    (∀ u w v, x = u ++ w ++ v → (∀ ch, u.getLast? = some ch → isWs ch = false) →
      w ≠ [] → (∀ ch ∈ w, isWs ch = true) → (∀ ch, v.head? = some ch → isWs ch = false) →
      replaceTa x = replaceTa u ++ ' ' :: replaceTa v) ∧
    ((∀ ch ∈ x, isWs ch = false) → replaceTa x = x) ∧
    replaceTa ['a', ' ', Char.ofNat 160, Char.ofNat 160, ' ', 'b'] = ['a', ' ', 'b'] := by
  refine ⟨replaceTaGo_mem_ws false x, (replaceTaGo_chain false x).1,
    replaceTaGo_filter false x, ?_, replaceTaGo_of_no_ws false x, by decide⟩
  intro u w v hx hu hne hw hv
  rw [hx]
  exact replaceTa_run u w v hu hne hw hv

/-- Witness for C7: the run of four whitespace characters between `a` and `b`. -/
theorem replaceTa_collapses_witness :
    replaceTa ("a".data ++ [' ', Char.ofNat 160, '\t', '\n'] ++ "b".data) = "a b".data :=
  (replaceTa_collapses ("a".data ++ [' ', Char.ofNat 160, '\t', '\n'] ++ "b".data)).2.2.2.1
    "a".data [' ', Char.ofNat 160, '\t', '\n'] "b".data rfl (by decide) (by decide) (by decide)
    (by decide)

/-- C8. Idempotence of `ra` (visibleText): the document after a call is the
document before it, so every element keeps its style, and a second call made
on the resulting document returns the same result as the first. -/
theorem ra_idempotent (k : Nat) (root : Node) (p : Path) :
    (ra k root p).2 = root ∧ ra k (ra k root p).2 p = ra k root p := by
  have h := ra_snd k root p
  exact ⟨h, by rw [h]⟩

/-- C9. Scoped style override of `pa` (boundingBox): for an element without a
native `getBBox`, the document after the call is the document before it, so
the `display`, `position` and `visibility` of the element's style are back at
their values and no other style property has changed.  When the display that
`pa` reads is not `"none"`, the box is the offset size under the untouched
style; when it is `"none"`, the box is the offset size read while
`visibility = hidden`, `position = absolute` and `display = inline` are in
force. -/
theorem pa_scoped_style_override (root : Node) (p : Path) (a : Elem)
    (ha : elemAt root p = some a) (hb : a.getBBox = none) :
    (pa root p).2 = root ∧
    (jsOr (jsOr (some (K a "display".data))
          (match a.currentStyle with
            | some cs => cs "display".data
            | none => none))
        (a.style "display".data) ≠ some "none".data →
      (pa root p).1 = a.layout a.style) ∧
    (jsOr (jsOr (some (K a "display".data))
          (match a.currentStyle with
            | some cs => cs "display".data
            | none => none))
        (a.style "display".data) = some "none".data →
      (pa root p).1 = a.layout (((a.style.set "visibility".data (some "hidden".data)).set
        "position".data (some "absolute".data)).set "display".data (some "inline".data))) := by
  refine ⟨pa_snd root p, ?_, ?_⟩
  · intro h
    simp only [pa, ha, hb]
    rw [if_pos h]
    simp only [offsetSize, ha]
  · intro h
    simp only [pa, ha, hb]
    rw [if_neg (not_not.mpr h)]
    have e1 := elemAt_setStyle root p a ha "visibility".data (some "hidden".data)
    have e2 := elemAt_setStyle _ p _ e1 "position".data (some "absolute".data)
    have e3 := elemAt_setStyle _ p _ e2 "display".data (some "inline".data)
    simp only [offsetSize, e3]

/-- Witness for C9 on a `display: none` element of a small document. -/
theorem pa_scoped_style_override_witness :
    (pa exHiddenDoc [0, 0]).2 = exHiddenDoc ∧ (pa exHiddenDoc [0, 0]).1 = ⟨30, 12⟩ := by
  have h := pa_scoped_style_override exHiddenDoc [0, 0] exHiddenElem rfl rfl
  refine ⟨h.1, ?_⟩
  rw [h.2.2 (by decide)]
  decide

/-- C10 (counterexample). Two images carry `usemap="#m"`; the first has
`display: none`, the second is shown.  Some element referring to the map is
shown, yet the `area` inside the map `m` is reported as not shown. -/
theorem P_area_counterexample :
    oa (nodeAt exMapDoc [1, 0]) "usemap".data = some "#m".data ∧
    (P 1 exMapDoc [1, 0] false).1 = .ok true ∧
    (P 3 exMapDoc [0, 2, 0] false).1 = .ok false := by
  decide

/-- C10 (amended). For an `AREA` whose nearest enclosing `MAP` has the
non-empty name `m`.  Without `document.evaluate`, or when `m` holds no double
quote, the answer of `P` is the answer of `P` (without `ignoreOpacity`) for
the first element in document order whose `usemap` is `"#m"`, and `false` when
the document has no such element.  With `document.evaluate` and a double quote
in `m`, the name is pasted into the XPath expression as it is, and the answer
is `false` when the engine rejects the expression or selects nothing. -/
theorem P_area_first_usemap (k : Nat) (root : Node) (p q : Path) (b : Bool)
    (a m : Elem) (ks mks : List Node)
    (hp : nodeAt root p = some (.elem a ks))
    (ha : toUpperCase a.tagName = "AREA".data)
    (hq : E root (fun f => L f (some "MAP".data)) p = some q)
    (hm : nodeAt root q = some (.elem m mks))
    (hname : m.name ≠ []) :
    (hasEvaluate root = false ∨ dquote ∉ m.name →
      P (k + 3) root p b =
        match la root (refersTo m.name) with
        | some r => P (k + 1) root r false
        | none => (.ok false, root)) ∧
    (∀ h rs, root = .document h rs → h.evaluate = true → dquote ∈ m.name →
      h.xpathOther (usemapQuery m.name) = none →
      P (k + 3) root p b = (.ok false, root)) := by
  have hmap : toUpperCase m.tagName = "MAP".data := by
    have := E_some hq
    rw [hm, L_tag _ _ _ (by decide)] at this
    simpa using this
  have step : P (k + 3) root p b =
      match usemapRef (k + 1) root m.name with
      | .ok (some e) => P (k + 1) root e false
      | .ok none => (.ok false, root)
      | .error err => (.error err, root) := by
    rw [P_area (k + 2) root p b a ks hp ha, hq]
    simp only []
    rw [P_map (k + 1) root q false m mks hm hmap, if_neg hname]
  constructor
  · intro hx
    rw [step, usemapRef_first k root m.name hx]
    cases la root (refersTo m.name) <;> rfl
  · intro h rs hroot hev hdq hnone
    subst hroot
    have hu : usemapRef (k + 1) (.document h rs) m.name = .ok none := by
      simp [usemapRef, hasEvaluate, hev, ma, xpathNode, hdq, hnone]
    rw [step, hu]

/-- Witness for C10: one shown image refers to the map of the `area`; and a
shown image refers to a map whose name holds a double quote, on an engine
with XPath. -/
theorem P_area_first_usemap_witness :
    (P 3 exMapDocOne [0, 1, 0] true = P 1 exMapDocOne [0, 0] false ∧
      (P 1 exMapDocOne [0, 0] false).1 = .ok true) ∧
    (la exQuoteMapDoc (refersTo exQuoteMap.name) = some [0, 0] ∧
      (P 1 exQuoteMapDoc [0, 0] false).1 = .ok true ∧
      P 3 exQuoteMapDoc [0, 1, 0] true = (.ok false, exQuoteMapDoc)) :=
  ⟨⟨(P_area_first_usemap 0 exMapDocOne [0, 1, 0] [1, 0] true (exElem "area" "inline" 0 0)
      exMap [] [.elem (exElem "area" "inline" 0 0) []] rfl (by decide) (by decide) rfl
      (by decide)).1 (Or.inr (by decide)),
    by decide⟩,
    by decide, by decide,
    (P_area_first_usemap 0 exQuoteMapDoc [0, 1, 0] [1, 0] true (exElem "area" "inline" 0 0)
      exQuoteMap [] [.elem (exElem "area" "inline" 0 0) []] rfl (by decide) (by decide) rfl
      (by decide)).2 exHost _ rfl rfl (by decide) rfl⟩
/-- C11. An `INPUT` whose `type` is `hidden` in any letter casing (its
lower-cased `type` equals `"hidden"`): `P` answers `false` in every document,
for every style, box and ancestor chain, and for either value of
`ignoreOpacity`. -/
theorem P_hidden_input (k : Nat) (root : Node) (p : Path) (b : Bool) (a : Elem)
    (ks : List Node)
    (hp : nodeAt root p = some (.elem a ks))
    (htag : toUpperCase a.tagName = "INPUT".data)
    (htype : toLowerCase a.type = "hidden".data) :
    P (k + 1) root p b = (.ok false, root) := by
  rw [P_plain k root p b a ks hp (by rw [htag]; decide), if_pos ⟨htag, htype⟩]

/-- Witness for C11: a sized, displayed `input` whose type is spelled `HiDDen`. -/
theorem P_hidden_input_witness :
    P 1 exHiddenInputDoc [0, 0] true = (.ok false, exHiddenInputDoc) :=
  P_hidden_input 0 exHiddenInputDoc [0, 0] true exHiddenInput [] rfl (by decide) (by decide)

/-- C12 (counterexample). An `option` inside a `select` of size 50 x 20 whose
opacity is `0`: with `ignoreOpacity`, `P` answers `true` for the `select`, its
nearest enclosing `SELECT`, and `false` for the `option`. -/
theorem P_option_flag_counterexample :
    E (exSelectDoc "0") (fun f => L f (some "SELECT".data)) [0, 0, 0] = some [0, 0] ∧
    (P 2 (exSelectDoc "0") [0, 0] true).1 = .ok true ∧
    (P 2 (exSelectDoc "0") [0, 0, 0] true).1 = .ok false := by
  decide

/-- C12 (amended). For an `OPTION` or `OPTGROUP` at `p`: when no proper
ancestor is a `SELECT`, `P` answers `false`; when the ancestor `j` levels up
is a `SELECT` and none nearer is, the answer of `P` for the option, with
either value of `ignoreOpacity`, is the answer of the call `P(e)` for that
`SELECT`, which is made without `ignoreOpacity`. -/
theorem P_option_select (k : Nat) (root : Node) (p : Path) (b : Bool) (a : Elem)
    (ks : List Node)
    (hp : nodeAt root p = some (.elem a ks))
    (htag : toUpperCase a.tagName = "OPTION".data ∨ toUpperCase a.tagName = "OPTGROUP".data) :
    ((∀ i, 1 ≤ i → i ≤ p.length → L (nodeAt root (p.drop i)) (some "SELECT".data) = false) →
      P (k + 1) root p b = (.ok false, root)) ∧
    (∀ j, 1 ≤ j → j ≤ p.length → L (nodeAt root (p.drop j)) (some "SELECT".data) = true →
      (∀ i, 1 ≤ i → i < j → L (nodeAt root (p.drop i)) (some "SELECT".data) = false) →
      P (k + 1) root p b = P k root (p.drop j) false) := by
  constructor
  · intro h
    rw [P_special_or k root p b a ks hp htag,
      E_eq_none root (fun f => L f (some "SELECT".data)) p h]
  · intro j h1 h2 hsel hbelow
    rw [P_special_or k root p b a ks hp htag,
      E_eq_some root (fun f => L f (some "SELECT".data)) p j h1 h2 hsel hbelow]

/-- Witness for C12: an `option` directly inside a shown `select`, and an
`option` with no `select` above it. -/
theorem P_option_select_witness :
    P 2 exOptionDoc [0, 0, 0] true = P 1 exOptionDoc [0, 0] false ∧
    P 2 exLoneOptionDoc [0, 0] true = (.ok false, exLoneOptionDoc) :=
  ⟨(P_option_select 1 exOptionDoc [0, 0, 0] true (exElem "option" "none" 0 0)
      [.text "one".data] rfl (Or.inl (by decide))).2 1 (by decide) (by decide) (by decide)
      (by intro i h1 h2; omega),
    (P_option_select 1 exLoneOptionDoc [0, 0] true (exElem "option" "block" 50 20)
      [.text "one".data] rfl (Or.inl (by decide))).1 (by decide)⟩

/-- C13 (counterexample). The `area` inside the map `m` carries
`usemap="#m"`, on an engine without `document.evaluate`: it is an element, and
`P` yields no boolean for it; whatever room the stack has for the self-calls
of `P`, the call ends in the stack overflow of the engine. -/
theorem P_area_cycle_counterexample :
    L (nodeAt (exAreaCycleDoc exHostLa) [0, 0, 0]) none = true ∧
    ∀ k b, (P k (exAreaCycleDoc exHostLa) [0, 0, 0] b).1 = .overflow := by
  refine ⟨by decide, ?_⟩
  have step : ∀ k b, P (k + 2) (exAreaCycleDoc exHostLa) [0, 0, 0] b
      = P k (exAreaCycleDoc exHostLa) [0, 0, 0] false := fun _ _ => rfl
  have h : ∀ k, (P k (exAreaCycleDoc exHostLa) [0, 0, 0] false).1 = .overflow ∧
      (P (k + 1) (exAreaCycleDoc exHostLa) [0, 0, 0] false).1 = .overflow := by
    intro k
    induction k with
    | zero => exact ⟨rfl, rfl⟩
    | succ k ih => exact ⟨ih.2, by rw [step]; exact ih.1⟩
  intro k b
  match k with
  | 0 => rfl
  | 1 => cases b <;> rfl
  | k + 2 => rw [step]; exact (h k).1

/-- C13 (amended). When the argument is not an element (a text node, a
comment, a document, or no node), `P` fails with the error
`Argument to isShown must be of type Element`, whatever the styles and boxes
of the document.  When it is an element, `P` never fails with that error.  It
yields a boolean when its chain of self-calls ends after `n` calls without a
failed lookup and the stack has room for `n + 2` nested calls; for an element
that is neither a `MAP` nor an `AREA` room for two is enough.  On a chain that
does not end, the run lasts until the stack is used up; a named `MAP` then
answers `false` when the overflow is raised, and caught, inside `ma`. -/
theorem P_argument_error (root : Node) (p : Path) :
    (L (nodeAt root p) none = false →
      ∀ k b, P (k + 1) root p b = (.error .isShownArgument, root)) ∧
    (L (nodeAt root p) none = true →
      ∀ k b, (P k root p b).1 ≠ .error .isShownArgument) ∧
    (L (nodeAt root p) none = true → ∀ n, chainEnds root n p = true →
      ∀ k b, n + 2 ≤ k → ∃ v, P k root p b = (.ok v, root)) ∧
    (∀ a ks, nodeAt root p = some (.elem a ks) → toUpperCase a.tagName ≠ "MAP".data →
      toUpperCase a.tagName ≠ "AREA".data →
      ∀ k b, ∃ v, P (k + 2) root p b = (.ok v, root)) ∧
    (∀ h rs a ks, root = .document h rs → h.evaluate = true → h.overflowInLookup = true →
      nodeAt root p = some (.elem a ks) → toUpperCase a.tagName = "MAP".data →
      ∀ b, P 1 root p b = (.ok false, root)) := by
  refine ⟨?_, ?_, ?_, ?_, ?_⟩
  · intro h k b
    simp only [P]
    split
    · rename_i a ks hp
      rw [hp] at h
      cases h
    · rfl
  · intro h k b
    exact P_no_argument_error root k p b h
  · intro h n hn k b hk
    obtain ⟨v, hv⟩ := (P_of_chainEnds root n p b h hn k hk).2
    exact ⟨v, Prod.ext hv (P_snd k root p b)⟩
  · intro a ks hp hmap harea k b
    have key : ∀ q c e es, nodeAt root q = some (.elem e es) →
        toUpperCase e.tagName ∉
          ["TITLE".data, "OPTION".data, "OPTGROUP".data, "MAP".data, "AREA".data] →
        ∀ j, ∃ v, P (j + 1) root q c = (.ok v, root) := by
      intro q c e es hq htag j
      rw [P_plain j root q c e es hq htag]
      split_ifs <;> exact ⟨_, rfl⟩
    rcases tag_cases a with h1 | h2 | h3 | h4 | h5
    · exact ⟨_, P_title (k + 1) root p b a ks hp h1⟩
    · rw [P_special_or (k + 1) root p b a ks hp h2]
      cases he : E root (fun f => L f (some "SELECT".data)) p with
      | none => exact ⟨_, rfl⟩
      | some e =>
        obtain ⟨s2, sks, hs, hstag⟩ := tag_of_L (by decide) (E_some he)
        exact key e false s2 sks hs (by rw [hstag]; decide) k
    · exact absurd h3 hmap
    · exact absurd h4 harea
    · exact key p b a ks hp h5 (k + 1)
  · intro h rs a ks hroot hev hov hp hmap b
    subst hroot
    rw [P_map 0 _ p b a ks hp hmap]
    split_ifs
    · rfl
    · simp [usemapRef, hasEvaluate, hev, ma, xpathNode, hov]

/-- Witness for C13: the text node inside a `span`, the `span` itself, and
the map of the cyclic example on an engine that raises the overflow inside
`ma`. -/
theorem P_argument_error_witness :
    P 1 exNoneDoc [0, 0, 0, 0] false = (.error .isShownArgument, exNoneDoc) ∧
    (∃ v, P 2 exNoneDoc [0, 0, 0] false = (.ok v, exNoneDoc)) ∧
    P 1 (exAreaCycleDoc exHostCatch) [0, 0] true = (.ok false, exAreaCycleDoc exHostCatch) :=
  ⟨(P_argument_error exNoneDoc [0, 0, 0, 0]).1 (by decide) 0 false,
    (P_argument_error exNoneDoc [0, 0, 0]).2.2.1 (by decide) 0 (by decide) 2 false
      (by decide),
    (P_argument_error (exAreaCycleDoc exHostCatch) [0, 0]).2.2.2.2 exHostCatch _ exMap _
      rfl rfl rfl rfl (by decide) true⟩

/-- C15 (counterexample). Two snapshots that differ only in the opacity of a
`select`: `P` with `ignoreOpacity` on the `option` inside answers `false` when
the opacity of the `select` is `0` and `true` when it is `1`, while `P` with
`ignoreOpacity` on the `select` itself answers `true` in both. -/
theorem P_option_opacity_leak :
    (P 2 (exSelectDoc "0") [0, 0, 0] true).1 = .ok false ∧
    (P 2 (exSelectDoc "1") [0, 0, 0] true).1 = .ok true ∧
    (P 1 (exSelectDoc "0") [0, 0] true).1 = .ok true ∧
    (P 1 (exSelectDoc "1") [0, 0] true).1 = .ok true := by
  decide

/-- C15 (amended). For an element whose tag is none of `OPTION`, `OPTGROUP`,
`MAP`, `AREA`, and two snapshots of the document that differ only in opacity
values, `P` with `ignoreOpacity` gives the same answer on both.  On the four
tags the second argument is not read and is not passed on: `P` with
`ignoreOpacity` is `P` without it, the answer of the call `P(e)` for the
element the decision is handed to. -/
theorem P_ignoreOpacity_snapshots (k : Nat) (root1 root2 : Node) (p : Path) (a : Elem)
    (ks : List Node) (hsame : Node.sameButOpacity root1 root2)
    (hp : nodeAt root1 p = some (.elem a ks)) :
    (toUpperCase a.tagName ∉ ["OPTION".data, "OPTGROUP".data, "MAP".data, "AREA".data] →
      (P (k + 1) root1 p true).1 = (P (k + 1) root2 p true).1) ∧
    (toUpperCase a.tagName ∈ ["OPTION".data, "OPTGROUP".data, "MAP".data, "AREA".data] →
      P k root1 p true = P k root1 p false) := by
  constructor
  · intro htag
    exact P_same hsame k p a ks hp htag
  · intro htag
    exact (P_special_indep k root1 p a ks hp (List.mem_cons_of_mem _ htag)).symm

/-- Witness for C15: the `select` of the two snapshots, with opacity `0` and
with opacity `1`. -/
theorem P_ignoreOpacity_snapshots_witness :
    (P 1 (exSelectDoc "0") [0, 0] true).1 = (P 1 (exSelectDoc "1") [0, 0] true).1 :=
  (P_ignoreOpacity_snapshots 0 (exSelectDoc "0") (exSelectDoc "1") [0, 0] (exSelect "0")
    [.elem (exElem "option" "block" 50 20) [.text "one".data]] (exSelectDoc_same "0" "1")
    rfl).1 (by decide)
/-- C16 (counterexample). `ra` on the document node and on a text node: the
call fails, but with the engine's `TypeError` of a style read on a node that
has no style, not with the error `Argument to isShown must be of type
Element`. -/
theorem ra_non_element_counterexample :
    L (nodeAt exNoneDoc []) none = false ∧
    (ra 1 exNoneDoc []).1 = .error .typeError ∧
    (ra 1 exNoneDoc []).1 ≠ .error .isShownArgument ∧
    nodeAt exNoneDoc [0, 0, 0, 0] = some (.text "x".data) ∧
    (ra 1 exNoneDoc [0, 0, 0, 0]).1 = .error .typeError := by
  refine ⟨by decide, by decide, by decide, rfl, by decide⟩

/-- C16 (amended). When the node given to `ra` is not an element (a document,
a text node, a comment, or no node), `ra` returns no string: it fails with a
`TypeError`, raised by the style lookup of its first step.  The error
`Argument to isShown must be of type Element` is never the outcome of `ra`,
for any argument. -/
theorem ra_non_element (k : Nat) (root : Node) (p : Path)
    (h : L (nodeAt root p) none = false) :
    ra k root p = (.error .typeError, root) ∧
    (∀ r, (ra k root p).1 ≠ .ok r) ∧
    (∀ q, (ra k root q).1 ≠ .error .isShownArgument) := by
  have h1 : ra k root p = (.error .typeError, root) := by
    unfold ra
    cases hn : nodeAt root p with
    | none => rfl
    | some n =>
      cases n with
      | elem a ks =>
        rw [hn] at h
        cases h
      | text v => simp [R]
      | comment v => simp [R]
      | document v ks => simp [R]
  refine ⟨h1, ?_, fun q => ra_no_argument_error k root q⟩
  intro r
  rw [h1]
  simp

/-- Witness for C16: `ra` on the document node. -/
theorem ra_non_element_witness :
    ra 3 exNoneDoc [] = (.error .typeError, exNoneDoc) :=
  (ra_non_element 3 exNoneDoc [] (by decide)).1

/-- C17 (counterexample). Without computed style, a `p`, its `body` and its
`html` all have `display: inherit`: no ancestor yields a value, and the
resolved `display` of the `p` is `null` (`none`), not the empty string. -/
theorem N_inherit_counterexample :
    K (exCascadeElem "p" "inherit") (ga "display".data) = [] ∧
    (exCascadeElem "p" "inherit").style "display".data = some "inherit".data ∧
    N exInheritDoc [0, 0, 0] "display".data = none ∧
    N exInheritDoc [0, 0, 0] "display".data ≠ some [] := by
  decide

/-- C17 (amended). Resolved style `N(a, b)` of an element.  A non-empty
computed value is the result as it stands.  Otherwise the result is the
cascaded lookup `O`: the element's own (`currentStyle` or `style`) value when
that is not `"inherit"`; when it is `"inherit"`, the cascaded lookup of the
parent element, and `null` when there is no parent element.  The cascaded
lookup is never `"inherit"`, so the result is `"inherit"` only if the computed
value is. -/
theorem N_inherit (root : Node) (p : Path) (a : Elem) (b : Str)
    (ha : elemAt root p = some a) :
    (K a (ga b) ≠ [] → N root p b = some (K a (ga b))) ∧
    (K a (ga b) = [] → N root p b = O root (ga b) p) ∧
    ((a.currentStyle.getD a.style) (ga b) ≠ some "inherit".data →
      O root (ga b) p = (a.currentStyle.getD a.style) (ga b)) ∧
    ((a.currentStyle.getD a.style) (ga b) = some "inherit".data →
      ∀ i q, p = i :: q → L (nodeAt root q) none = true →
        O root (ga b) p = O root (ga b) q) ∧
    ((a.currentStyle.getD a.style) (ga b) = some "inherit".data → M root p = none →
      O root (ga b) p = none) ∧
    O root (ga b) p ≠ some "inherit".data ∧
    (K a (ga b) ≠ "inherit".data → N root p b ≠ some "inherit".data) := by
  have hN1 : K a (ga b) ≠ [] → N root p b = some (K a (ga b)) := by
    intro h
    simp only [N, ha, h, ne_eq, not_false_eq_true, if_true]
  have hN2 : K a (ga b) = [] → N root p b = O root (ga b) p := by
    intro h
    simp only [N, ha, h, ne_eq, not_true_eq_false, if_false]
  refine ⟨hN1, hN2, O_eq_of_not_inherit root (ga b) p a ha, ?_,
    O_inherit_top root (ga b) p a ha, O_ne_inherit root (ga b) p, ?_⟩
  · intro h i q hp hq
    subst hp
    exact O_inherit_parent root (ga b) i q a ha h hq
  · intro hK
    by_cases h : K a (ga b) = []
    · rw [hN2 h]
      exact O_ne_inherit root (ga b) p
    · rw [hN1 h]
      intro heq
      exact hK (Option.some.inj heq)

/-- Witness for C17: a `p` with `display: inherit` inside a `body` with
`display: block`. -/
theorem N_inherit_witness :
    N exInheritBlockDoc [0, 0, 0] "display".data = O exInheritBlockDoc "display".data [0, 0, 0] ∧
    O exInheritBlockDoc "display".data [0, 0, 0] = O exInheritBlockDoc "display".data [0, 0] ∧
    O exInheritBlockDoc "display".data [0, 0] = some "block".data :=
  ⟨(N_inherit exInheritBlockDoc [0, 0, 0] (exCascadeElem "p" "inherit") "display".data
      rfl).2.1 (by decide),
    (N_inherit exInheritBlockDoc [0, 0, 0] (exCascadeElem "p" "inherit") "display".data
      rfl).2.2.2.1 (by decide) 0 [0, 0] rfl (by decide),
    by decide⟩

set_option maxRecDepth 8000 in
/-- C18 (counterexample). A `body` whose opacity is the unparseable `abc`
around a `span` whose opacity is `0`: the effective opacity of the `body` is
`NaN`, not `1`, and that of the `span` is `NaN` too, not `0`, although its own
opacity is `0`.  A `body` and a `span` that both have opacity `1e-162`: no own
opacity is zero, and the effective opacity of the `span` is zero, the product
being too small for a double. -/
theorem Q_unparseable_counterexample :
    (N exNaNDoc [0] "opacity".data = some "abc".data ∧
      Q exNaNDoc [0] = .nan ∧
      (ownOpacity exNaNDoc [0, 0]).isZero = true ∧
      Q exNaNDoc [0, 0] = .nan ∧
      (Q exNaNDoc [0, 0]).isZero = false) ∧
    ((ownOpacity exTinyDoc [0]).isZero = false ∧
      (ownOpacity exTinyDoc [0, 0]).isZero = false ∧
      (Q exTinyDoc [0, 0]).isZero = true) := by
  decide

/-- C18 (amended). Effective opacity `Q` in double arithmetic.  `Q` is the
product of the own opacity values along the chain of the element and its
ancestor elements, each own value multiplied with the product of those above
it, where an opacity that is absent (`null` or empty) counts as `1` and any
other is `Number(c)`.  An own value that is `NaN` (an unparseable opacity)
makes the product `NaN`.  When every own value on the chain lies in `[0, 1]`,
so does the product, and it is zero when some own value on the chain is. -/
theorem Q_product (root : Node) (p : Path) :
    Q root p = Num.prod ((elementChain root p).map (ownOpacity root)) ∧
    (∀ q, N root q "opacity".data = none ∨ N root q "opacity".data = some [] →
      ownOpacity root q = Num.one) ∧
    (∀ q x, N root q "opacity".data = some x → x ≠ [] → ownOpacity root q = Number x) ∧
    ((∃ q ∈ elementChain root p, ownOpacity root q = .nan) → Q root p = .nan) ∧
    ((∀ q ∈ elementChain root p, (ownOpacity root q).inUnit = true) →
      (Q root p).inUnit = true ∧
      ((∃ q ∈ elementChain root p, (ownOpacity root q).isZero = true) →
        (Q root p).isZero = true)) := by
  refine ⟨Q_eq_prod root p, ?_, ?_, ?_, ?_⟩
  · rintro q (h | h) <;> simp [ownOpacity, h]
  · intro q x h hx
    simp [ownOpacity, h, hx]
  · rintro ⟨q, hq, hnan⟩
    rw [Q_eq_prod]
    apply Num_prod_nan
    rw [← hnan]
    exact List.mem_map_of_mem _ hq
  · intro hall
    rw [Q_eq_prod]
    have h := Num_prod_inUnit ((elementChain root p).map (ownOpacity root)) (by
      intro x hx
      obtain ⟨q, hq, rfl⟩ := List.mem_map.mp hx
      exact hall q hq)
    refine ⟨h.1, ?_⟩
    rintro ⟨q, hq, hz⟩
    exact h.2 ⟨_, List.mem_map_of_mem _ hq, hz⟩

set_option maxRecDepth 8000 in
/-- Witness for C18: a `span` with opacity `0.5` inside a `body` with opacity
`0.5`; the effective opacity is `2 ^ 52 * 2 ^ (-54)`, a quarter. -/
theorem Q_product_witness :
    Q exHalfDoc [0, 0] = .fin false 4503599627370496 (-54) ∧
    (Q exHalfDoc [0, 0]).inUnit = true :=
  ⟨by decide, ((Q_product exHalfDoc [0, 0]).2.2.2.2 (by decide)).1⟩

/-- C19. Normal form of the output of `ra`: any string it returns holds no
two adjacent spaces and no space next to a newline (`adjacentOk` for every
pair of neighbours), no whitespace character other than the space and the
newline, and neither starts nor ends with whitespace.  The text step keeps
the invariant of the line buffer that no line holds two adjacent spaces. -/
theorem ra_normal_form (k : Nat) (root : Node) (p : Path) (r : Str)
    (h : (ra k root p).1 = .ok r) :
    List.Chain' adjacentOk r ∧
    (∀ ch ∈ r, isWs ch = true → ch = ' ' ∨ ch = '\n') ∧
    (∀ ch, r.head? = some ch → isWs ch = false) ∧
    (∀ ch, r.getLast? = some ch → isWs ch = false) ∧
    (∀ b b2 v, (∀ l ∈ b, List.Chain' (fun x y => ¬ (x = ' ' ∧ y = ' ')) l) →
      appendText b v = some b2 →
      ∀ l ∈ b2, List.Chain' (fun x y => ¬ (x = ' ' ∧ y = ' ')) l) := by
  have key : List.Chain' adjacentOk r ∧
      (∀ ch ∈ r, isWs ch = true → ch = ' ' ∨ ch = '\n') ∧
      (∀ ch, r.head? = some ch → isWs ch = false) ∧
      (∀ ch, r.getLast? = some ch → isWs ch = false) := by
    cases hn : nodeAt root p with
    | none => simp [ra, hn] at h
    | some a =>
      simp only [ra, hn] at h
      have h1 := R_inv (fun l => List.Chain' (fun x y => ¬ (x = ' ' ∧ y = ' ')) l)
        List.chain'_nil appendText_chain k a p [[]] root
      have h2 := R_inv (fun l => ∀ ch ∈ l, isWs ch = true → ch = ' ')
        (by intro ch hch; cases hch) appendText_ws k a p [[]] root
      generalize R k a p [[]] root = res at h h1 h2
      obtain ⟨v1, r2⟩ := res
      cases v1 with
      | ok b2 =>
        simp only [Res.ok.injEq] at h
        subst h
        exact ra_finish_normal b2
          (h1 b2 (by
            intro l hl
            simp only [List.mem_singleton] at hl
            subst hl
            exact List.chain'_nil) rfl)
          (h2 b2 (by
            intro l hl ch hch
            simp only [List.mem_singleton] at hl
            subst hl
            cases hch) rfl)
      | error err => cases h
      | overflow => cases h
  exact ⟨key.1, key.2.1, key.2.2.1, key.2.2.2, appendText_chain⟩

/-- Witness for C19: the text of the `span` with a `br` between two runs. -/
theorem ra_normal_form_witness :
    List.Chain' adjacentOk "Hello world\nsecond line".data ∧
    (∀ ch ∈ "Hello world\nsecond line".data, isWs ch = true → ch = ' ' ∨ ch = '\n') :=
  ⟨(ra_normal_form 1 exBrDoc [0, 0] "Hello world\nsecond line".data (by decide)).1,
    (ra_normal_form 1 exBrDoc [0, 0] "Hello world\nsecond line".data (by decide)).2.1⟩

/-- C20. Monotonicity in `ignoreOpacity`: if `P` without `ignoreOpacity`
answers `true`, so does `P` with it; and the two outcomes differ only on an
element that has none of the tags with a rule of their own, is not a hidden
input, passes the visibility and display checks and has effective opacity
zero (there the first is `false` and the second is the size check). -/
theorem P_ignoreOpacity_monotone (k : Nat) (root : Node) (p : Path) :
    ((P k root p false).1 = .ok true → (P k root p true).1 = .ok true) ∧
    (P k root p false ≠ P k root p true →
      ∃ a ks, nodeAt root p = some (.elem a ks) ∧
        toUpperCase a.tagName ∉
          ["TITLE".data, "OPTION".data, "OPTGROUP".data, "MAP".data, "AREA".data] ∧
        ¬ (toUpperCase a.tagName = "INPUT".data ∧ toLowerCase a.type = "hidden".data) ∧
        N root p "visibility".data ≠ some "hidden".data ∧
        c root p = true ∧ (Q root p).isZero = true ∧
        P k root p false = (.ok false, root) ∧
        P k root p true = (.ok (d (.elem a ks) p root).1, root)) := by
  refine ⟨?_, P_differs_only_plain k root p⟩
  intro h
  by_cases heq : P k root p false = P k root p true
  · rw [← heq]
    exact h
  · obtain ⟨a, ks, -, -, -, -, -, -, hf, -⟩ := P_differs_only_plain k root p heq
    rw [hf] at h
    cases h

/-- Witness for C20: the transparent `span`, where the two outcomes differ. -/
theorem P_ignoreOpacity_monotone_witness :
    ∃ a ks, nodeAt exOpacityDoc [0, 0] = some (.elem a ks) ∧
      toUpperCase a.tagName ∉
        ["TITLE".data, "OPTION".data, "OPTGROUP".data, "MAP".data, "AREA".data] ∧
      ¬ (toUpperCase a.tagName = "INPUT".data ∧ toLowerCase a.type = "hidden".data) ∧
      N exOpacityDoc [0, 0] "visibility".data ≠ some "hidden".data ∧
      c exOpacityDoc [0, 0] = true ∧ (Q exOpacityDoc [0, 0]).isZero = true ∧
      P 1 exOpacityDoc [0, 0] false = (.ok false, exOpacityDoc) ∧
      P 1 exOpacityDoc [0, 0] true
        = (.ok (d (.elem a ks) [0, 0] exOpacityDoc).1, exOpacityDoc) :=
  (P_ignoreOpacity_monotone 1 exOpacityDoc [0, 0]).2 (by
    intro h
    have h1 : (P 1 exOpacityDoc [0, 0] false).1 = .ok false := by decide
    have h2 : (P 1 exOpacityDoc [0, 0] true).1 = .ok true := by decide
    rw [h, h2] at h1
    cases h1)

end GetText
